import Mathlib

/-
  Shallow embedding of the number-loom nonogram solver core
  (src/line_solve.rs, src/grid_solve.rs, src/puzzle.rs, src/import.rs),
  together with theorems settling a list of claims about it.

  Machine integers: the source stores cell masks in a u32 and uses usize
  for indices and i32 for heuristic scores.  Masks are embedded as Nat;
  every color that can reach a mask is a palette color below 32, so no
  u32 wraparound occurs on the embedded operations.  Scores are embedded
  as Int with the i32 saturation points made explicit where the source
  saturates.  Where a usize subtraction or an index could underflow or
  go out of bounds (a Rust panic), the embedding returns the explicit
  outcome SR.crash.
-/

namespace NumberLoom

/-- Color is a small integer identifier; u8 in the source (puzzle.rs). -/
structure Color where
  c : Nat
deriving DecidableEq, Repr

/-- Background color constant (puzzle.rs). -/
def BACKGROUND : Color := ⟨0⟩

/-- Sentinel color for unsolved cells in fully-known grids (puzzle.rs). -/
def UNSOLVED : Color := ⟨255⟩

/-- Outcome of running embedded solver code: a value, an anyhow error
(contradiction / unsatisfiable line), or a Rust panic (out-of-bounds
index or unsigned underflow).  The source never catches a panic, and
catches line-solver errors only where modelled explicitly. -/
inductive SR (α : Type) where
  | crash : SR α
  | contra : SR α
  | ok : α → SR α
deriving Repr, DecidableEq

def SR.bind {α β : Type} : SR α → (α → SR β) → SR β
  | .crash, _ => .crash
  | .contra, _ => .contra
  | .ok a, f => f a

instance : Monad SR where
  pure := SR.ok
  bind := SR.bind

/-- Checked usize subtraction: Rust panics on underflow. -/
def subC (a b : Nat) : SR Nat :=
  if b ≤ a then .ok (a - b) else .crash

/-- Cell: bitmask over the palette; bit i is set iff color i is still
possible (line_solve.rs, struct Cell { possible_color_mask: u32 }). -/
structure Cell where
  possible_color_mask : Nat
deriving DecidableEq, Repr

def Cell.raw (cell : Cell) : Nat := cell.possible_color_mask

/-- Cell::new_anything (u32::MAX mask). -/
def Cell.new_anything : Cell := ⟨2 ^ 32 - 1⟩

def Cell.new_impossible : Cell := ⟨0⟩

def Cell.from_color (color : Color) : Cell := ⟨1 <<< color.c⟩

def Cell.actually_could_be (cell : Cell) (color : Color) : Cell :=
  ⟨cell.possible_color_mask ||| (1 <<< color.c)⟩

def Cell.from_colors (colors : List Color) : Cell :=
  colors.foldl Cell.actually_could_be Cell.new_impossible

/-- Cell::is_known: u32::is_power_of_two on the mask. -/
def Cell.is_known (cell : Cell) : Bool :=
  cell.possible_color_mask != 0 &&
    (cell.possible_color_mask &&& (cell.possible_color_mask - 1)) == 0

def Cell.is_known_to_be (cell : Cell) (color : Color) : Bool :=
  cell.possible_color_mask == 1 <<< color.c

def Cell.can_be (cell : Cell) (color : Color) : Bool :=
  (cell.possible_color_mask &&& (1 <<< color.c)) != 0

/-- Cell::can_be_iter: collects the colors of the set bits among 0..32. -/
def Cell.can_be_iter (cell : Cell) : List Color :=
  (List.range 32).filterMap fun i =>
    if (cell.possible_color_mask &&& (1 <<< i)) != 0 then some ⟨i⟩ else none

/-- Binary logarithm, u32::ilog2: Nat.log2's recursion with an explicit
structural fuel (n halvings always suffice for n). -/
def ilog2_aux : Nat → Nat → Nat
  | 0, _ => 0
  | fuel + 1, n => if 2 ≤ n then ilog2_aux fuel (n / 2) + 1 else 0

def ilog2 (n : Nat) : Nat := ilog2_aux n n

/-- Cell::known_or: ilog2 of the mask when it is a power of two. -/
def Cell.known_or (cell : Cell) : Option Color :=
  if cell.is_known then some ⟨ilog2 cell.possible_color_mask⟩ else none

def Cell.contradictory (cell : Cell) : Bool :=
  cell.possible_color_mask == 0

/-- Cell::learn: restrict to a singleton; contradiction when the color
was impossible.  Returns whether anything new was discovered. -/
def Cell.learn (cell : Cell) (color : Color) : SR (Bool × Cell) :=
  if !cell.can_be color then .contra
  else .ok (!cell.is_known, Cell.from_color color)

/-- Cell::learn_intersect: keep only bits possible on both sides. -/
def Cell.learn_intersect (cell : Cell) (possible : Cell) : SR (Bool × Cell) :=
  if cell.possible_color_mask &&& possible.possible_color_mask == 0 then .contra
  else
    .ok (cell.possible_color_mask &&& possible.possible_color_mask
            != cell.possible_color_mask,
         ⟨cell.possible_color_mask &&& possible.possible_color_mask⟩)

/-- Cell::learn_that_not: clear one bit; contradiction when it was the
only possibility.  Clearing bit c of a Nat mask is xor-ing away the bit
when it is present, which is exactly the u32 operation mask AND NOT bit. -/
def Cell.learn_that_not (cell : Cell) (color : Color) : SR (Bool × Cell) :=
  if cell.is_known_to_be color then .contra
  else
    .ok (cell.can_be color,
         ⟨cell.possible_color_mask
            ^^^ (cell.possible_color_mask &&& (1 <<< color.c))⟩)

/-- Clue style tag (puzzle.rs, enum ClueStyle). -/
inductive ClueStyle where
  | Nono : ClueStyle
  | Triano : ClueStyle
deriving DecidableEq, Repr

/-- Clue capability set shared by Nono and Triano (puzzle.rs, trait Clue).
Only the members the solver core uses are embedded; the display helpers
(to_string, html_color, html_text, express, to_dyn) do not affect it. -/
class Clue (C : Type) where
  style : ClueStyle
  len : C → Nat
  color_at : C → Nat → Color
  must_be_separated_from : C → C → Bool

/-- Nono clue: a run of count cells of one color (puzzle.rs). -/
structure Nono where
  color : Color
  count : Nat
deriving DecidableEq, Repr

instance : Clue Nono where
  style := ClueStyle.Nono
  len n := n.count
  color_at n _ := n.color
  must_be_separated_from a b := a.color == b.color

/-- Triano clue: optional one-cell caps around a body run (puzzle.rs). -/
structure Triano where
  front_cap : Option Color
  body_len : Nat
  body_color : Color
  back_cap : Option Color
deriving DecidableEq, Repr

def Triano.len (t : Triano) : Nat :=
  t.body_len + (if t.front_cap.isSome then 1 else 0)
    + (if t.back_cap.isSome then 1 else 0)

/-- Triano::color_at, with the source match arms in order: index 0 with a
front cap present reports the front cap; otherwise index len-1 with a
back cap present reports the back cap; otherwise the body color. -/
def Triano.color_at (t : Triano) (idx : Nat) : Color :=
  match idx, t.front_cap with
  | 0, some cap => cap
  | _, _ =>
    match t.back_cap with
    | some cap => if idx = t.len - 1 then cap else t.body_color
    | none => t.body_color

instance : Clue Triano where
  style := ClueStyle.Triano
  len := Triano.len
  color_at := Triano.color_at
  must_be_separated_from a b :=
    a.body_color == b.body_color && a.back_cap.isNone && b.front_cap.isNone

/-- Checked list indexing: Rust slice/ndarray indexing panics out of bounds. -/
def listGetC {α : Type} (xs : List α) (i : Nat) : SR α :=
  match xs.get? i with
  | some a => .ok a
  | none => .crash

/-- Checked last element: Option::unwrap on last() panics when empty. -/
def listLastC {α : Type} (xs : List α) : SR α :=
  match xs.getLast? with
  | some a => .ok a
  | none => .crash

/-- Monadic loop over idx = start, start+1, ..., start+n-1 threading a state,
the embedding of the source for-loops over index ranges. -/
def forRangeM {σ : Type} (f : σ → Nat → SR σ) : σ → Nat → Nat → SR σ
  | s, _, 0 => .ok s
  | s, start, n + 1 => do
    let s2 ← f s start
    forRangeM f s2 (start + 1) n

/-- Monadic fold over a list threading a state. -/
def foldListM {σ α : Type} (f : σ → α → SR σ) : σ → List α → SR σ
  | s, [] => .ok s
  | s, a :: as => do
    let s2 ← f s a
    foldListM f s2 as

/-- A lane being mutated plus the affected-cell indices pushed so far,
the (lane, affected_cells) pair threaded through line_solve.rs. -/
structure LaneSt where
  lane : List Cell
  affected : List Nat
deriving DecidableEq, Repr

/-- learn_cell (line_solve.rs): learn a color at idx, recording idx when
the cell changed. -/
def learn_cell (color : Color) (st : LaneSt) (idx : Nat) : SR LaneSt := do
  let cell ← listGetC st.lane idx
  let r ← cell.learn color
  pure { lane := st.lane.set idx r.2,
         affected := if r.1 then st.affected ++ [idx] else st.affected }

/-- learn_cell_intersect (line_solve.rs). -/
def learn_cell_intersect (possibilities : Cell) (st : LaneSt) (idx : Nat) :
    SR LaneSt := do
  let cell ← listGetC st.lane idx
  let r ← cell.learn_intersect possibilities
  pure { lane := st.lane.set idx r.2,
         affected := if r.1 then st.affected ++ [idx] else st.affected }

/-- learn_cell_not (line_solve.rs). -/
def learn_cell_not (color : Color) (st : LaneSt) (idx : Nat) : SR LaneSt := do
  let cell ← listGetC st.lane idx
  let r ← cell.learn_that_not color
  pure { lane := st.lane.set idx r.2,
         affected := if r.1 then st.affected ++ [idx] else st.affected }

/-- The lane_at closure of packed_extents: reads the lane from the left or,
when reversed, from the right (the source subtractions are usize). -/
def lane_at (lane : List Cell) (reversed : Bool) (idx : Nat) : SR Cell :=
  if reversed then do
    let j ← subC lane.length 1
    let j2 ← subC j idx
    listGetC lane j2
  else listGetC lane idx

/-- The clue_at closure of packed_extents. -/
def clue_at {C : Type} (clues : List C) (reversed : Bool) (idx : Nat) : SR C :=
  if reversed then do
    let j ← subC clues.length 1
    let j2 ← subC j idx
    listGetC clues j2
  else listGetC clues idx

/-- The clue_color_at closure of packed_extents. -/
def clue_color_at {C : Type} [Clue C] (reversed : Bool) (clue : C) (idx : Nat) :
    SR Color :=
  if reversed then do
    let j ← subC (Clue.len clue) 1
    let j2 ← subC j idx
    pure (Clue.color_at clue j2)
  else pure (Clue.color_at clue idx)

/-- One pass of the inner placement check of packed_extents: walks the clue
footprint at a candidate position; ok true when every footprint cell is
compatible, ok false at the first mismatch (the source then advances pos),
contra when the footprint runs past the lane (the source bails). -/
def place_attempt {C : Type} [Clue C] (lane : List Cell) (reversed : Bool)
    (clue : C) (pos : Nat) : Nat → Nat → SR Bool
  | _, 0 => .ok true
  | ci, k + 1 => do
    let possible_pos := pos + ci
    if lane.length ≤ possible_pos then .contra
    else do
      let cur ← lane_at lane reversed possible_pos
      let cc ← clue_color_at reversed clue ci
      if !cur.can_be cc then .ok false
      else place_attempt lane reversed clue pos (ci + 1) k

/-- The while !placeable loop of packed_extents: advance pos until the clue
fits.  The fuel only bounds the embedding recursion; the source loop always
either fits or bails within lane.length steps, so callers pass
lane.length + 2 and the fuel is never exhausted. -/
def find_placement {C : Type} [Clue C] (lane : List Cell) (reversed : Bool)
    (clue : C) : Nat → Nat → SR Nat
  | 0, _ => .crash
  | fuel + 1, pos => do
    let b ← place_attempt lane reversed clue pos 0 (Clue.len clue)
    if b then .ok pos else find_placement lane reversed clue fuel (pos + 1)

/-- State of the left-to-right packing scan in packed_extents. -/
structure PackSt (C : Type) where
  pos : Nat
  extents : List Nat
  last_clue : Option C

/-- The separation advance at the top of the packing scan: one cell of
gap when the previous clue must be separated from this one. -/
def sep_advance {C : Type} [Clue C] (reversed : Bool) (last_clue : Option C)
    (clue : C) (pos : Nat) : Nat :=
  match last_clue with
  | some lc =>
    if !reversed then
      if Clue.must_be_separated_from lc clue then pos + 1 else pos
    else
      if Clue.must_be_separated_from clue lc then pos + 1 else pos
  | none => pos

/-- One iteration of the packing scan of packed_extents. -/
def pack_step {C : Type} [Clue C] (clues : List C) (lane : List Cell)
    (reversed : Bool) (st : PackSt C) (clue_idx : Nat) : SR (PackSt C) := do
  let clue ← clue_at clues reversed clue_idx
  let pos1 := sep_advance reversed st.last_clue clue st.pos
  let pos2 ← find_placement lane reversed clue (lane.length + 2) pos1
  let ext ← subC (pos2 + Clue.len clue) 1
  pure { pos := pos2 + Clue.len clue,
         extents := st.extents ++ [ext],
         last_clue := some clue }

/-- The orphan pull-in loop of packed_extents: scan from the right end; a
cell that cannot be Background pulls the current extent out to cover it,
then the scan skips past that clue footprint.  Fuel bounds the embedding
recursion only; callers pass (lane.length + 2) * (clues.length + 2), which
the loop never exhausts since i decreases between pulls and the extent
index decreases at each pull. -/
def orphan_loop {C : Type} [Clue C] (clues : List C) (lane : List Cell)
    (reversed : Bool) : Nat → List Nat → Nat → Nat → SR (List Nat)
  | 0, _, _, _ => .crash
  | fuel + 1, extents, cur, i => do
    let cell ← lane_at lane reversed i
    if !cell.can_be BACKGROUND then do
      let e ← listGetC extents cur
      let extents2 := if e < i then extents.set cur i else extents
      let e2 ← listGetC extents2 cur
      let cl ← clue_at clues reversed cur
      let i2 ← subC (e2 + 1) (Clue.len cl)
      if cur == 0 then pure extents2
      else if i2 == 0 then pure extents2
      else orphan_loop clues lane reversed fuel extents2 (cur - 1) (i2 - 1)
    else
      if i == 0 then pure extents
      else orphan_loop clues lane reversed fuel extents cur (i - 1)

/-- The reversed-coordinate fixup at the end of packed_extents. -/
def rev_fix (laneLen : Nat) : List Nat → SR (List Nat)
  | [] => pure []
  | e :: rest => do
    let a ← subC laneLen e
    let b ← subC a 1
    let rest2 ← rev_fix laneLen rest
    pure (b :: rest2)

/-- packed_extents (line_solve.rs): the rightmost occupied index of each
clue when all clues are packed as far as possible toward the chosen end,
after the orphan pull-in pass. -/
def packed_extents {C : Type} [Clue C] (clues : List C) (lane : List Cell)
    (reversed : Bool) : SR (List Nat) := do
  let st ← forRangeM (pack_step clues lane reversed)
    ⟨0, [], none⟩ 0 clues.length
  let cur0 ← subC st.extents.length 1
  let i0 ← subC lane.length 1
  let extents ← orphan_loop clues lane reversed
    ((lane.length + 2) * (clues.length + 2)) st.extents cur0 i0
  if reversed then rev_fix lane.length extents.reverse
  else pure extents

/-- The union of Background and every color any clue can show, computed by
the color-pruning prologue of skim_line. -/
def line_colors {C : Type} [Clue C] (clues : List C) : Cell :=
  clues.foldl
    (fun acc c =>
      (List.range (Clue.len c)).foldl
        (fun acc2 i => acc2.actually_could_be (Clue.color_at c i)) acc)
    (Cell.from_color BACKGROUND)

/-- The first component of one ClueAdjIterator item: whether the clue at
index i must be separated from its predecessor. -/
def separation_before {C : Type} [Clue C] (clues : List C) (clue : C)
    (i : Nat) : SR Bool :=
  if i = 0 then pure false
  else do
    let prev ← listGetC clues (i - 1)
    pure (Clue.must_be_separated_from prev clue)

/-- The last component of one ClueAdjIterator item: whether the clue at
index i must be separated from its successor. -/
def separation_after {C : Type} [Clue C] (clues : List C) (clue : C)
    (i : Nat) : SR Bool :=
  if i + 1 = clues.length then pure false
  else do
    let next ← listGetC clues (i + 1)
    pure (Clue.must_be_separated_from clue next)

/-- One iteration of the overlap write-out loop of skim_line (one clue,
its ClueAdjIterator separation flags, and its two packed extents). -/
def overlap_step {C : Type} [Clue C] (clues : List C)
    (left_packed_right_extents right_packed_left_extents : List Nat)
    (st : LaneSt) (i : Nat) : SR LaneSt := do
  let clue ← listGetC clues i
  let gap_before ← separation_before clues clue i
  let gap_after ← separation_after clues clue i
  let left ← listGetC right_packed_left_extents i
  let right ← listGetC left_packed_right_extents i
  if right < left then pure st
  else if Clue.len clue < right - left + 1 then .contra
  else do
    let a ← subC (Clue.len clue) 1
    let clue_wiggle_room ← subC a (right - left)
    let st ← forRangeM
      (fun st2 idx => do
        let clue_cell := (List.range (clue_wiggle_room + 1)).foldl
          (fun cc w => cc.actually_could_be (Clue.color_at clue (idx - left + w)))
          Cell.new_impossible
        learn_cell_intersect clue_cell st2 idx)
      st left (right + 1 - left)
    if (right : Int) - (left : Int) + 1 == (Clue.len clue : Int) then do
      let st ←
        if gap_before then do
          let j ← subC left 1
          learn_cell BACKGROUND st j
        else pure st
      if gap_after then learn_cell BACKGROUND st (right + 1) else pure st
    else pure st

/-- One consumed pair of the between-blocks background loop of skim_line:
cells strictly between the right-packed right extent of clue i and the
left-packed left extent of clue i+1 must be Background.  The source builds
those two derived extents lazily while zipping; the embedding computes
exactly the consumed pairs. -/
def gap_step {C : Type} [Clue C] (clues : List C)
    (left_packed_right_extents right_packed_left_extents : List Nat)
    (st : LaneSt) (i : Nat) : SR LaneSt := do
  let e ← listGetC right_packed_left_extents i
  let c ← listGetC clues i
  let right_extent_prev ← subC (e + Clue.len c) 1
  let e2 ← listGetC left_packed_right_extents (i + 1)
  let c2 ← listGetC clues (i + 1)
  let left_extent ← subC (e2 + 1) (Clue.len c2)
  if left_extent == 0 then pure st
  else
    forRangeM (fun st2 idx => learn_cell BACKGROUND st2 idx)
      st (right_extent_prev + 1) (left_extent - 1 - right_extent_prev)

/-- skim_line (line_solve.rs): packs all clues to their leftmost and
rightmost possible locations and writes out everything forced.  Returns
the final lane and the affected-cell indices in push order. -/
def skim_line {C : Type} [Clue C] (clues : List C) (lane0 : List Cell) :
    SR LaneSt :=
  if clues.isEmpty then
    forRangeM (fun st i => learn_cell BACKGROUND st i) ⟨lane0, []⟩ 0 lane0.length
  else do
    let possible_colors := line_colors clues
    let st ← forRangeM (fun st i => learn_cell_intersect possible_colors st i)
      ⟨lane0, []⟩ 0 lane0.length
    let left_packed_right_extents ← packed_extents clues st.lane false
    let right_packed_left_extents ← packed_extents clues st.lane true
    let st ← forRangeM
      (overlap_step clues left_packed_right_extents right_packed_left_extents)
      st 0 clues.length
    let st ← forRangeM
      (gap_step clues left_packed_right_extents right_packed_left_extents)
      st 0 (clues.length - 1)
    let e0 ← listGetC left_packed_right_extents 0
    let c0 ← listGetC clues 0
    let leftmost : Int := (e0 : Int) - (Clue.len c0 : Int)
    let eL ← listLastC right_packed_left_extents
    let cL ← listLastC clues
    let rightmost := eL + Clue.len cL
    let st ←
      if 0 ≤ leftmost then
        forRangeM (fun st2 i => learn_cell BACKGROUND st2 i)
          st 0 (leftmost.toNat + 1)
      else pure st
    forRangeM (fun st2 i => learn_cell BACKGROUND st2 i)
      st rightmost (lane0.length - rightmost)

/-- scrub_line (line_solve.rs): for each unknown cell and each color it
could take, run skim_line on a hypothetical lane; a contradiction there
rules the color out in the real lane.  A panic inside the hypothetical
skim still propagates (only errors are caught by the source match). -/
def scrub_line {C : Type} [Clue C] (cs : List C) (lane0 : List Cell) :
    SR LaneSt :=
  forRangeM
    (fun st i => do
      let cell ← listGetC st.lane i
      if cell.is_known then pure st
      else
        foldListM
          (fun st2 color =>
            match skim_line cs (st2.lane.set i (Cell.from_color color)) with
            | .ok _ => pure st2
            | .contra => learn_cell_not color st2 i
            | .crash => .crash)
          st cell.can_be_iter)
    ⟨lane0, []⟩ 0 lane0.length

/-- skim_heuristic (line_solve.rs).  The unwrap calls on the first and last
lane cell panic on an empty lane, hence the SR result. -/
def skim_heuristic {C : Type} [Clue C] (clues : List C) (lane : List Cell) :
    SR Int :=
  if clues.isEmpty then .ok 1000
  else do
    let spans := lane.foldl
      (fun (p : Nat × Nat) cell =>
        if !cell.is_known_to_be BACKGROUND then (max (p.2 + 1) p.1, p.2 + 1)
        else (p.1, 0))
      (0, 0)
    let longest_foregroundable_span := spans.1
    let total_clue_length := clues.foldl (fun a c => a + Clue.len c) 0
    let longest_clue := clues.foldl (fun a c => max a (Clue.len c)) 0
    let first ←
      match lane.head? with
      | some c => SR.ok c
      | none => SR.crash
    let last ← listLastC lane
    let edge_bonus : Int :=
      (if !first.is_known_to_be BACKGROUND then 2 else 0)
        + (if !last.is_known_to_be BACKGROUND then 2 else 0)
    pure ((total_clue_length : Int) + (longest_clue : Int)
      - (longest_foregroundable_span : Int) + edge_bonus)

/-- Accumulator of the clue scan in scrub_heuristic. -/
structure ScrubAcc (C : Type) where
  foreground_cells : Int
  space_taken : Int
  longest_clue : Int
  last_clue : Option C

/-- scrub_heuristic (line_solve.rs); i32 arithmetic embedded as Int, with
the one i32 division written as Int.tdiv (both truncate toward zero). -/
def scrub_heuristic {C : Type} [Clue C] (clues : List C) (lane : List Cell) :
    Int :=
  let acc := clues.foldl
    (fun (a : ScrubAcc C) c =>
      { foreground_cells := a.foreground_cells + (Clue.len c : Int)
        space_taken := a.space_taken + (Clue.len c : Int) +
          (match a.last_clue with
           | some lc => if Clue.must_be_separated_from lc c then 1 else 0
           | none => 0)
        longest_clue := max a.longest_clue (Clue.len c : Int)
        last_clue := some c })
    ⟨0, 0, 0, none⟩
  let known_background_cells : Int :=
    ((lane.filter fun cell => cell.is_known_to_be BACKGROUND).length : Int)
  let unknown_cells : Int := ((lane.filter fun cell => !cell.is_known).length : Int)
  let known_foreground_cells : Int :=
    (lane.length : Int) - unknown_cells - known_background_cells
  let density := acc.space_taken - known_foreground_cells + acc.longest_clue
    - (clues.length : Int)
  let chunks := lane.foldl
    (fun (p : Int × Bool) cell =>
      if !cell.can_be BACKGROUND then (if p.2 then p.1 else p.1 + 1, true)
      else (p.1, false))
    (0, false)
  let known_foreground_chunks := chunks.1
  let unknown_background_cells :=
    ((lane.length : Int) - acc.foreground_cells) - known_background_cells
  let excess_chunks :=
    if 0 < known_foreground_cells then known_foreground_chunks - (clues.length : Int)
    else -2
  density + max 0 (Int.tdiv (unknown_background_cells * (excess_chunks + 2)) 2)

/-- Triangle-corner designation (puzzle.rs, struct Corner). -/
structure Corner where
  upper : Bool
  left : Bool
deriving DecidableEq, Repr

/-- Display metadata of a color (puzzle.rs, struct ColorInfo). -/
structure ColorInfo where
  ch : Char
  name : String
  rgb : Nat × Nat × Nat
  color : Color
  corner : Option Corner
deriving DecidableEq, Repr

/-- Puzzle: palette plus row and column clue vectors (puzzle.rs).  The
palette HashMap is embedded as an association list; the solver only reads
it through key iteration and lookup, and no solver result examined by the
claims depends on the iteration order. -/
structure Puzzle (C : Type) where
  palette : List (Color × ColorInfo)
  rows : List (List C)
  cols : List (List C)

/-- Solution: palette plus a column-major grid of colors (puzzle.rs);
grid[x][y] as in the source. -/
structure Solution where
  clue_style : ClueStyle
  palette : List (Color × ColorInfo)
  grid : List (List Color)
deriving DecidableEq

/-- Cell::new: the mask holding every palette color. -/
def Cell.new {C : Type} [Clue C] (p : Puzzle C) : Cell :=
  ⟨p.palette.foldl (fun m kv => m ||| (1 <<< kv.1.c)) 0⟩

/-- Modelled from the spec: SolveMode is imported by grid_solve.rs from
line_solve but its declaration is missing from src/.  Per spec section 4.4
the two modes form an ordered ladder with Skim the easiest (first) mode
and Scrub the hardest, compared with the usual derived order. -/
inductive SolveMode where
  | Skim : SolveMode
  | Scrub : SolveMode
deriving DecidableEq, Repr

def SolveMode.toNat : SolveMode → Nat
  | .Skim => 0
  | .Scrub => 1

/-- Mode order: Skim is easier than Scrub. -/
def mode_le (a b : SolveMode) : Bool := a.toNat ≤ b.toNat

def mode_min (a b : SolveMode) : SolveMode := if mode_le a b then a else b

def SolveMode.all : List SolveMode := [.Skim, .Scrub]

def SolveMode.first : SolveMode := .Skim

/-- Modelled from the spec: ModeMap is imported by grid_solve.rs from
line_solve but its declaration is missing from src/.  It is used as a
per-mode record with fields skim and scrub, indexable by SolveMode. -/
structure ModeMap (α : Type) where
  skim : α
  scrub : α
deriving DecidableEq, Repr

def ModeMap.new_uniform {α : Type} (a : α) : ModeMap α := ⟨a, a⟩

def ModeMap.get {α : Type} (m : ModeMap α) : SolveMode → α
  | .Skim => m.skim
  | .Scrub => m.scrub

def ModeMap.set {α : Type} (m : ModeMap α) : SolveMode → α → ModeMap α
  | .Skim, a => { m with skim := a }
  | .Scrub, a => { m with scrub := a }

/-- Report returned by the grid solver (grid_solve.rs). -/
structure Report where
  solve_counts : ModeMap Nat
  cells_left : Nat
  solution : Solution
  solved_mask : List (List Bool)
deriving DecidableEq

/-- Per-mode lane bookkeeping (grid_solve.rs, struct PerModeLaneState). -/
structure PerModeLaneState where
  processed : Bool
  score : Int
  processed_score : Int
deriving DecidableEq, Repr

def PerModeLaneState.new : PerModeLaneState := ⟨false, 0, 0⟩

/-- Lane bookkeeping (grid_solve.rs, struct LaneState). -/
structure LaneState (C : Type) where
  clues : List C
  row : Bool
  index : Nat
  per_mode : ModeMap PerModeLaneState

/-- i32::MIN, the score sentinel for fully-known lanes. -/
def INT32_MIN : Int := -(2 ^ 31)

def INT32_MAX : Int := 2 ^ 31 - 1

/-- i32::saturating_sub. -/
def sat_sub_i32 (a b : Int) : Int := min (max (a - b) INT32_MIN) INT32_MAX

/-- Monadic map for SR. -/
def mapSR {α β : Type} (f : α → SR β) : List α → SR (List β)
  | [] => pure []
  | a :: as => do
    let b ← f a
    let bs ← mapSR f as
    pure (b :: bs)

/-- get_grid_lane / get_mut_grid_lane: a row of the grid, or a column read
through every row.  The grid (ndarray Array2) is embedded row-major as a
list of rows. -/
def get_grid_lane (grid : List (List Cell)) (row : Bool) (idx : Nat) :
    SR (List Cell) :=
  if row then listGetC grid idx
  else mapSR (fun r => listGetC r idx) grid

/-- Writing a lane back: the source mutates the lane through an ndarray
view; the embedding writes the updated lane into the grid. -/
def set_grid_lane (grid : List (List Cell)) (row : Bool) (idx : Nat)
    (lane : List Cell) : List (List Cell) :=
  if row then grid.set idx lane
  else List.zipWith (fun r c => r.set idx c) grid lane

/-- LaneState::rescore (grid_solve.rs).  A fully-known lane gets i32::MIN
scores (its processed_score is left alone and the was_processed update is
skipped, as in the source early return); otherwise each mode first rolls
score into processed_score when was_processed, then rescores with its
heuristic. -/
def rescore {C : Type} [Clue C] (ls : LaneState C) (grid : List (List Cell))
    (was_processed : Bool) : SR (LaneState C) := do
  let lane ← get_grid_lane grid ls.row ls.index
  if lane.all Cell.is_known then
    pure { ls with per_mode :=
      ⟨{ ls.per_mode.skim with score := INT32_MIN },
       { ls.per_mode.scrub with score := INT32_MIN }⟩ }
  else do
    let sk ← skim_heuristic ls.clues lane
    let sc := scrub_heuristic ls.clues lane
    pure { ls with per_mode :=
      ⟨{ processed := ls.per_mode.skim.processed,
         processed_score :=
           if was_processed then ls.per_mode.skim.score
           else ls.per_mode.skim.processed_score,
         score := sk },
       { processed := ls.per_mode.scrub.processed,
         processed_score :=
           if was_processed then ls.per_mode.scrub.score
           else ls.per_mode.scrub.processed_score,
         score := sc }⟩ }

/-- LaneState::new (grid_solve.rs). -/
def LaneState.new {C : Type} [Clue C] (clues : List C) (row : Bool)
    (idx : Nat) (grid : List (List Cell)) : SR (LaneState C) :=
  rescore ⟨clues, row, idx, ModeMap.new_uniform PerModeLaneState.new⟩ grid false

/-- LaneState::effective_score (grid_solve.rs). -/
def effective_score {C : Type} (ls : LaneState C) (mode : SolveMode) : Int :=
  sat_sub_i32 (ls.per_mode.get mode).score (ls.per_mode.get mode).processed_score

/-- find_best_lane (grid_solve.rs): index of the first unprocessed lane
with strictly greatest effective score, scanning in insertion order. -/
def find_best_lane_aux {C : Type} (mode : SolveMode) :
    List (LaneState C) → Nat → Int → Option Nat → Option Nat
  | [], _, _, res => res
  | l :: rest, i, best, res =>
    if (l.per_mode.get mode).processed then
      find_best_lane_aux mode rest (i + 1) best res
    else if best < effective_score l mode then
      find_best_lane_aux mode rest (i + 1) (effective_score l mode) (some i)
    else find_best_lane_aux mode rest (i + 1) best res

def find_best_lane {C : Type} (lanes : List (LaneState C)) (mode : SolveMode) :
    Option Nat :=
  find_best_lane_aux mode lanes 0 INT32_MIN none

/-- grid_to_solved_mask (grid_solve.rs): column-major mask of known cells. -/
def grid_to_solved_mask (grid : List (List Cell)) : List (List Bool) :=
  grid.transpose.map (fun col => col.map Cell.is_known)

/-- grid_to_solution (grid_solve.rs): column-major snapshot mapping each
cell to its known color, with unknown cells mapped through
known_or().unwrap_or(BACKGROUND). -/
def grid_to_solution {C : Type} [Clue C] (grid : List (List Cell))
    (puzzle : Puzzle C) : Solution :=
  { clue_style := Clue.style C
    palette := puzzle.palette
    grid := grid.transpose.map (fun col =>
      col.map (fun cell => cell.known_or.getD BACKGROUND)) }

/-- Line cache (grid_solve.rs, type LineCache): HashMap keyed by the clue
vector and the lane mask snapshot, embedded as an association list (keys
are unique since insertion only happens on a vacant lookup). -/
abbrev LineCache (C : Type) : Type :=
  List ((List C × List Nat) × (List Nat × List Cell))

def cache_lookup {C : Type} [DecidableEq C] (m : LineCache C)
    (key : List C × List Nat) : Option (List Nat × List Cell) :=
  match m.find? (fun e => e.1 = key) with
  | some e => some e.2
  | none => none

/-- Cache replay: write each recorded affected cell back into the lane.
The recorded indices were in bounds for a lane with this exact mask
snapshot, hence for this lane. -/
def cache_replay (lane : List Cell) : List Nat → List Cell → List Cell
  | idx :: is, c :: cs => cache_replay (lane.set idx c) is cs
  | _, _ => lane

/-- op_or_cache (grid_solve.rs): on a cache hit replay the recorded diff,
on a miss run the routine and record the cells it affected. -/
def op_or_cache {C : Type} [Clue C] [DecidableEq C]
    (f : List C → List Cell → SR LaneSt) (clues : List C) (lane : List Cell)
    (cache : Option (LineCache C)) :
    SR (List Nat × List Cell × Option (LineCache C)) :=
  match cache with
  | none => do
    let st ← f clues lane
    pure (st.affected, st.lane, none)
  | some m =>
    let key := (clues, lane.map Cell.raw)
    match cache_lookup m key with
    | some (affected, cells) =>
      .ok (affected, cache_replay lane affected cells, some m)
    | none => do
      let st ← f clues lane
      let cells ← mapSR (listGetC st.lane) st.affected
      pure (st.affected, st.lane, some (m ++ [(key, (st.affected, cells))]))

/-- Modelled from the spec: exhaust_line is imported by grid_solve.rs from
line_solve but its declaration is missing from src/.  It is the routine the
grid solver runs for the Scrub mode; per spec sections 4.3.2 and 4.4 the
Scrub mode runs the scrub routine, which src/ provides as scrub_line. -/
def exhaust_line {C : Type} [Clue C] (cs : List C) (lane : List Cell) :
    SR LaneSt :=
  scrub_line cs lane

/-- Solve options (grid_solve.rs, struct SolveOptions).  trace_solve and
display_cli_progress only drive terminal output and are not embedded. -/
structure SolveOptions where
  only_solve_color : Option Color
  max_effort : SolveMode

def SolveOptions.default : SolveOptions := ⟨none, .Scrub⟩

/-- filter_report_by_color (grid_solve.rs): keep only affected cells now
known to be the requested color; roll every other affected cell back. -/
def filter_report_by_color (affected : List Nat) (orig_lane : List Cell)
    (new_lane : List Cell) (color : Color) : SR (List Nat × List Cell) :=
  foldListM
    (fun (p : List Nat × List Cell) idx => do
      let c ← listGetC p.2 idx
      if c.is_known_to_be color then pure (p.1 ++ [idx], p.2)
      else do
        let o ← listGetC orig_lane idx
        pure (p.1, p.2.set idx o))
    ([], new_lane) affected

/-- The current-mode selection at the top of the solve loop: the easiest
mode that still has failure budget, capped by max_effort. -/
def select_mode (max_effort : SolveMode) (af : ModeMap Nat) : SolveMode :=
  (SolveMode.all.foldr
    (fun m rest cm => if 0 < af.get m then mode_min cm m else rest cm)
    (fun cm => cm)) max_effort

/-- initial_allowed_failures (grid_solve.rs): Skim starts with budget 10;
the Scrub entry is ignored by the loop. -/
def initial_allowed_failures : ModeMap Nat := ⟨10, 0⟩

/-- Mutable state of the solve_grid main loop. -/
structure GridSt (C : Type) where
  grid : List (List Cell)
  lanes : List (LaneState C)
  cells_left : Nat
  solve_counts : ModeMap Nat
  allowed_failures : ModeMap Nat
  cache : Option (LineCache C)

/-- How a solve_grid run ended. -/
inductive GridOut where
  | fuelOut : GridOut
  | crash : GridOut
  | err : GridOut
  | ok : Report → GridOut
deriving DecidableEq

/-- A solve_grid run: the per-invocation trace (mode, whether that
line-solver invocation returned an error), the grid when the run ended,
and the outcome.  fuelOut marks embedding fuel exhaustion only. -/
structure SolveRun where
  trace : List (SolveMode × Bool)
  final_grid : List (List Cell)
  out : GridOut
deriving DecidableEq

/-- Rescoring propagation at the bottom of the solve loop: every lane of
the opposite orientation whose index is in the affected set is rescored
(not as processed) and has both processed flags cleared. -/
def propagate_lanes {C : Type} [Clue C] (grid : List (List Cell))
    (was_row : Bool) (affected : List Nat) :
    List (LaneState C) → SR (List (LaneState C))
  | [] => pure []
  | l :: ls => do
    let l2 ←
      if l.row ≠ was_row ∧ affected.contains l.index then do
        let r ← rescore l grid false
        pure { r with per_mode :=
          ⟨{ r.per_mode.skim with processed := false },
           { r.per_mode.scrub with processed := false }⟩ }
      else pure l
    let rest ← propagate_lanes grid was_row affected ls
    pure (l2 :: rest)

/-- The tail of one solve-loop iteration (the part of the source loop
after the line-solver invocation): the chosen lane is rescored as
processed, termination on zero cells_left is checked, budgets are updated,
and intersecting lanes are rescored.  Returns either a finished run or the
state for the next iteration. -/
def propagate_rest {C : Type} [Clue C] [DecidableEq C] (puzzle : Puzzle C)
    (options : SolveOptions) (af0 : ModeMap Nat)
    (lanes2 : List (LaneState C)) (li : Nat) (lane_state : LaneState C)
    (current_mode : SolveMode) (counts2 : ModeMap Nat)
    (cache2 : Option (LineCache C)) (affected : List Nat)
    (grid2 : List (List Cell)) (cells_left2 : Nat)
    (tr : List (SolveMode × Bool)) : SolveRun ⊕ GridSt C :=
  match (do
    let ls1 ← listGetC lanes2 li
    rescore ls1 grid2 true : SR _) with
  | .crash => .inl ⟨tr, grid2, .crash⟩
  | .contra => .inl ⟨tr, grid2, .err⟩
  | .ok rescored =>
    let lanes3 := lanes2.set li rescored
    if cells_left2 = 0 then
      .inl ⟨tr, grid2,
        .ok { solve_counts := counts2
              cells_left := cells_left2
              solution := grid_to_solution grid2 puzzle
              solved_mask := grid_to_solved_mask grid2 }⟩
    else
      let af2 :=
        if current_mode ≠ SolveMode.first ∧ affected ≠ [] then
          initial_allowed_failures
        else af0
      let af3 :=
        if current_mode ≠ options.max_effort then
          if affected = [] then
            af2.set current_mode (af2.get current_mode - 1)
          else af2.set current_mode (min 10 (af2.get current_mode + 1))
        else af2
      match propagate_lanes grid2 lane_state.row affected lanes3 with
      | .crash => .inl ⟨tr, grid2, .crash⟩
      | .contra => .inl ⟨tr, grid2, .err⟩
      | .ok lanes4 =>
        .inr { grid := grid2, lanes := lanes4, cells_left := cells_left2,
               solve_counts := counts2, allowed_failures := af3,
               cache := cache2 }

/-- One iteration of the solve_grid main loop (grid_solve.rs): select the
mode and lane, run the line solver (through the cache for Scrub), update
scores, budgets and cells_left, and propagate to intersecting lanes.
Returns either a finished run or the state and trace for the next
iteration. -/
def solve_grid_iter {C : Type} [Clue C] [DecidableEq C] (puzzle : Puzzle C)
    (options : SolveOptions) (st : GridSt C)
    (tr : List (SolveMode × Bool)) :
    SolveRun ⊕ (GridSt C × List (SolveMode × Bool)) :=
  let current_mode := select_mode options.max_effort st.allowed_failures
  match find_best_lane st.lanes current_mode with
  | none =>
    if mode_le options.max_effort current_mode then
      .inl ⟨tr, st.grid,
        .ok { solve_counts := st.solve_counts
              cells_left := st.cells_left
              solution := grid_to_solution st.grid puzzle
              solved_mask := grid_to_solved_mask st.grid }⟩
    else
      .inr ({ st with
              allowed_failures := st.allowed_failures.set current_mode 0 },
            tr)
  | some li =>
    match (do
      let lane_state ← listGetC st.lanes li
      let orig ← get_grid_lane st.grid lane_state.row lane_state.index
      pure (lane_state, orig) : SR _) with
    | .crash => .inl ⟨tr, st.grid, .crash⟩
    | .contra => .inl ⟨tr, st.grid, .err⟩
    | .ok (lane_state, orig) =>
      let counts2 := st.solve_counts.set current_mode
        (st.solve_counts.get current_mode + 1)
      let opres :=
        match current_mode with
        | .Scrub => op_or_cache exhaust_line lane_state.clues orig st.cache
        | .Skim => (do
            let r ← skim_line lane_state.clues orig
            pure (r.affected, r.lane, st.cache) : SR _)
      match opres with
      | .crash => .inl ⟨tr ++ [(current_mode, false)], st.grid, .crash⟩
      | .contra => .inl ⟨tr ++ [(current_mode, true)], st.grid, .err⟩
      | .ok (affected0, new_lane0, cache2) =>
        let pm1 := lane_state.per_mode.get current_mode
        let pm2 := lane_state.per_mode.set current_mode
          { pm1 with processed := true }
        let lanes2 := st.lanes.set li { lane_state with per_mode := pm2 }
        match (match options.only_solve_color with
               | some color =>
                 filter_report_by_color affected0 orig new_lane0 color
               | none => pure (affected0, new_lane0) : SR _) with
        | .crash => .inl ⟨tr ++ [(current_mode, false)], st.grid, .crash⟩
        | .contra => .inl ⟨tr ++ [(current_mode, true)], st.grid, .err⟩
        | .ok (affected, new_lane) =>
          let known_before := (orig.filter Cell.is_known).length
          let known_after := (new_lane.filter Cell.is_known).length
          let grid2 := set_grid_lane st.grid lane_state.row lane_state.index
            new_lane
          match propagate_rest puzzle options st.allowed_failures lanes2 li
            lane_state current_mode counts2 cache2 affected grid2
            (st.cells_left - (known_after - known_before))
            (tr ++ [(current_mode, false)]) with
          | .inl run => .inl run
          | .inr st2 => .inr (st2, tr ++ [(current_mode, false)])

/-- The solve_grid main loop as a fueled iteration of solve_grid_iter. -/
def solve_grid_loop {C : Type} [Clue C] [DecidableEq C] (puzzle : Puzzle C)
    (options : SolveOptions) (fuel : Nat) (st : GridSt C)
    (tr : List (SolveMode × Bool)) : SolveRun :=
  match fuel with
  | 0 => ⟨tr, st.grid, .fuelOut⟩
  | fuel2 + 1 =>
    match solve_grid_iter puzzle options st tr with
    | .inl run => run
    | .inr (st2, tr2) => solve_grid_loop puzzle options fuel2 st2 tr2


/-- Lane-state construction at the top of solve_grid: a LaneState for
every row, then one for every column, in order. -/
def build_lanes {C : Type} [Clue C] (puzzle : Puzzle C)
    (grid : List (List Cell)) : SR (List (LaneState C)) := do
  let rowLanes ← mapSR
    (fun (p : Nat × List C) => LaneState.new p.2 true p.1 grid)
    puzzle.rows.enum
  let colLanes ← mapSR
    (fun (p : Nat × List C) => LaneState.new p.2 false p.1 grid)
    puzzle.cols.enum
  pure (rowLanes ++ colLanes)

/-- solve_grid (grid_solve.rs): build the lane states and run the main
loop.  cells_left starts at rows*cols regardless of how many cells of the
incoming grid are already known. -/
def solve_grid {C : Type} [Clue C] [DecidableEq C] (puzzle : Puzzle C)
    (line_cache : Option (LineCache C)) (options : SolveOptions)
    (grid : List (List Cell)) (fuel : Nat) : SolveRun :=
  match build_lanes puzzle grid with
  | .crash => ⟨[], grid, .crash⟩
  | .contra => ⟨[], grid, .err⟩
  | .ok lanes =>
    solve_grid_loop puzzle options fuel
      { grid := grid, lanes := lanes,
        cells_left := puzzle.rows.length * puzzle.cols.length,
        solve_counts := ModeMap.new_uniform 0,
        allowed_failures := initial_allowed_failures,
        cache := line_cache }
      []

/-- solve (grid_solve.rs): solve_grid on a fresh grid where every cell can
be any palette color. -/
def solve {C : Type} [Clue C] [DecidableEq C] (puzzle : Puzzle C)
    (line_cache : Option (LineCache C)) (options : SolveOptions)
    (fuel : Nat) : SolveRun :=
  solve_grid puzzle line_cache options
    (List.replicate puzzle.rows.length
      (List.replicate puzzle.cols.length (Cell.new puzzle)))
    fuel

/-- Number of known cells of a grid. -/
def count_known (grid : List (List Cell)) : Nat :=
  (grid.map (fun row => (row.filter Cell.is_known).length)).sum

/-- Number of cells of a grid not yet reduced to a single color. -/
def count_unknown (grid : List (List Cell)) : Nat :=
  (grid.map (fun row => (row.filter (fun c => !c.is_known)).length)).sum

/-- ColorInfo::default_bg (puzzle.rs). -/
def ColorInfo.default_bg : ColorInfo :=
  ⟨' ', "white", (255, 255, 255), BACKGROUND, none⟩

/-- ColorInfo::default_fg (puzzle.rs). -/
def ColorInfo.default_fg (color : Color) : ColorInfo :=
  ⟨'#', "black", (0, 0, 0), color, none⟩

/-- bw_palette (import.rs): background plus black. -/
def bw_palette : List (Color × ColorInfo) :=
  [(BACKGROUND, ColorInfo.default_bg), (⟨1⟩, ColorInfo.default_fg ⟨1⟩)]

def black : Color := ⟨1⟩

def nono_black (n : Nat) : Nono := ⟨black, n⟩

/-- A cell that may still be background or black. -/
def unknown_bw : Cell := ⟨3⟩

def lane_bw4 : List Cell := List.replicate 4 unknown_bw

/-- A puzzle with two valid solutions (the two diagonals): the solver can
deduce nothing and terminates with every cell unknown. -/
def ambiguous_2x2 : Puzzle Nono :=
  ⟨bw_palette, [[nono_black 1], [nono_black 1]],
   [[nono_black 1], [nono_black 1]]⟩

def puzzle_1x1 : Puzzle Nono := ⟨bw_palette, [[nono_black 1]], [[nono_black 1]]⟩

/-- A puzzle on which the solver hits a line contradiction: the first row
forces both cells black, but the second column has an empty clue vector. -/
def unsat_2x2 : Puzzle Nono :=
  ⟨bw_palette, [[nono_black 2], [nono_black 1]], [[nono_black 1], []]⟩

/-- The Report of a finished run, when it ended in Ok. -/
def GridOut.report : GridOut → Option Report
  | .ok r => some r
  | _ => none

/-- Whether a trace contains an invocation that reported an error. -/
def hasErr (tr : List (SolveMode × Bool)) : Bool :=
  tr.any (fun e => e.2)

/-- Number of trace entries of one mode (counting each invocation of the
line solver in that mode, including a failing one). -/
def count_mode (tr : List (SolveMode × Bool)) (m : SolveMode) : Nat :=
  (tr.filter (fun e => e.1 = m)).length

/-- Length of the leading run of cells not known to be Background. -/
def lead_run : List Cell → Nat
  | [] => 0
  | c :: r => if !c.is_known_to_be BACKGROUND then lead_run r + 1 else 0

/-- Specification-level longest contiguous run of cells not known to be
Background: the maximum over all suffixes of the leading such run. -/
def spec_longest_run : List Cell → Nat
  | [] => 0
  | c :: r => max (lead_run (c :: r)) (spec_longest_run r)

/-- Specification-level total clue length. -/
def spec_total_clue_length {C : Type} [Clue C] (clues : List C) : Nat :=
  (clues.map Clue.len).sum

/-- Specification-level longest clue length. -/
def spec_longest_clue {C : Type} [Clue C] (clues : List C) : Nat :=
  (clues.map Clue.len).foldr max 0

/-- The endpoint adjustment of the skim score: 2 per lane endpoint not yet
known to be Background (0 on an empty lane; the theorems using it assume a
non-empty lane). -/
def spec_edge_bonus (lane : List Cell) : Int :=
  (if !((lane.head?.getD (Cell.from_color BACKGROUND)).is_known_to_be
      BACKGROUND) then 2 else 0)
    + (if !((lane.getLast?.getD (Cell.from_color BACKGROUND)).is_known_to_be
      BACKGROUND) then 2 else 0)

/-- Submask order on cells: every color possible in a is possible in b. -/
def cell_le (a b : Cell) : Prop :=
  a.possible_color_mask &&& b.possible_color_mask = a.possible_color_mask

instance (a b : Cell) : Decidable (cell_le a b) := by
  unfold cell_le
  infer_instance

/-- Soundness of a line cache: every stored entry is exactly what running
the scrub routine on a lane with the stored mask snapshot produces.  A
cache created empty and filled only by op_or_cache satisfies this. -/
def cache_valid {C : Type} [Clue C] [DecidableEq C] (m : LineCache C) :
    Prop :=
  ∀ e ∈ m, ∀ lane : List Cell, lane.map Cell.raw = e.1.2 →
    ∃ st, exhaust_line e.1.1 lane = .ok st ∧ st.affected = e.2.1 ∧
      cache_replay lane e.2.1 e.2.2 = st.lane

/-- Relation between the lane a line-solver routine started from and its
current state: the length is unchanged, every cell only lost
possibilities, cells that were already known are untouched, every cell
not recorded in the affected set is unchanged, and recorded indices are
in bounds. -/
def StRel (orig : List Cell) (st : LaneSt) : Prop :=
  st.lane.length = orig.length ∧
  (∀ i co cn, orig.get? i = some co → st.lane.get? i = some cn →
    cell_le cn co ∧ (co.is_known = true → cn = co)) ∧
  (∀ i, i ∉ st.affected → st.lane.get? i = orig.get? i) ∧
  (∀ j, j ∈ st.affected → j < orig.length)

/-- The error/trace discipline of a finished solve_grid run: it ended in
an error exactly when some line-solver invocation in its trace reported a
contradiction, and when it ended Ok the report snapshots the final grid
and its counts count the trace's invocations per mode. -/
def RunOK {C : Type} [Clue C] (p : Puzzle C) (run : SolveRun) : Prop :=
  (run.out = .err ↔ hasErr run.trace = true) ∧
  (∀ rep, run.out = .ok rep →
    hasErr run.trace = false ∧
    rep.solution = grid_to_solution run.final_grid p ∧
    (∀ m, rep.solve_counts.get m = count_mode run.trace m))

/-- The run-length scan of solution_to_puzzle (import.rs): the loop over
x in 0..width+1 carrying prev_color and run, emitting a Nono clue when a
non-background run ends (the end of the lane acts as color None). -/
def nono_scan : Option Color → Nat → List Color → List Nono
  | prev, run, [] =>
    (match prev with
     | none => []
     | some pc => if pc = BACKGROUND then [] else [⟨pc, run⟩])
  | prev, run, c :: rest =>
    if prev = some c then nono_scan prev (run + 1) rest
    else
      (match prev with
       | none => []
       | some pc => if pc = BACKGROUND then [] else [⟨pc, run⟩])
        ++ nono_scan (some c) 1 rest

/-- solution_to_puzzle (import.rs): row and column Nono clues by
run-length scanning the column-major solution grid; grid[x][y] indexing
panics on ragged grids (listGetC), first().unwrap() on an empty one. -/
def solution_to_puzzle (s : Solution) : SR (Puzzle Nono) := do
  let width := s.grid.length
  let height ← match s.grid.head? with
    | some c => SR.ok c.length
    | none => SR.crash
  let rows ← mapSR (fun y => do
      let colors ← mapSR (fun x => do
          let col ← listGetC s.grid x
          listGetC col y) (List.range width)
      pure (nono_scan none 1 colors)) (List.range height)
  let cols ← mapSR (fun x => do
      let col ← listGetC s.grid x
      let colors ← mapSR (fun y => listGetC col y) (List.range height)
      pure (nono_scan none 1 colors)) (List.range width)
  pure ⟨s.palette, rows, cols⟩

/-- solution.palette[&color]: HashMap indexing panics on a missing key. -/
def palette_lookup (pal : List (Color × ColorInfo)) (c : Color) :
    SR ColorInfo :=
  match pal.find? (fun kv => kv.1 = c) with
  | some kv => .ok kv.2
  | none => .crash

def blank_triano : Triano := ⟨none, 0, BACKGROUND, none⟩

/-- The clue-accumulating scan of solution_to_triano_puzzle (import.rs).
back_sel picks the corner flag marking a back cap (left for row clues,
upper for column clues); its negation marks a front cap. -/
def triano_scan (pal : List (Color × ColorInfo)) (back_sel : Corner → Bool) :
    Triano → List Color → SR (List Triano)
  | cur, [] => pure (if cur = blank_triano then [] else [cur])
  | cur, c :: rest => do
    let info ← palette_lookup pal c
    if (match info.corner with
        | some k => !(back_sel k)
        | none => false) = true then
      let pushed := if cur = blank_triano then [] else [cur]
      let restClues ← triano_scan pal back_sel
        { blank_triano with front_cap := some c } rest
      pure (pushed ++ restClues)
    else if (match info.corner with
        | some k => back_sel k
        | none => false) = true then
      let restClues ← triano_scan pal back_sel blank_triano rest
      pure ({ cur with back_cap := some c } :: restClues)
    else if c = BACKGROUND then
      let pushed := if cur = blank_triano then [] else [cur]
      let restClues ← triano_scan pal back_sel blank_triano rest
      pure (pushed ++ restClues)
    else if cur.body_color ≠ BACKGROUND ∧ cur.body_color ≠ c then
      let restClues ← triano_scan pal back_sel
        { blank_triano with body_color := c, body_len := 1 } rest
      pure (cur :: restClues)
    else
      triano_scan pal back_sel
        { cur with body_color := c, body_len := cur.body_len + 1 } rest

/-- solution_to_triano_puzzle (import.rs). -/
def solution_to_triano_puzzle (s : Solution) : SR (Puzzle Triano) := do
  let width := s.grid.length
  let height ← match s.grid.head? with
    | some c => SR.ok c.length
    | none => SR.crash
  let rows ← mapSR (fun y => do
      let colors ← mapSR (fun x => do
          let col ← listGetC s.grid x
          listGetC col y) (List.range width)
      triano_scan s.palette (fun k => k.left) blank_triano colors)
    (List.range height)
  let cols ← mapSR (fun x => do
      let col ← listGetC s.grid x
      let colors ← mapSR (fun y => listGetC col y) (List.range height)
      triano_scan s.palette (fun k => k.upper) blank_triano colors)
    (List.range width)
  pure ⟨s.palette, rows, cols⟩

/-- DynPuzzle (puzzle.rs): a puzzle of either clue style. -/
inductive DynPuzzle where
  | Nono : Puzzle Nono → DynPuzzle
  | Triano : Puzzle Triano → DynPuzzle

/-- Solution::to_puzzle (puzzle.rs). -/
def Solution.to_puzzle (s : Solution) : SR DynPuzzle :=
  match s.clue_style with
  | ClueStyle.Nono => do
    let p ← solution_to_puzzle s
    pure (DynPuzzle.Nono p)
  | ClueStyle.Triano => do
    let p ← solution_to_triano_puzzle s
    pure (DynPuzzle.Triano p)

/-- DynSolveCache (puzzle.rs): per-style line caches, created empty. -/
structure DynSolveCache where
  nono_cache : Option (LineCache Nono)
  triano_cache : Option (LineCache Triano)

def DynSolveCache.new : DynSolveCache := ⟨some [], some []⟩

/-- DynSolveCache::solve (puzzle.rs): grid_solve::solve under default
options with the style's cache.  The source threads the caches mutably
across calls; the embedding passes the held cache unchanged, which by
cache faithfulness (the cache only accelerates line solving) leaves
every Report unchanged.  The embedding fuel maps running out of fuel to
a panic. -/
def DynSolveCache.solve (sc : DynSolveCache) (p : DynPuzzle) (fuel : Nat) :
    SR Report :=
  match p with
  | DynPuzzle.Nono p =>
    (match (NumberLoom.solve p sc.nono_cache SolveOptions.default fuel).out with
     | GridOut.ok r => SR.ok r
     | GridOut.err => SR.contra
     | GridOut.crash => SR.crash
     | GridOut.fuelOut => SR.crash)
  | DynPuzzle.Triano p =>
    (match (NumberLoom.solve p sc.triano_cache SolveOptions.default fuel).out with
     | GridOut.ok r => SR.ok r
     | GridOut.err => SR.contra
     | GridOut.crash => SR.crash
     | GridOut.fuelOut => SR.crash)

/-- The candidate loop of disambig_candidates (grid_solve.rs): try every
palette color at (x, y) except the current one and keep the first color
minimizing the re-solve's cells_left; best_result starts at usize::MAX.
The palette HashMap's key iteration is embedded in association-list
order.  The .expect() on each solve panics on an error. -/
def best_candidate (sc : DynSolveCache) (s : Solution) (fuel x y : Nat) :
    SR (Nat × Color) := do
  let col ← listGetC s.grid x
  let cur ← listGetC col y
  foldListM (fun (b : Nat × Color) kv => do
      if kv.1 = cur then pure b
      else do
        let new_grid := s.grid.set x (col.set y kv.1)
        let p2 ← Solution.to_puzzle { s with grid := new_grid }
        let rep ← DynSolveCache.solve sc p2 fuel
        pure (if rep.cells_left < b.1 then (rep.cells_left, kv.1) else b))
    (2 ^ 64 - 1, BACKGROUND) s.palette

/-- The y loop of disambig_candidates: per cell, find the best candidate
color, send a progress value when y is a multiple of 5, write res[x][y],
then poll the cancellation channel; cancel tick stands for the tick-th
terminate.try_recv().  Progress values are the exact rationals whose f32
roundings the source sends (f32 rounding is monotone, so ordering
statements carry over). -/
def disambig_y (sc : DynSolveCache) (s : Solution) (cancel : Nat → Bool)
    (fuel orig_cl xs ys x : Nat) :
    List Nat → List ℚ → List (List (Color × ℚ)) → Nat →
    SR (List ℚ × List (List (Color × ℚ)) × Nat × Bool)
  | [], sends, res, tick => pure (sends, res, tick, false)
  | y :: rest, sends, res, tick => do
    let bc ← best_candidate sc s fuel x y
    let sends2 := if y % 5 = 0 then
        sends ++ [((x * ys + y : Nat) : ℚ) / ((xs * ys : Nat) : ℚ)]
      else sends
    let row ← listGetC res x
    let res2 := res.set x (row.set y (bc.2, (bc.1 : ℚ) / (orig_cl : ℚ)))
    if cancel tick then pure (sends2, res2, tick + 1, true)
    else disambig_y sc s cancel fuel orig_cl xs ys x rest sends2 res2
           (tick + 1)

/-- The x loop of disambig_candidates: run the y loop per column of the
solution grid, stopping when the y loop reports cancellation. -/
def disambig_x (sc : DynSolveCache) (s : Solution) (cancel : Nat → Bool)
    (fuel orig_cl xs ys : Nat) :
    List Nat → List ℚ × List (List (Color × ℚ)) × Nat →
    SR (List ℚ × List (List (Color × ℚ)) × Nat × Bool)
  | [], st => pure (st.1, st.2.1, st.2.2, false)
  | x :: rest, st => do
    let r ← disambig_y sc s cancel fuel orig_cl xs ys x (List.range ys)
      st.1 st.2.1 st.2.2
    if r.2.2.2 = true then pure r
    else disambig_x sc s cancel fuel orig_cl xs ys rest (r.1, r.2.1, r.2.2.1)

/-- disambig_candidates (grid_solve.rs): baseline solve of the solution's
puzzle, early 0.0 send when it leaves no cell unknown, then the cell
loops, and a final 1.0 send when not cancelled.  Returns the progress
sends, the score grid, and whether the run was cancelled. -/
def disambig_candidates (s : Solution) (cancel : Nat → Bool) (fuel : Nat) :
    SR (List ℚ × List (List (Color × ℚ)) × Bool) := do
  let p ← Solution.to_puzzle s
  let rep ← DynSolveCache.new.solve p fuel
  let ys0 ← match s.grid.head? with
    | some c => SR.ok c.length
    | none => SR.crash
  let res0 := List.replicate s.grid.length
    (List.replicate ys0 (BACKGROUND, (0 : ℚ)))
  if rep.cells_left = 0 then
    pure ([(0 : ℚ)], res0, false)
  else do
    let r ← disambig_x DynSolveCache.new s cancel fuel rep.cells_left
      s.grid.length ys0 (List.range s.grid.length) ([], res0, 0)
    if r.2.2.2 = true then pure (r.1, r.2.1, true)
    else pure (r.1 ++ [(1 : ℚ)], r.2.1, false)

/-- What the packing scan of packed_extents guarantees about the extents
list it has built so far: in-lane bounds, strict ordering, and room for
each clue's footprint, all in the scan's (possibly reversed) coordinate
system. -/
def ExtInv {C : Type} [Clue C] (clues : List C) (lane : List Cell)
    (rev : Bool) (ext : List Nat) : Prop :=
  ext.length = clues.length ∧
  (∀ j e, ext.get? j = some e → e < lane.length) ∧
  (∀ j a b, ext.get? j = some a → ext.get? (j + 1) = some b → a < b) ∧
  (∀ j e, ext.get? j = some e →
    ∃ c, clue_at clues rev j = .ok c ∧ Clue.len c ≤ e + 1)

/-- The loop invariant of the packing scan after k clues: ExtInv for the
k extents built so far, plus the position bookkeeping (pos is one past
the last extent). -/
def PackInv {C : Type} [Clue C] (clues : List C) (lane : List Cell)
    (rev : Bool) (k : Nat) (st : PackSt C) : Prop :=
  st.extents.length = k ∧
  (∀ j e, st.extents.get? j = some e → e < lane.length) ∧
  (∀ j a b, st.extents.get? j = some a →
    st.extents.get? (j + 1) = some b → a < b) ∧
  (∀ j e, st.extents.get? j = some e →
    ∃ c, clue_at clues rev j = .ok c ∧ Clue.len c ≤ e + 1) ∧
  (1 ≤ k → ∃ e, st.extents.get? (k - 1) = some e ∧ st.pos = e + 1)

/-- The cells_left bookkeeping invariant of the solve loop on a
rows x cols grid: cells_left plus the current known-cell count equals the
full cell count plus the number of cells K0 that were already known when
solve_grid was entered, and the grid keeps its dimensions. -/
def InvC7 {C : Type} [Clue C] (p : Puzzle C) (K0 : Nat) (st : GridSt C) :
    Prop :=
  st.cells_left + count_known st.grid
      = p.rows.length * p.cols.length + K0 ∧
  st.grid.length = p.rows.length ∧
  (∀ r ∈ st.grid, r.length = p.cols.length)

/-- No-crash-and-length-preserving: the computation never panics and any
ok lane it produces still has length L. -/
def NCP (x : SR LaneSt) (L : Nat) : Prop :=
  x ≠ SR.crash ∧ ∀ st2, x = .ok st2 → st2.lane.length = L

-- ===================================================================
-- Theorems.  Claim theorems are named Cn_... ; everything else is a
-- shared helper lemma.
-- ===================================================================

/-- C9: two Nono clues must be separated iff their colors are equal; two
Triano clues must be separated iff their body colors are equal and the
left clue has no back cap and the right clue has no front cap. -/
theorem C9_separation_rules :
    (∀ a b : Nono,
      Clue.must_be_separated_from a b = true ↔ a.color = b.color) ∧
    (∀ s t : Triano,
      Clue.must_be_separated_from s t = true ↔
        s.body_color = t.body_color ∧ s.back_cap = none ∧
          t.front_cap = none) := by
  constructor
  · intro a b
    simp [Clue.must_be_separated_from, beq_iff_eq]
  · intro s t
    simp only [Clue.must_be_separated_from, Bool.and_eq_true, beq_iff_eq,
      Option.isNone_iff_eq_none]
    tauto

/-- C4 counterexample: on clues [black 1, black 2] and a four-cell lane of
background-or-black cells, skim_line alone already reduces cell 0 to the
single color black — it is not left ambiguous as the claim states. -/
theorem C4_counterexample :
    skim_line [nono_black 1, nono_black 2] lane_bw4
      = .ok ⟨[⟨2⟩, ⟨1⟩, ⟨2⟩, ⟨2⟩], [0, 1, 2, 3]⟩ ∧
    Cell.is_known ⟨2⟩ = true ∧ Cell.from_color black = ⟨2⟩ := by
  decide

/-- C4 (amended): scrub_line on that input produces exactly the lane
black, background, black, black — and skim_line alone produces the very
same fully-determined lane, cell 0 included. -/
theorem C4_scrub_and_skim_solve_fully :
    scrub_line [nono_black 1, nono_black 2] lane_bw4
      = .ok ⟨[Cell.from_color black, Cell.from_color BACKGROUND,
              Cell.from_color black, Cell.from_color black], [0, 1, 2, 3]⟩ ∧
    skim_line [nono_black 1, nono_black 2] lane_bw4
      = .ok ⟨[Cell.from_color black, Cell.from_color BACKGROUND,
              Cell.from_color black, Cell.from_color black], [0, 1, 2, 3]⟩ := by
  decide

theorem lead_le_slr (l : List Cell) : lead_run l ≤ spec_longest_run l := by
  cases l with
  | nil => simp [lead_run, spec_longest_run]
  | cons c r => simp [spec_longest_run]

theorem skim_span_fold (l : List Cell) (long cur : Nat) (h : cur ≤ long) :
    (l.foldl
      (fun (p : Nat × Nat) cell =>
        if !cell.is_known_to_be BACKGROUND then (max (p.2 + 1) p.1, p.2 + 1)
        else (p.1, 0)) (long, cur)).1
      = max long (max (cur + lead_run l) (spec_longest_run l)) := by
  induction l generalizing long cur with
  | nil =>
    simp only [List.foldl_nil, lead_run, spec_longest_run]
    omega
  | cons c r ih =>
    by_cases hc : (!c.is_known_to_be BACKGROUND) = true
    · rw [List.foldl_cons, if_pos hc]
      rw [ih (max (cur + 1) long) (cur + 1) (by omega)]
      simp only [lead_run, spec_longest_run, hc, if_pos]
      have h1 := lead_le_slr r
      omega
    · rw [List.foldl_cons, if_neg hc]
      rw [ih long 0 (by omega)]
      simp only [lead_run, spec_longest_run, if_neg hc]
      have h1 := lead_le_slr r
      omega

theorem total_clue_fold {C : Type} [Clue C] (clues : List C) (a : Nat) :
    clues.foldl (fun x c => x + Clue.len c) a
      = a + spec_total_clue_length clues := by
  induction clues generalizing a with
  | nil => simp [spec_total_clue_length]
  | cons c r ih =>
    simp only [List.foldl_cons, ih, spec_total_clue_length, List.map_cons,
      List.sum_cons]
    omega

theorem longest_clue_fold {C : Type} [Clue C] (clues : List C) (a : Nat) :
    clues.foldl (fun x c => max x (Clue.len c)) a
      = max a (spec_longest_clue clues) := by
  induction clues generalizing a with
  | nil => simp [spec_longest_clue]
  | cons c r ih =>
    simp only [List.foldl_cons, ih, spec_longest_clue, List.map_cons,
      List.foldr_cons]
    omega

/-- C5 counterexample: the claim computes the skim score as the longest
non-Background run minus the total clue length (plus an endpoint bonus).
On clues [black 1] over the lane background, unknown, unknown, background
the code returns 0, while the claim formula gives 2 - 1 = 1 and no
endpoint adjustment can apply since both endpoints are known Background. -/
theorem C5_counterexample :
    skim_heuristic [nono_black 1]
      [Cell.from_color BACKGROUND, unknown_bw, unknown_bw,
       Cell.from_color BACKGROUND] = .ok 0 ∧
    (spec_longest_run
        [Cell.from_color BACKGROUND, unknown_bw, unknown_bw,
         Cell.from_color BACKGROUND] : Int)
      - (spec_total_clue_length [nono_black 1] : Int) = 1 ∧
    (Cell.from_color BACKGROUND).is_known_to_be BACKGROUND = true ∧
    spec_edge_bonus
      [Cell.from_color BACKGROUND, unknown_bw, unknown_bw,
       Cell.from_color BACKGROUND] = 0 ∧
    (0 : Int) ≠ 1 := by
  constructor
  · decide
  · exact ⟨by decide, by decide, by decide, by decide⟩

/-- C5 (amended): for a non-empty clue vector and a non-empty lane, the
skim heuristic score equals the total clue length plus the longest clue
length, minus the longest contiguous run of cells not known to be
Background, plus a bonus of 2 per lane endpoint not known to be
Background. -/
theorem C5_skim_heuristic_formula {C : Type} [Clue C] (clues : List C)
    (lane : List Cell) (hc : clues ≠ []) (hl : lane ≠ []) :
    skim_heuristic clues lane
      = .ok ((spec_total_clue_length clues : Int)
          + (spec_longest_clue clues : Int)
          - (spec_longest_run lane : Int) + spec_edge_bonus lane) := by
  unfold skim_heuristic
  rw [if_neg (by simpa [List.isEmpty_iff] using hc)]
  cases lane with
  | nil => exact absurd rfl hl
  | cons a as =>
    have hlast : (a :: as).getLast? = some ((a :: as).getLast (by simp)) := by
      rw [List.getLast?_eq_getLast]
    simp only [skim_span_fold (a :: as) 0 0 (le_refl 0),
      total_clue_fold clues 0, longest_clue_fold clues 0, List.head?_cons,
      listLastC, hlast, spec_edge_bonus, Nat.zero_add, Nat.zero_max,
      Option.getD_some]
    have h1 := lead_le_slr (a :: as)
    have h2 : max (lead_run (a :: as)) (spec_longest_run (a :: as))
        = spec_longest_run (a :: as) := by omega
    simp only [h2]
    rfl

-- Bit-level facts about masks -------------------------------------------

theorem shiftLeft_one (c : Nat) : 1 <<< c = 2 ^ c := by
  rw [Nat.shiftLeft_eq, one_mul]

theorem pow_two_land_pred (k : Nat) : 2 ^ k &&& (2 ^ k - 1) = 0 := by
  apply Nat.eq_of_testBit_eq
  intro i
  rw [Nat.testBit_land, Nat.testBit_two_pow_sub_one, Nat.zero_testBit]
  rcases eq_or_ne i k with rfl | hne
  · simp
  · simp [Nat.testBit_two_pow_of_ne (Ne.symm hne)]

theorem testBit_of_pow_le_of_lt {m k : Nat} (h1 : 2 ^ k ≤ m)
    (h2 : m < 2 ^ (k + 1)) : m.testBit k = true := by
  rw [Nat.testBit_to_div_mod]
  have hdiv : m / 2 ^ k = 1 := by
    apply Nat.div_eq_of_lt_le
    · simpa using h1
    · simpa [Nat.pow_succ, Nat.mul_comm] using h2
  simp [hdiv]

theorem is_known_iff (m : Nat) :
    Cell.is_known ⟨m⟩ = true ↔ ∃ k, m = 2 ^ k := by
  constructor
  · intro h
    unfold Cell.is_known at h
    simp only [Bool.and_eq_true, bne_iff_ne, ne_eq, beq_iff_eq] at h
    obtain ⟨hne, hland⟩ := h
    refine ⟨m.log2, ?_⟩
    by_contra hne2
    have hk1 : 2 ^ m.log2 ≤ m := Nat.log2_self_le hne
    have hk2 : m < 2 ^ (m.log2 + 1) := Nat.lt_log2_self
    have hmt : m.testBit m.log2 = true := testBit_of_pow_le_of_lt hk1 hk2
    have hm1 : 2 ^ m.log2 ≤ m - 1 := by
      rcases Nat.lt_or_ge (m - 1) (2 ^ m.log2) with hlt | hge
      · exfalso
        apply hne2
        omega
      · exact hge
    have hm2 : m - 1 < 2 ^ (m.log2 + 1) := by omega
    have hmt1 : (m - 1).testBit m.log2 = true := testBit_of_pow_le_of_lt hm1 hm2
    have : (m &&& (m - 1)).testBit m.log2 = true := by
      rw [Nat.testBit_land, hmt, hmt1]
      rfl
    rw [hland] at this
    simp [Nat.zero_testBit] at this
  · rintro ⟨k, rfl⟩
    unfold Cell.is_known
    simp only [Bool.and_eq_true, bne_iff_ne, ne_eq, beq_iff_eq]
    exact ⟨by positivity, pow_two_land_pred k⟩

theorem land_self_absorb (a b : Nat) : (a &&& b) &&& a = a &&& b := by
  apply Nat.eq_of_testBit_eq
  intro i
  rw [Nat.testBit_land, Nat.testBit_land]
  cases h1 : a.testBit i <;> cases h2 : b.testBit i <;> rfl

theorem xor_land_absorb (m bit : Nat) :
    (m ^^^ (m &&& bit)) &&& m = m ^^^ (m &&& bit) := by
  apply Nat.eq_of_testBit_eq
  intro i
  rw [Nat.testBit_land, Nat.testBit_xor, Nat.testBit_land]
  cases h1 : m.testBit i <;> cases h2 : bit.testBit i <;> rfl

theorem can_be_iff_testBit (cell : Cell) (color : Color) :
    cell.can_be color = true ↔
      cell.possible_color_mask.testBit color.c = true := by
  unfold Cell.can_be
  rw [shiftLeft_one, Nat.and_two_pow]
  cases h : cell.possible_color_mask.testBit color.c <;> simp [h]

theorem known_eq_pow {cell : Cell} (hk : cell.is_known = true) :
    ∃ k, cell.possible_color_mask = 2 ^ k := by
  cases cell
  exact (is_known_iff _).mp hk

/-- A successful Cell.learn shrinks the mask, leaves an already-known cell
untouched, and reports false only when nothing changed. -/
theorem learn_ok {cell : Cell} {color : Color} {b : Bool} {c2 : Cell}
    (h : cell.learn color = .ok (b, c2)) :
    cell_le c2 cell ∧ (cell.is_known = true → c2 = cell) ∧
      (b = false → c2 = cell) := by
  unfold Cell.learn at h
  by_cases hc : cell.can_be color = true
  · rw [if_neg (by simp [hc])] at h
    cases h
    have hbit : cell.possible_color_mask.testBit color.c = true :=
      (can_be_iff_testBit _ _).mp hc
    have hknown : cell.is_known = true → Cell.from_color color = cell := by
      intro hk
      obtain ⟨k, hm⟩ := known_eq_pow hk
      have hkc : k = color.c := by
        by_contra hne
        rw [hm, Nat.testBit_two_pow_of_ne hne] at hbit
        exact Bool.false_ne_true hbit
      cases cell
      simp only at hm
      simp [Cell.from_color, shiftLeft_one, hm, hkc]
    refine ⟨?_, hknown, ?_⟩
    · show (Cell.from_color color).possible_color_mask
          &&& cell.possible_color_mask
        = (Cell.from_color color).possible_color_mask
      simp only [Cell.from_color]
      rw [shiftLeft_one, Nat.two_pow_and, hbit]
      simp
    · intro hb
      apply hknown
      cases hkk : cell.is_known
      · rw [hkk] at hb
        simp at hb
      · rfl
  · rw [if_pos (by simp [hc])] at h
    cases h

/-- A successful Cell.learn_intersect shrinks the mask, leaves a known
cell untouched, and reports false only when nothing changed. -/
theorem learn_intersect_ok {cell possible : Cell} {b : Bool} {c2 : Cell}
    (h : cell.learn_intersect possible = .ok (b, c2)) :
    cell_le c2 cell ∧ (cell.is_known = true → c2 = cell) ∧
      (b = false → c2 = cell) := by
  unfold Cell.learn_intersect at h
  by_cases hz : (cell.possible_color_mask &&& possible.possible_color_mask
      == 0) = true
  · rw [if_pos hz] at h
    cases h
  · rw [if_neg hz] at h
    cases h
    have hz2 : cell.possible_color_mask &&& possible.possible_color_mask
        ≠ 0 := by simpa using hz
    refine ⟨land_self_absorb _ _, ?_, ?_⟩
    · intro hk
      obtain ⟨k, hm⟩ := known_eq_pow hk
      have heq : cell.possible_color_mask &&& possible.possible_color_mask
          = cell.possible_color_mask := by
        rcases ht : possible.possible_color_mask.testBit k
        · exfalso
          apply hz2
          rw [hm, Nat.two_pow_and, ht]
          simp
        · rw [hm, Nat.two_pow_and, ht]
          simp
      cases cell
      simp only at heq
      simp [heq]
    · intro hb
      have heq : cell.possible_color_mask &&& possible.possible_color_mask
          = cell.possible_color_mask := by simpa using hb
      cases cell
      simp only at heq
      simp [heq]

/-- A successful Cell.learn_that_not shrinks the mask, leaves a known cell
untouched, and reports false only when nothing changed. -/
theorem learn_that_not_ok {cell : Cell} {color : Color} {b : Bool}
    {c2 : Cell} (h : cell.learn_that_not color = .ok (b, c2)) :
    cell_le c2 cell ∧ (cell.is_known = true → c2 = cell) ∧
      (b = false → c2 = cell) := by
  unfold Cell.learn_that_not at h
  by_cases hg : cell.is_known_to_be color = true
  · rw [if_pos hg] at h
    cases h
  · rw [if_neg hg] at h
    cases h
    refine ⟨xor_land_absorb _ _, ?_, ?_⟩
    · intro hk
      obtain ⟨k, hm⟩ := known_eq_pow hk
      have hkc : k ≠ color.c := by
        intro hkc
        apply hg
        unfold Cell.is_known_to_be
        cases cell
        simp only at hm
        simp [hm, hkc, shiftLeft_one]
      have hz : cell.possible_color_mask &&& (1 <<< color.c) = 0 := by
        rw [hm, shiftLeft_one, Nat.two_pow_and,
          Nat.testBit_two_pow_of_ne (Ne.symm hkc)]
        simp
      cases cell
      simp only at hz
      simp [hz]
    · intro hb
      have hz : cell.possible_color_mask &&& (1 <<< color.c) = 0 := by
        unfold Cell.can_be at hb
        simpa using hb
      cases cell
      simp only at hz
      simp [hz]

-- Generic machinery for lane-state invariants ---------------------------

theorem cell_le_refl (a : Cell) : cell_le a a := by
  unfold cell_le
  apply Nat.eq_of_testBit_eq
  intro i
  rw [Nat.testBit_land]
  cases h : a.possible_color_mask.testBit i <;> rfl

theorem cell_le_trans {a b c : Cell} (h1 : cell_le a b) (h2 : cell_le b c) :
    cell_le a c := by
  unfold cell_le at h1 h2 ⊢
  apply Nat.eq_of_testBit_eq
  intro i
  have e1 := congrArg (fun m => m.testBit i) h1
  have e2 := congrArg (fun m => m.testBit i) h2
  simp only [Nat.testBit_land] at e1 e2 ⊢
  cases ha : a.possible_color_mask.testBit i <;>
    cases hb : b.possible_color_mask.testBit i <;>
    cases hc : c.possible_color_mask.testBit i <;>
    simp_all

theorem bind_ok {α β : Type} {x : SR α} {f : α → SR β} {v : β}
    (h : x >>= f = .ok v) : ∃ a, x = .ok a ∧ f a = .ok v := by
  cases x with
  | ok a => exact ⟨a, rfl, h⟩
  | crash => exact SR.noConfusion h
  | contra => exact SR.noConfusion h

theorem get?_some_lt {α : Type} {l : List α} {i : Nat} {a : α}
    (h : l.get? i = some a) : i < l.length := by
  rcases List.get?_eq_some.mp h with ⟨h1, _⟩
  exact h1

theorem StRel_refl (lane : List Cell) : StRel lane ⟨lane, []⟩ := by
  refine ⟨rfl, ?_, ?_, ?_⟩
  · intro i co cn h1 h2
    rw [h1] at h2
    cases h2
    exact ⟨cell_le_refl _, fun _ => rfl⟩
  · intro i _
    rfl
  · intro j hj
    cases hj

/-- Writing one shrunken cell (and possibly recording its index)
preserves the lane-state relation. -/
theorem StRel_set {orig : List Cell} {st : LaneSt} {idx : Nat}
    {cell cell2 : Cell} {bb : Bool} (hrel : StRel orig st)
    (hget : st.lane.get? idx = some cell) (hle : cell_le cell2 cell)
    (hkn : cell.is_known = true → cell2 = cell)
    (hb : bb = false → cell2 = cell) :
    StRel orig ⟨st.lane.set idx cell2,
      if bb then st.affected ++ [idx] else st.affected⟩ := by
  obtain ⟨hlen, hpt, haff, hbound⟩ := hrel
  have hidx : idx < st.lane.length := get?_some_lt hget
  refine ⟨by simpa using hlen, ?_, ?_, ?_⟩
  · intro i co cn h1 h2
    rcases eq_or_ne i idx with rfl | hne
    · rw [List.get?_set_eq_of_lt _ hidx] at h2
      cases h2
      have hc := hpt i co cell h1 hget
      refine ⟨cell_le_trans hle hc.1, ?_⟩
      intro hko
      have he : cell = co := hc.2 hko
      rw [hkn (by rw [he]; exact hko), he]
    · rw [List.get?_set_ne _ _ (Ne.symm hne)] at h2
      exact hpt i co cn h1 h2
  · intro i hi
    by_cases hbb : bb = true
    · rw [hbb] at hi
      have hi1 : i ∉ st.affected ∧ i ≠ idx := by
        constructor
        · intro hmem
          exact hi (List.mem_append.mpr (Or.inl hmem))
        · intro heq
          exact hi (List.mem_append.mpr (Or.inr (by simp [heq])))
      rw [List.get?_set_ne _ _ (Ne.symm hi1.2)]
      exact haff i hi1.1
    · have hb2 : bb = false := by
        cases bb
        · rfl
        · exact absurd rfl hbb
      rw [hb2] at hi
      rw [hb hb2]
      rcases eq_or_ne i idx with rfl | hne
      · rw [List.get?_set_eq_of_lt _ hidx, ← hget]
        exact (haff i hi).symm ▸ rfl
      · rw [List.get?_set_ne _ _ (Ne.symm hne)]
        exact haff i hi
  · intro j hj
    by_cases hbb : bb = true
    · rw [hbb] at hj
      rcases List.mem_append.mp hj with hj2 | hj2
      · exact hbound j hj2
      · have hje : j = idx := by simpa using hj2
        rw [hje, ← hlen]
        exact hidx
    · have hb2 : bb = false := by
        cases bb
        · rfl
        · exact absurd rfl hbb
      rw [hb2] at hj
      exact hbound j hj

theorem listGetC_ok {α : Type} {xs : List α} {i : Nat} {a : α} :
    listGetC xs i = .ok a ↔ xs.get? i = some a := by
  unfold listGetC
  cases h : xs.get? i <;> simp [h]

theorem learn_cell_rel {orig : List Cell} {st : LaneSt} {idx : Nat}
    {color : Color} {st2 : LaneSt} (hrel : StRel orig st)
    (h : learn_cell color st idx = .ok st2) : StRel orig st2 := by
  unfold learn_cell at h
  obtain ⟨cell, hget, h⟩ := bind_ok h
  obtain ⟨⟨b, c2⟩, hlearn, h⟩ := bind_ok h
  cases h
  obtain ⟨p1, p2, p3⟩ := learn_ok hlearn
  exact StRel_set hrel (listGetC_ok.mp hget) p1 p2 p3

theorem learn_cell_intersect_rel {orig : List Cell} {st : LaneSt}
    {idx : Nat} {possibilities : Cell} {st2 : LaneSt} (hrel : StRel orig st)
    (h : learn_cell_intersect possibilities st idx = .ok st2) :
    StRel orig st2 := by
  unfold learn_cell_intersect at h
  obtain ⟨cell, hget, h⟩ := bind_ok h
  obtain ⟨⟨b, c2⟩, hlearn, h⟩ := bind_ok h
  cases h
  obtain ⟨p1, p2, p3⟩ := learn_intersect_ok hlearn
  exact StRel_set hrel (listGetC_ok.mp hget) p1 p2 p3

theorem learn_cell_not_rel {orig : List Cell} {st : LaneSt} {idx : Nat}
    {color : Color} {st2 : LaneSt} (hrel : StRel orig st)
    (h : learn_cell_not color st idx = .ok st2) : StRel orig st2 := by
  unfold learn_cell_not at h
  obtain ⟨cell, hget, h⟩ := bind_ok h
  obtain ⟨⟨b, c2⟩, hlearn, h⟩ := bind_ok h
  cases h
  obtain ⟨p1, p2, p3⟩ := learn_that_not_ok hlearn
  exact StRel_set hrel (listGetC_ok.mp hget) p1 p2 p3

/-- Invariant preservation through a forRangeM loop. -/
theorem forRangeM_rel {σ : Type} {P : σ → Prop} {f : σ → Nat → SR σ}
    (hstep : ∀ s i s2, P s → f s i = .ok s2 → P s2) :
    ∀ (n start : Nat) (s s2 : σ), P s → forRangeM f s start n = .ok s2 →
      P s2 := by
  intro n
  induction n with
  | zero =>
    intro start s s2 hp h
    unfold forRangeM at h
    cases h
    exact hp
  | succ m ih =>
    intro start s s2 hp h
    unfold forRangeM at h
    obtain ⟨sm, hf, h⟩ := bind_ok h
    exact ih (start + 1) sm s2 (hstep s start sm hp hf) h

/-- Invariant preservation through a foldListM loop. -/
theorem foldListM_rel {σ α : Type} {P : σ → Prop} {f : σ → α → SR σ}
    (hstep : ∀ s a s2, P s → f s a = .ok s2 → P s2) :
    ∀ (as : List α) (s s2 : σ), P s → foldListM f s as = .ok s2 → P s2 := by
  intro as
  induction as with
  | nil =>
    intro s s2 hp h
    unfold foldListM at h
    cases h
    exact hp
  | cons a rest ih =>
    intro s s2 hp h
    unfold foldListM at h
    obtain ⟨sm, hf, h⟩ := bind_ok h
    exact ih sm s2 (hstep s a sm hp hf) h

theorem overlap_step_rel {C : Type} [Clue C] {clues : List C}
    {lpr rpl : List Nat} {orig : List Cell} {st st2 : LaneSt} {i : Nat}
    (hrel : StRel orig st)
    (h : overlap_step clues lpr rpl st i = .ok st2) : StRel orig st2 := by
  unfold overlap_step at h
  obtain ⟨clue, hclue, h⟩ := bind_ok h
  obtain ⟨gb, hgb, h⟩ := bind_ok h
  obtain ⟨ga, hga, h⟩ := bind_ok h
  obtain ⟨left, hleft, h⟩ := bind_ok h
  obtain ⟨right, hright, h⟩ := bind_ok h
  by_cases h1 : right < left
  · rw [if_pos h1] at h
    cases h
    exact hrel
  · rw [if_neg h1] at h
    by_cases h2 : Clue.len clue < right - left + 1
    · rw [if_pos h2] at h
      cases h
    · rw [if_neg h2] at h
      obtain ⟨a, ha, h⟩ := bind_ok h
      obtain ⟨w, hw, h⟩ := bind_ok h
      obtain ⟨st3, hst3, h⟩ := bind_ok h
      have hrel3 : StRel orig st3 :=
        forRangeM_rel (fun s j s2 hp hf => learn_cell_intersect_rel hp hf)
          _ _ _ _ hrel hst3
      by_cases h3 : ((right : Int) - (left : Int) + 1
          == (Clue.len clue : Int)) = true
      · rw [if_pos h3] at h
        have hga_case : ∀ s, StRel orig s →
            (if ga = true then learn_cell BACKGROUND s (right + 1)
             else pure s) = .ok st2 → StRel orig st2 := by
          intro s hs hif
          by_cases hga2 : ga = true
          · rw [if_pos hga2] at hif
            exact learn_cell_rel hs hif
          · rw [if_neg hga2] at hif
            cases hif
            exact hs
        by_cases hgb2 : gb = true
        · rw [if_pos hgb2] at h
          obtain ⟨j, hj, h⟩ := bind_ok h
          obtain ⟨st4, hst4, h⟩ := bind_ok h
          exact hga_case st4 (learn_cell_rel hrel3 hst4) h
        · rw [if_neg hgb2] at h
          obtain ⟨st4, hst4, h⟩ := bind_ok h
          cases hst4
          exact hga_case _ hrel3 h
      · rw [if_neg h3] at h
        cases h
        exact hrel3

theorem gap_step_rel {C : Type} [Clue C] {clues : List C}
    {lpr rpl : List Nat} {orig : List Cell} {st st2 : LaneSt} {i : Nat}
    (hrel : StRel orig st)
    (h : gap_step clues lpr rpl st i = .ok st2) : StRel orig st2 := by
  unfold gap_step at h
  obtain ⟨e, he, h⟩ := bind_ok h
  obtain ⟨c, hc, h⟩ := bind_ok h
  obtain ⟨rp, hrp, h⟩ := bind_ok h
  obtain ⟨e2, he2, h⟩ := bind_ok h
  obtain ⟨c2, hc2, h⟩ := bind_ok h
  obtain ⟨lp, hlp, h⟩ := bind_ok h
  by_cases h1 : (lp == 0) = true
  · rw [if_pos h1] at h
    cases h
    exact hrel
  · rw [if_neg h1] at h
    exact forRangeM_rel (fun s j s2 hp hf => learn_cell_rel hp hf)
      _ _ _ _ hrel h

/-- skim_line master invariant: a successful skim relates its output to
its input lane (monotone shrinking, known cells untouched, unaffected
cells unchanged, affected indices in bounds). -/
theorem skim_line_rel {C : Type} [Clue C] {clues : List C}
    {lane0 : List Cell} {st2 : LaneSt}
    (h : skim_line clues lane0 = .ok st2) : StRel lane0 st2 := by
  unfold skim_line at h
  by_cases hemp : clues.isEmpty = true
  · rw [if_pos hemp] at h
    exact forRangeM_rel (fun s i s2 hp hf => learn_cell_rel hp hf)
      _ _ _ _ (StRel_refl lane0) h
  · rw [if_neg hemp] at h
    obtain ⟨st1, h1, h⟩ := bind_ok h
    have hr1 : StRel lane0 st1 :=
      forRangeM_rel (fun s i s2 hp hf => learn_cell_intersect_rel hp hf)
        _ _ _ _ (StRel_refl lane0) h1
    obtain ⟨lpr, hlpr, h⟩ := bind_ok h
    obtain ⟨rpl, hrpl, h⟩ := bind_ok h
    obtain ⟨st3, h3, h⟩ := bind_ok h
    have hr3 : StRel lane0 st3 :=
      forRangeM_rel (fun s i s2 hp hf => overlap_step_rel hp hf)
        _ _ _ _ hr1 h3
    obtain ⟨st4, h4, h⟩ := bind_ok h
    have hr4 : StRel lane0 st4 :=
      forRangeM_rel (fun s i s2 hp hf => gap_step_rel hp hf)
        _ _ _ _ hr3 h4
    obtain ⟨e0, he0, h⟩ := bind_ok h
    obtain ⟨c0, hc0, h⟩ := bind_ok h
    obtain ⟨eL, heL, h⟩ := bind_ok h
    obtain ⟨cL, hcL, h⟩ := bind_ok h
    have hjp : ∀ s, StRel lane0 s →
        forRangeM (fun st2 i => learn_cell BACKGROUND st2 i) s
          (eL + Clue.len cL) (lane0.length - (eL + Clue.len cL))
          = .ok st2 → StRel lane0 st2 := by
      intro s hs hf
      exact forRangeM_rel (fun s3 i s4 hp hff => learn_cell_rel hp hff)
        _ _ _ _ hs hf
    by_cases hlm : (0 : Int) ≤ (e0 : Int) - (Clue.len c0 : Int)
    · rw [if_pos hlm] at h
      obtain ⟨y, hy, h⟩ := bind_ok h
      exact hjp y
        (forRangeM_rel (fun s3 i s4 hp hff => learn_cell_rel hp hff)
          _ _ _ _ hr4 hy) h
    · rw [if_neg hlm] at h
      obtain ⟨y, hy, h⟩ := bind_ok h
      cases hy
      exact hjp _ hr4 h

/-- scrub_line master invariant. -/
theorem scrub_line_rel {C : Type} [Clue C] {cs : List C}
    {lane0 : List Cell} {st2 : LaneSt}
    (h : scrub_line cs lane0 = .ok st2) : StRel lane0 st2 := by
  unfold scrub_line at h
  refine forRangeM_rel ?_ _ _ _ _ (StRel_refl lane0) h
  intro s i s2 hp hf
  obtain ⟨cell, hcell, hf⟩ := bind_ok hf
  by_cases hk : cell.is_known = true
  · rw [if_pos hk] at hf
    cases hf
    exact hp
  · rw [if_neg hk] at hf
    refine foldListM_rel ?_ _ _ _ hp hf
    intro s3 color s4 hp3 hf3
    revert hf3
    cases hskim : skim_line cs (s3.lane.set i (Cell.from_color color)) with
    | ok st5 =>
      intro hf3
      cases hf3
      exact hp3
    | contra =>
      intro hf3
      exact learn_cell_not_rel hp3 hf3
    | crash =>
      intro hf3
      cases hf3

theorem exhaust_line_rel {C : Type} [Clue C] {cs : List C}
    {lane0 : List Cell} {st2 : LaneSt}
    (h : exhaust_line cs lane0 = .ok st2) : StRel lane0 st2 :=
  scrub_line_rel h

/-- C2: for every clue vector and lane, when skim_line or scrub_line
returns without error, the bitmask of every cell after the call is a
subset of that cell's bitmask before the call. -/
theorem C2_deduction_monotone {C : Type} [Clue C] (clues : List C)
    (lane : List Cell) (st : LaneSt) :
    (skim_line clues lane = .ok st →
      ∀ i before after, lane.get? i = some before →
        st.lane.get? i = some after → cell_le after before) ∧
    (scrub_line clues lane = .ok st →
      ∀ i before after, lane.get? i = some before →
        st.lane.get? i = some after → cell_le after before) := by
  constructor
  · intro h i before after h1 h2
    exact ((skim_line_rel h).2.1 i before after h1 h2).1
  · intro h i before after h1 h2
    exact ((scrub_line_rel h).2.1 i before after h1 h2).1

/-- C2 witness: a concrete skim run, with the subset relation evaluated
at cell 1 (mask 3 shrinks to mask 2). -/
theorem C2_witness : cell_le ⟨2⟩ ⟨3⟩ :=
  (C2_deduction_monotone [nono_black 3] lane_bw4
      ⟨[⟨3⟩, ⟨2⟩, ⟨2⟩, ⟨3⟩], [1, 2]⟩).1
    (by decide) 1 ⟨3⟩ ⟨2⟩ (by decide) (by decide)

/-- C5 witness: the amended formula applied to the concrete clue vector
[black 1] over four unknown cells (score 1 + 1 - 4 + 4 = 2). -/
theorem C5_witness :
    skim_heuristic [nono_black 1] lane_bw4
      = .ok ((spec_total_clue_length [nono_black 1] : Int)
          + (spec_longest_clue [nono_black 1] : Int)
          - (spec_longest_run lane_bw4 : Int) + spec_edge_bonus lane_bw4) :=
  C5_skim_heuristic_formula [nono_black 1] lane_bw4 (by decide) (by decide)

/-- C1: the code contradicts the claim (and its own caller quality_check,
which counts UNSOLVED cells in this grid): on the ambiguous 2x2 puzzle the
solver terminates with all four cells unknown (cells_left 4, nothing in
the solved mask), yet grid_to_solution records BACKGROUND, not the
UNSOLVED sentinel, at every still-unknown cell. -/
theorem C1_unknown_cells_become_background :
    (solve ambiguous_2x2 none SolveOptions.default 100).out.report.map
        (fun r => (r.cells_left, r.solution.grid, r.solved_mask))
      = some (4, [[BACKGROUND, BACKGROUND], [BACKGROUND, BACKGROUND]],
              [[false, false], [false, false]]) ∧
    BACKGROUND ≠ UNSOLVED := by
  constructor
  · decide
  · decide

/-- C7 counterexample: solve_grid on the 1x1 puzzle seeded with the cell
already known black terminates with zero unknown cells but reports
cells_left = 1, because cells_left is initialised to rows*cols and only
decremented for cells that become newly known during the run. -/
theorem C7_counterexample :
    (solve_grid puzzle_1x1 none SolveOptions.default
        [[Cell.from_color black]] 100).out.report.map Report.cells_left
      = some 1 ∧
    count_unknown (solve_grid puzzle_1x1 none SolveOptions.default
        [[Cell.from_color black]] 100).final_grid = 0 ∧
    (1 : Nat) ≠ 0 := by
  refine ⟨by decide, by decide, by decide⟩

-- Cache soundness machinery ---------------------------------------------

theorem map_raw_inj : ∀ {a b : List Cell},
    a.map Cell.raw = b.map Cell.raw → a = b := by
  intro a
  induction a with
  | nil =>
    intro b h
    cases b with
    | nil => rfl
    | cons x xs => simp at h
  | cons x xs ih =>
    intro b h
    cases b with
    | nil => simp at h
    | cons y ys =>
      simp only [List.map_cons, List.cons.injEq] at h
      have hx : x = y := by
        cases x
        cases y
        simpa [Cell.raw] using h.1
      rw [hx, ih h.2]

theorem mapSR_listGetC_ok {l : List Cell} : ∀ (aff : List Nat),
    (∀ j ∈ aff, j < l.length) →
    ∃ cells, mapSR (listGetC l) aff = .ok cells := by
  intro aff
  induction aff with
  | nil =>
    intro _
    exact ⟨[], rfl⟩
  | cons i is ih =>
    intro hb
    have hi : i < l.length := hb i (by simp)
    have hc : l.get? i = some (l.get ⟨i, hi⟩) := List.get?_eq_get hi
    obtain ⟨cells, hcells⟩ := ih (fun j hj => hb j (by simp [hj]))
    refine ⟨l.get ⟨i, hi⟩ :: cells, ?_⟩
    unfold mapSR
    rw [show listGetC l i = .ok (l.get ⟨i, hi⟩) from listGetC_ok.mpr hc]
    show (mapSR (listGetC l) is).bind _ = _
    rw [hcells]
    rfl

theorem replay_eq {st : LaneSt} : ∀ (aff : List Nat) (cells : List Cell)
    (lane : List Cell),
    mapSR (listGetC st.lane) aff = .ok cells →
    lane.length = st.lane.length →
    (∀ j ∈ aff, j < lane.length) →
    (∀ i, i ∉ aff → lane.get? i = st.lane.get? i) →
    cache_replay lane aff cells = st.lane := by
  intro aff
  induction aff with
  | nil =>
    intro cells lane hmap hlen _ hoff
    have hc : cells = [] := by
      unfold mapSR at hmap
      cases hmap
      rfl
    subst hc
    unfold cache_replay
    apply List.ext_get?
    intro i
    exact hoff i (by simp)
  | cons i is ih =>
    intro cells lane hmap hlen hb hoff
    unfold mapSR at hmap
    obtain ⟨c, hc, hmap⟩ := bind_ok hmap
    obtain ⟨cs, hcs, hmap⟩ := bind_ok hmap
    cases hmap
    have hget : st.lane.get? i = some c := listGetC_ok.mp hc
    have hi : i < lane.length := hb i (by simp)
    show cache_replay (lane.set i c) is cs = st.lane
    apply ih cs (lane.set i c) hcs (by simpa using hlen)
    · intro j hj
      simpa using hb j (by simp [hj])
    · intro k hk
      rcases eq_or_ne k i with rfl | hne
      · rw [List.get?_set_eq_of_lt _ hi, hget]
      · rw [List.get?_set_ne _ _ (Ne.symm hne)]
        by_cases hks : k ∈ is
        · exact absurd hks hk
        · exact hoff k (by simp [hne, hks])

theorem cache_lookup_mem {C : Type} [DecidableEq C] {m : LineCache C}
    {key : List C × List Nat} {v : List Nat × List Cell}
    (h : cache_lookup m key = some v) : ∃ e ∈ m, e.1 = key ∧ e.2 = v := by
  unfold cache_lookup at h
  cases hf : m.find? (fun e => e.1 = key) with
  | none =>
    rw [hf] at h
    cases h
  | some e =>
    rw [hf] at h
    cases h
    refine ⟨e, List.mem_of_find?_eq_some hf, ?_, rfl⟩
    have := List.find?_some hf
    simpa using this

theorem cache_insert_valid {C : Type} [Clue C] [DecidableEq C]
    {m : LineCache C} {clues : List C} {lane : List Cell} {st : LaneSt}
    {cells : List Cell} (hval : cache_valid m)
    (hex : exhaust_line clues lane = .ok st)
    (hcells : mapSR (listGetC st.lane) st.affected = .ok cells) :
    cache_valid (m ++ [((clues, lane.map Cell.raw), (st.affected, cells))]) := by
  intro e he lane2 hkey
  rcases List.mem_append.mp he with hm | hnew
  · exact hval e hm lane2 hkey
  · have he2 : e = ((clues, lane.map Cell.raw), (st.affected, cells)) := by
      simpa using hnew
    subst he2
    have hl2 : lane2 = lane := map_raw_inj (by simpa using hkey)
    subst hl2
    obtain ⟨hlen, hpt, hoff, hbound⟩ := exhaust_line_rel hex
    refine ⟨st, hex, rfl, ?_⟩
    exact replay_eq st.affected cells lane2 hcells hlen.symm
      (fun j hj => hlen ▸ hbound j hj) (fun i hi => (hoff i hi).symm)

/-- With a sound cache, op_or_cache behaves exactly like running the
scrub routine directly, and the cache stays sound. -/
theorem op_cache_core {C : Type} [Clue C] [DecidableEq C] (clues : List C)
    (lane : List Cell) (m : LineCache C) (hval : cache_valid m) :
    (∀ st, exhaust_line clues lane = .ok st →
      ∃ m2, op_or_cache exhaust_line clues lane (some m)
          = .ok (st.affected, st.lane, some m2) ∧ cache_valid m2) ∧
    (exhaust_line clues lane = .contra →
      op_or_cache exhaust_line clues lane (some m) = .contra) ∧
    (exhaust_line clues lane = .crash →
      op_or_cache exhaust_line clues lane (some m) = .crash) := by
  cases hl : cache_lookup m (clues, lane.map Cell.raw) with
  | some v =>
    obtain ⟨vaff, vcells⟩ := v
    obtain ⟨e, hm, hk, hv⟩ := cache_lookup_mem hl
    have hclue : e.1.1 = clues := by rw [hk]
    have hmask : lane.map Cell.raw = e.1.2 := by rw [hk]
    obtain ⟨st, hex, haff, hrep⟩ := hval e hm lane hmask
    rw [hclue] at hex
    have haff2 : vaff = st.affected := by
      rw [haff, hv]
    have hrep2 : cache_replay lane vaff vcells = st.lane := by
      have h2 := hrep
      rw [hv] at h2
      exact h2
    have hop : op_or_cache exhaust_line clues lane (some m)
        = .ok (vaff, cache_replay lane vaff vcells, some m) := by
      simp only [op_or_cache, hl]
    refine ⟨?_, ?_, ?_⟩
    · intro st2 hex2
      rw [hex] at hex2
      cases hex2
      exact ⟨m, by rw [hop, hrep2, haff2], hval⟩
    · intro hcon
      rw [hex] at hcon
      cases hcon
    · intro hcr
      rw [hex] at hcr
      cases hcr
  | none =>
    have hop : op_or_cache exhaust_line clues lane (some m)
        = (do
            let st ← exhaust_line clues lane
            let cells ← mapSR (listGetC st.lane) st.affected
            pure (st.affected, st.lane,
              some (m ++ [((clues, lane.map Cell.raw),
                (st.affected, cells))]))) := by
      simp only [op_or_cache, hl]
    cases hex : exhaust_line clues lane with
    | ok st =>
      obtain ⟨hlen, hpt, hoff, hbound⟩ := exhaust_line_rel hex
      obtain ⟨cells, hcells⟩ := mapSR_listGetC_ok st.affected
        (fun j hj => hlen ▸ hbound j hj)
      refine ⟨?_, ?_, ?_⟩
      · intro st2 hex2
        cases hex2
        refine ⟨m ++ [((clues, lane.map Cell.raw), (st.affected, cells))],
          ?_, cache_insert_valid hval hex hcells⟩
        rw [hop, hex]
        show (mapSR (listGetC st.lane) st.affected).bind _ = _
        rw [hcells]
        rfl
      · intro hcon
        cases hcon
      · intro hcr
        cases hcr
    | contra =>
      refine ⟨?_, ?_, ?_⟩
      · intro st2 hex2
        cases hex2
      · intro _
        rw [hop, hex]
        rfl
      · intro hcr
        cases hcr
    | crash =>
      refine ⟨?_, ?_, ?_⟩
      · intro st2 hex2
        cases hex2
      · intro hcon
        cases hcon
      · intro _
        rw [hop, hex]
        rfl


theorem solve_grid_loop_zero {C : Type} [Clue C] [DecidableEq C]
    (p : Puzzle C) (o : SolveOptions) (st : GridSt C)
    (tr : List (SolveMode × Bool)) :
    solve_grid_loop p o 0 st tr = ⟨tr, st.grid, .fuelOut⟩ := rfl

theorem solve_grid_loop_succ {C : Type} [Clue C] [DecidableEq C]
    (p : Puzzle C) (o : SolveOptions) (fuel2 : Nat) (st : GridSt C)
    (tr : List (SolveMode × Bool)) :
    solve_grid_loop p o (fuel2 + 1) st tr
      = match solve_grid_iter p o st tr with
        | .inl run => run
        | .inr (st2, tr2) => solve_grid_loop p o fuel2 st2 tr2 := rfl

/-- propagate_rest ignores its cache argument except to store it in the
continuation state. -/
theorem propagate_rest_cache {C : Type} [Clue C] [DecidableEq C]
    (p : Puzzle C) (o : SolveOptions) (af0 : ModeMap Nat)
    (lanes2 : List (LaneState C)) (li : Nat) (ls : LaneState C)
    (cm : SolveMode) (counts2 : ModeMap Nat) (aff : List Nat)
    (grid2 : List (List Cell)) (cl2 : Nat)
    (tr : List (SolveMode × Bool)) (cA cB : Option (LineCache C)) :
    (∀ r, propagate_rest p o af0 lanes2 li ls cm counts2 cA aff grid2 cl2 tr
        = .inl r →
      propagate_rest p o af0 lanes2 li ls cm counts2 cB aff grid2 cl2 tr
        = .inl r) ∧
    (∀ st2, propagate_rest p o af0 lanes2 li ls cm counts2 cA aff grid2 cl2
        tr = .inr st2 →
      st2.cache = cA ∧
        propagate_rest p o af0 lanes2 li ls cm counts2 cB aff grid2 cl2 tr
          = .inr { st2 with cache := cB }) := by
  unfold propagate_rest
  cases hre : (do
      let ls1 ← listGetC lanes2 li
      rescore ls1 grid2 true : SR _) with
  | crash =>
    refine ⟨?_, ?_⟩
    · intro r hr
      exact hr
    · intro st2 h
      cases h
  | contra =>
    refine ⟨?_, ?_⟩
    · intro r hr
      exact hr
    · intro st2 h
      cases h
  | ok rescored =>
    simp only []
    by_cases hcl : cl2 = 0
    · rw [if_pos hcl, if_pos hcl]
      refine ⟨?_, ?_⟩
      · intro r hr
        exact hr
      · intro st2 h
        cases h
    · rw [if_neg hcl, if_neg hcl]
      cases hpl : propagate_lanes grid2 ls.row aff (lanes2.set li rescored) with
      | crash =>
        refine ⟨?_, ?_⟩
        · intro r hr
          exact hr
        · intro st2 h
          cases h
      | contra =>
        refine ⟨?_, ?_⟩
        · intro r hr
          exact hr
        · intro st2 h
          cases h
      | ok lanes4 =>
        refine ⟨?_, ?_⟩
        · intro r hr
          cases hr
        · intro st2 h
          cases h
          exact ⟨rfl, rfl⟩

theorem SR_bind_crash {α β : Type} (f : α → SR β) :
    (SR.crash >>= f) = SR.crash := rfl

theorem SR_bind_contra {α β : Type} (f : α → SR β) :
    (SR.contra >>= f) = SR.contra := rfl

theorem SR_bind_ok {α β : Type} (a : α) (f : α → SR β) :
    (SR.ok a >>= f) = f a := rfl

theorem SR_pure {α : Type} (a : α) : (pure a : SR α) = SR.ok a := rfl

/-- One solve-loop iteration with a sound cache ends the run exactly as
the cache-free iteration does, or continues into the same state except
for the (still sound) cache. -/
theorem iter_cache_agnostic {C : Type} [Clue C] [DecidableEq C]
    (p : Puzzle C) (o : SolveOptions) (grid : List (List Cell))
    (lanes : List (LaneState C)) (cl : Nat) (sc af : ModeMap Nat)
    (m : LineCache C) (tr : List (SolveMode × Bool))
    (hval : cache_valid m) :
    (∀ run,
      solve_grid_iter p o ⟨grid, lanes, cl, sc, af, some m⟩ tr = .inl run →
      solve_grid_iter p o ⟨grid, lanes, cl, sc, af, none⟩ tr = .inl run) ∧
    (∀ st2 tr2,
      solve_grid_iter p o ⟨grid, lanes, cl, sc, af, some m⟩ tr
        = .inr (st2, tr2) →
      ∃ m2, cache_valid m2 ∧ st2.cache = some m2 ∧
        solve_grid_iter p o ⟨grid, lanes, cl, sc, af, none⟩ tr
          = .inr ({ st2 with cache := none }, tr2)) := by
  unfold solve_grid_iter
  simp only []
  cases hfb : find_best_lane lanes (select_mode o.max_effort af) with
  | none =>
    simp only []
    by_cases hml : mode_le o.max_effort (select_mode o.max_effort af) = true
    · rw [if_pos hml, if_pos hml]
      refine ⟨fun run hr => hr, ?_⟩
      intro st2 tr2 h
      cases h
    · rw [if_neg hml, if_neg hml]
      refine ⟨?_, ?_⟩
      · intro run hr
        cases hr
      · intro st2 tr2 h
        cases h
        exact ⟨m, hval, rfl, rfl⟩
  | some li =>
    simp only []
    cases hbind : (do
        let lane_state ← listGetC lanes li
        let orig ← get_grid_lane grid lane_state.row lane_state.index
        pure (lane_state, orig) : SR _) with
    | crash =>
      simp only []
      refine ⟨fun run hr => hr, ?_⟩
      intro st2 tr2 h
      cases h
    | contra =>
      simp only []
      refine ⟨fun run hr => hr, ?_⟩
      intro st2 tr2 h
      cases h
    | ok lsorig =>
      obtain ⟨ls, orig⟩ := lsorig
      simp only []
      cases hcm : select_mode o.max_effort af with
      | Skim =>
        simp only []
        cases hsk : skim_line ls.clues orig with
        | crash =>
          simp only [SR_bind_crash]
          refine ⟨fun run hr => hr, ?_⟩
          intro st2 tr2 h
          cases h
        | contra =>
          simp only [SR_bind_contra]
          refine ⟨fun run hr => hr, ?_⟩
          intro st2 tr2 h
          cases h
        | ok r =>
          simp only [SR_bind_ok, SR_pure]
          cases hfil : (match o.only_solve_color with
                 | some color =>
                   filter_report_by_color r.affected orig r.lane color
                 | none => pure (r.affected, r.lane) : SR _) with
          | crash =>
            simp only []
            refine ⟨fun run hr => hr, ?_⟩
            intro st2 tr2 h
            cases h
          | contra =>
            simp only []
            refine ⟨fun run hr => hr, ?_⟩
            intro st2 tr2 h
            cases h
          | ok al =>
            obtain ⟨aff, lane⟩ := al
            simp only []
            obtain ⟨pc1, pc2⟩ := propagate_rest_cache p o af
              (lanes.set li
                { ls with per_mode := ls.per_mode.set SolveMode.Skim ({ ls.per_mode.get SolveMode.Skim with processed := true }) })
              li ls SolveMode.Skim (sc.set SolveMode.Skim
                (sc.get SolveMode.Skim + 1)) aff
              (set_grid_lane grid ls.row ls.index lane)
              (cl - ((lane.filter Cell.is_known).length
                - (orig.filter Cell.is_known).length))
              (tr ++ [(SolveMode.Skim, false)]) (some m) none
            cases hpr : propagate_rest p o af
                (lanes.set li
                  { ls with per_mode := ls.per_mode.set SolveMode.Skim ({ ls.per_mode.get SolveMode.Skim with processed := true }) })
                li ls SolveMode.Skim (sc.set SolveMode.Skim
                  (sc.get SolveMode.Skim + 1)) (some m) aff
                (set_grid_lane grid ls.row ls.index lane)
                (cl - ((lane.filter Cell.is_known).length
                  - (orig.filter Cell.is_known).length))
                (tr ++ [(SolveMode.Skim, false)]) with
            | inl run =>
              rw [pc1 run hpr]
              simp only []
              refine ⟨fun run2 hr => hr, ?_⟩
              intro st2 tr2 h
              cases h
            | inr st2 =>
              obtain ⟨hc, hprB⟩ := pc2 st2 hpr
              rw [hprB]
              simp only []
              refine ⟨?_, ?_⟩
              · intro run hr
                cases hr
              · intro st3 tr3 h
                cases h
                exact ⟨m, hval, hc, rfl⟩
      | Scrub =>
        simp only []
        obtain ⟨core1, core2, core3⟩ := op_cache_core ls.clues orig m hval
        cases hex : exhaust_line ls.clues orig with
        | crash =>
          have hopA := core3 hex
          have hopB : op_or_cache exhaust_line ls.clues orig none
              = .crash := by
            simp only [op_or_cache]
            rw [hex]
            rfl
          rw [hopA, hopB]
          simp only []
          refine ⟨fun run hr => hr, ?_⟩
          intro st2 tr2 h
          cases h
        | contra =>
          have hopA := core2 hex
          have hopB : op_or_cache exhaust_line ls.clues orig none
              = .contra := by
            simp only [op_or_cache]
            rw [hex]
            rfl
          rw [hopA, hopB]
          simp only []
          refine ⟨fun run hr => hr, ?_⟩
          intro st2 tr2 h
          cases h
        | ok stx =>
          obtain ⟨m2, hopA, hval2⟩ := core1 stx hex
          have hopB : op_or_cache exhaust_line ls.clues orig none
              = .ok (stx.affected, stx.lane, none) := by
            simp only [op_or_cache]
            rw [hex]
            rfl
          rw [hopA, hopB]
          simp only []
          cases hfil : (match o.only_solve_color with
                 | some color =>
                   filter_report_by_color stx.affected orig stx.lane color
                 | none => pure (stx.affected, stx.lane) : SR _) with
          | crash =>
            simp only []
            refine ⟨fun run hr => hr, ?_⟩
            intro st2 tr2 h
            cases h
          | contra =>
            simp only []
            refine ⟨fun run hr => hr, ?_⟩
            intro st2 tr2 h
            cases h
          | ok al =>
            obtain ⟨aff, lane⟩ := al
            simp only []
            obtain ⟨pc1, pc2⟩ := propagate_rest_cache p o af
              (lanes.set li
                { ls with per_mode := ls.per_mode.set SolveMode.Scrub ({ ls.per_mode.get SolveMode.Scrub with processed := true }) })
              li ls SolveMode.Scrub (sc.set SolveMode.Scrub
                (sc.get SolveMode.Scrub + 1)) aff
              (set_grid_lane grid ls.row ls.index lane)
              (cl - ((lane.filter Cell.is_known).length
                - (orig.filter Cell.is_known).length))
              (tr ++ [(SolveMode.Scrub, false)]) (some m2) none
            cases hpr : propagate_rest p o af
                (lanes.set li
                  { ls with per_mode := ls.per_mode.set SolveMode.Scrub ({ ls.per_mode.get SolveMode.Scrub with processed := true }) })
                li ls SolveMode.Scrub (sc.set SolveMode.Scrub
                  (sc.get SolveMode.Scrub + 1)) (some m2) aff
                (set_grid_lane grid ls.row ls.index lane)
                (cl - ((lane.filter Cell.is_known).length
                  - (orig.filter Cell.is_known).length))
                (tr ++ [(SolveMode.Scrub, false)]) with
            | inl run =>
              rw [pc1 run hpr]
              simp only []
              refine ⟨fun run2 hr => hr, ?_⟩
              intro st2 tr2 h
              cases h
            | inr st2 =>
              obtain ⟨hc, hprB⟩ := pc2 st2 hpr
              rw [hprB]
              simp only []
              refine ⟨?_, ?_⟩
              · intro run hr
                cases hr
              · intro st3 tr3 h
                cases h
                exact ⟨m2, hval2, hc, rfl⟩

/-- The whole solve loop, started with any sound cache, produces the same
SolveRun (trace, grid and outcome) as the cache-free loop. -/
theorem loop_cache_agnostic {C : Type} [Clue C] [DecidableEq C]
    (p : Puzzle C) (o : SolveOptions) (fuel : Nat) :
    ∀ (grid : List (List Cell)) (lanes : List (LaneState C)) (cl : Nat)
      (sc af : ModeMap Nat) (m : LineCache C) (tr : List (SolveMode × Bool)),
      cache_valid m →
      solve_grid_loop p o fuel ⟨grid, lanes, cl, sc, af, some m⟩ tr
        = solve_grid_loop p o fuel ⟨grid, lanes, cl, sc, af, none⟩ tr := by
  induction fuel with
  | zero =>
    intro grid lanes cl sc af m tr _
    rfl
  | succ f ih =>
    intro grid lanes cl sc af m tr hval
    rw [solve_grid_loop_succ, solve_grid_loop_succ]
    obtain ⟨h1, h2⟩ := iter_cache_agnostic p o grid lanes cl sc af m tr hval
    cases hit : solve_grid_iter p o ⟨grid, lanes, cl, sc, af, some m⟩ tr with
    | inl run =>
      rw [h1 run hit]
    | inr st2tr =>
      obtain ⟨st2, tr2⟩ := st2tr
      obtain ⟨m2, hval2, hc2, hB⟩ := h2 st2 tr2 hit
      rw [hB]
      obtain ⟨g2, l2, c2, s2, a2, ca2⟩ := st2
      simp only [] at hc2
      cases hc2
      exact ih g2 l2 c2 s2 a2 m2 tr2 hval2

/-- C3: running solve with an initially empty line cache and running it
with no cache yield the same SolveRun — in particular the same final grid
and (since cells_left is derived from the same run) the same cells_left;
here even the invocation counts and trace coincide. -/
theorem C3_cache_faithfulness {C : Type} [Clue C] [DecidableEq C]
    (p : Puzzle C) (o : SolveOptions) (fuel : Nat) :
    solve p (some ([] : LineCache C)) o fuel = solve p none o fuel := by
  unfold solve solve_grid
  cases build_lanes p
      (List.replicate p.rows.length
        (List.replicate p.cols.length (Cell.new p))) with
  | crash => rfl
  | contra => rfl
  | ok lanes =>
    exact loop_cache_agnostic p o fuel _ lanes _ _ _ [] []
      (fun e he => absurd he (List.not_mem_nil e))

theorem bind_ne_contra {α β : Type} {x : SR α} {f : α → SR β}
    (hx : x ≠ SR.contra) (hf : ∀ a, x = SR.ok a → f a ≠ SR.contra) :
    x >>= f ≠ SR.contra := by
  cases x with
  | crash => exact fun h => SR.noConfusion h
  | contra => exact absurd rfl hx
  | ok a => exact hf a rfl

theorem listGetC_ne_contra {α : Type} (xs : List α) (i : Nat) :
    listGetC xs i ≠ SR.contra := by
  unfold listGetC
  cases xs.get? i with
  | none => exact fun h => SR.noConfusion h
  | some a => exact fun h => SR.noConfusion h

theorem listLastC_ne_contra {α : Type} (xs : List α) :
    listLastC xs ≠ SR.contra := by
  unfold listLastC
  cases xs.getLast? with
  | none => exact fun h => SR.noConfusion h
  | some a => exact fun h => SR.noConfusion h

theorem pure_ne_contra {α : Type} (a : α) : (pure a : SR α) ≠ SR.contra :=
  fun h => SR.noConfusion h

theorem mapSR_ne_contra {α β : Type} (f : α → SR β)
    (hf : ∀ a, f a ≠ SR.contra) :
    ∀ xs : List α, mapSR f xs ≠ SR.contra := by
  intro xs
  induction xs with
  | nil => exact pure_ne_contra []
  | cons a as ih =>
    exact bind_ne_contra (hf a)
      (fun b _ => bind_ne_contra ih (fun bs _ => pure_ne_contra _))

theorem get_grid_lane_ne_contra (grid : List (List Cell)) (row : Bool)
    (idx : Nat) : get_grid_lane grid row idx ≠ SR.contra := by
  unfold get_grid_lane
  cases row with
  | true =>
    rw [if_pos rfl]
    exact listGetC_ne_contra grid idx
  | false =>
    rw [if_neg (by simp)]
    exact mapSR_ne_contra _ (fun r => listGetC_ne_contra r idx) grid

theorem skim_heuristic_ne_contra {C : Type} [Clue C] (clues : List C)
    (lane : List Cell) : skim_heuristic clues lane ≠ SR.contra := by
  unfold skim_heuristic
  by_cases hc : clues.isEmpty = true
  · rw [if_pos hc]
    exact fun h => SR.noConfusion h
  · rw [if_neg hc]
    cases hh : lane.head? with
    | some c =>
      exact bind_ne_contra (fun h => SR.noConfusion h)
        (fun first _ => bind_ne_contra (listLastC_ne_contra lane)
          (fun last _ => pure_ne_contra _))
    | none =>
      exact bind_ne_contra (fun h => SR.noConfusion h)
        (fun a ha => absurd ha (fun h => SR.noConfusion h))

theorem rescore_ne_contra {C : Type} [Clue C] (ls : LaneState C)
    (grid : List (List Cell)) (wp : Bool) :
    rescore ls grid wp ≠ SR.contra := by
  unfold rescore
  refine bind_ne_contra (get_grid_lane_ne_contra grid ls.row ls.index)
    (fun lane _ => ?_)
  by_cases hk : lane.all Cell.is_known = true
  · rw [if_pos hk]
    exact pure_ne_contra _
  · rw [if_neg hk]
    exact bind_ne_contra (skim_heuristic_ne_contra ls.clues lane)
      (fun sk _ => pure_ne_contra _)

theorem build_lanes_ne_contra {C : Type} [Clue C] (p : Puzzle C)
    (grid : List (List Cell)) : build_lanes p grid ≠ SR.contra := by
  unfold build_lanes
  refine bind_ne_contra
      (mapSR_ne_contra _ (fun q => rescore_ne_contra _ grid false) _)
    (fun rows _ => bind_ne_contra
      (mapSR_ne_contra _ (fun q => rescore_ne_contra _ grid false) _)
      (fun cols _ => pure_ne_contra _))

theorem propagate_lanes_ne_contra {C : Type} [Clue C]
    (grid : List (List Cell)) (wr : Bool) (aff : List Nat) :
    ∀ ls : List (LaneState C), propagate_lanes grid wr aff ls ≠ SR.contra := by
  intro ls
  induction ls with
  | nil => exact pure_ne_contra _
  | cons l rest ih =>
    unfold propagate_lanes
    by_cases hc : (l.row ≠ wr ∧ aff.contains l.index = true)
    · rw [if_pos hc]
      exact bind_ne_contra (rescore_ne_contra l grid false)
        (fun r _ => bind_ne_contra (pure_ne_contra _)
          (fun y _ => bind_ne_contra ih (fun rest2 _ => pure_ne_contra _)))
    · rw [if_neg hc]
      exact bind_ne_contra (pure_ne_contra _)
        (fun y _ => bind_ne_contra ih (fun rest2 _ => pure_ne_contra _))

theorem foldListM_ne_contra {σ α : Type} (f : σ → α → SR σ)
    (hf : ∀ s a, f s a ≠ SR.contra) :
    ∀ (xs : List α) (s : σ), foldListM f s xs ≠ SR.contra := by
  intro xs
  induction xs with
  | nil => intro s; exact fun h => SR.noConfusion h
  | cons a as ih =>
    intro s
    exact bind_ne_contra (hf s a) (fun s2 _ => ih s2)

theorem filter_report_by_color_ne_contra (affected : List Nat)
    (orig_lane new_lane : List Cell) (color : Color) :
    filter_report_by_color affected orig_lane new_lane color ≠ SR.contra := by
  unfold filter_report_by_color
  refine foldListM_ne_contra _ ?_ affected ([], new_lane)
  intro q idx
  refine bind_ne_contra (listGetC_ne_contra q.2 idx) (fun c _ => ?_)
  by_cases hk : c.is_known_to_be color = true
  · rw [if_pos hk]
    exact pure_ne_contra _
  · rw [if_neg hk]
    exact bind_ne_contra (listGetC_ne_contra orig_lane idx)
      (fun oc _ => pure_ne_contra _)

theorem hasErr_append (tr : List (SolveMode × Bool)) (m : SolveMode)
    (b : Bool) : hasErr (tr ++ [(m, b)]) = (hasErr tr || b) := by
  simp [hasErr]

theorem count_mode_append (tr : List (SolveMode × Bool)) (m m' : SolveMode)
    (b : Bool) :
    count_mode (tr ++ [(m, b)]) m'
      = count_mode tr m' + (if m = m' then 1 else 0) := by
  by_cases h : m = m'
  · simp [count_mode, List.filter_append, h]
  · simp [count_mode, List.filter_append, h]

theorem ModeMap_get_set {α : Type} (mm : ModeMap α) (m m' : SolveMode)
    (v : α) :
    (mm.set m v).get m' = if m = m' then v else mm.get m' := by
  cases m <;> cases m' <;> rfl

/-- How the tail of one loop iteration can end: the only finished runs it
produces are crashes and the Ok report built when cells_left hits zero,
never an error, and it keeps the trace and invocation counts it was
given. -/
theorem propagate_rest_out {C : Type} [Clue C] [DecidableEq C]
    (p : Puzzle C) (o : SolveOptions) (af0 : ModeMap Nat)
    (lanes2 : List (LaneState C)) (li : Nat) (ls : LaneState C)
    (cm : SolveMode) (counts2 : ModeMap Nat) (cache2 : Option (LineCache C))
    (aff : List Nat) (grid2 : List (List Cell)) (cl2 : Nat)
    (tr : List (SolveMode × Bool)) :
    (∀ run, propagate_rest p o af0 lanes2 li ls cm counts2 cache2 aff grid2
        cl2 tr = .inl run →
      run.trace = tr ∧ run.out ≠ .err ∧
      (∀ rep, run.out = .ok rep →
        rep.solve_counts = counts2 ∧
        rep.solution = grid_to_solution run.final_grid p ∧
        rep.cells_left = cl2 ∧ run.final_grid = grid2)) ∧
    (∀ st2, propagate_rest p o af0 lanes2 li ls cm counts2 cache2 aff grid2
        cl2 tr = .inr st2 →
      st2.solve_counts = counts2 ∧ st2.grid = grid2 ∧
        st2.cells_left = cl2 ∧ st2.cache = cache2) := by
  unfold propagate_rest
  cases hre : (do
      let ls1 ← listGetC lanes2 li
      rescore ls1 grid2 true : SR _) with
  | contra =>
    exact absurd hre (bind_ne_contra (listGetC_ne_contra lanes2 li)
      (fun a _ => rescore_ne_contra a grid2 true))
  | crash =>
    refine ⟨?_, ?_⟩
    · intro run h
      cases h
      exact ⟨rfl, fun hh => GridOut.noConfusion hh,
        fun rep hrep => GridOut.noConfusion hrep⟩
    · intro st2 h
      cases h
  | ok rescored =>
    simp only []
    by_cases hcl : cl2 = 0
    · rw [if_pos hcl]
      refine ⟨?_, ?_⟩
      · intro run h
        cases h
        refine ⟨rfl, fun hh => GridOut.noConfusion hh, ?_⟩
        intro rep hrep
        cases hrep
        exact ⟨rfl, rfl, rfl, rfl⟩
      · intro st2 h
        cases h
    · rw [if_neg hcl]
      cases hpl : propagate_lanes grid2 ls.row aff (lanes2.set li rescored) with
      | contra =>
        exact absurd hpl (propagate_lanes_ne_contra grid2 ls.row aff _)
      | crash =>
        refine ⟨?_, ?_⟩
        · intro run h
          cases h
          exact ⟨rfl, fun hh => GridOut.noConfusion hh,
            fun rep hrep => GridOut.noConfusion hrep⟩
        · intro st2 h
          cases h
      | ok lanes4 =>
        refine ⟨?_, ?_⟩
        · intro run h
          cases h
        · intro st2 h
          cases h
          exact ⟨rfl, rfl, rfl, rfl⟩

theorem RunOK_crash {C : Type} [Clue C] (p : Puzzle C)
    (t : List (SolveMode × Bool)) (g : List (List Cell))
    (ht : hasErr t = false) : RunOK p ⟨t, g, .crash⟩ :=
  ⟨⟨fun hh => GridOut.noConfusion hh,
    fun hh => Bool.noConfusion (ht.symm.trans hh)⟩,
   fun rep hrep => GridOut.noConfusion hrep⟩

theorem RunOK_fuelOut {C : Type} [Clue C] (p : Puzzle C)
    (t : List (SolveMode × Bool)) (g : List (List Cell))
    (ht : hasErr t = false) : RunOK p ⟨t, g, .fuelOut⟩ :=
  ⟨⟨fun hh => GridOut.noConfusion hh,
    fun hh => Bool.noConfusion (ht.symm.trans hh)⟩,
   fun rep hrep => GridOut.noConfusion hrep⟩

theorem RunOK_err {C : Type} [Clue C] (p : Puzzle C)
    (t : List (SolveMode × Bool)) (g : List (List Cell))
    (ht : hasErr t = true) : RunOK p ⟨t, g, .err⟩ :=
  ⟨⟨fun _ => ht, fun _ => rfl⟩, fun rep hrep => GridOut.noConfusion hrep⟩

theorem RunOK_ok {C : Type} [Clue C] (p : Puzzle C)
    (t : List (SolveMode × Bool)) (g : List (List Cell)) (rep : Report)
    (ht : hasErr t = false) (hsol : rep.solution = grid_to_solution g p)
    (hcts : ∀ m, rep.solve_counts.get m = count_mode t m) :
    RunOK p ⟨t, g, .ok rep⟩ := by
  refine ⟨⟨fun hh => GridOut.noConfusion hh,
    fun hh => Bool.noConfusion (ht.symm.trans hh)⟩, ?_⟩
  intro rep2 hrep
  cases hrep
  exact ⟨ht, hsol, hcts⟩

theorem counts_step (sc : ModeMap Nat) (tr : List (SolveMode × Bool))
    (cm : SolveMode) (b : Bool) (h : ∀ m, sc.get m = count_mode tr m) :
    ∀ m, (sc.set cm (sc.get cm + 1)).get m
      = count_mode (tr ++ [(cm, b)]) m := by
  intro m
  rw [ModeMap_get_set, count_mode_append, ← h m]
  by_cases hc : cm = m
  · rw [if_pos hc, if_pos hc, hc]
  · rw [if_neg hc, if_neg hc]
    rfl

/-- One loop iteration keeps the error/trace discipline: a finished run
satisfies RunOK, a continued iteration keeps an error-free trace whose
per-mode entry counts match the invocation counters. -/
theorem iter_out {C : Type} [Clue C] [DecidableEq C]
    (p : Puzzle C) (o : SolveOptions) (st : GridSt C)
    (tr : List (SolveMode × Bool)) (htr : hasErr tr = false)
    (hcts : ∀ m, st.solve_counts.get m = count_mode tr m) :
    (∀ run, solve_grid_iter p o st tr = .inl run → RunOK p run) ∧
    (∀ st2 tr2, solve_grid_iter p o st tr = .inr (st2, tr2) →
      hasErr tr2 = false ∧
      (∀ m, st2.solve_counts.get m = count_mode tr2 m)) := by
  unfold solve_grid_iter
  simp only []
  cases hfb : find_best_lane st.lanes (select_mode o.max_effort
      st.allowed_failures) with
  | none =>
    simp only []
    by_cases hml : mode_le o.max_effort (select_mode o.max_effort
        st.allowed_failures) = true
    · rw [if_pos hml]
      refine ⟨?_, fun st2 tr2 h => by cases h⟩
      intro run h
      cases h
      exact RunOK_ok p tr st.grid _ htr rfl (fun m => hcts m)
    · rw [if_neg hml]
      refine ⟨(fun run h => by cases h), ?_⟩
      intro st2 tr2 h
      cases h
      exact ⟨htr, fun m => hcts m⟩
  | some li =>
    simp only []
    cases hbind : (do
        let lane_state ← listGetC st.lanes li
        let orig ← get_grid_lane st.grid lane_state.row lane_state.index
        pure (lane_state, orig) : SR _) with
    | crash =>
      simp only []
      refine ⟨?_, fun st2 tr2 h => by cases h⟩
      intro run h
      cases h
      exact RunOK_crash p tr st.grid htr
    | contra =>
      exact absurd hbind (bind_ne_contra (listGetC_ne_contra st.lanes li)
        (fun a _ => bind_ne_contra
          (get_grid_lane_ne_contra st.grid a.row a.index)
          (fun b _ => pure_ne_contra _)))
    | ok lsorig =>
      obtain ⟨ls, orig⟩ := lsorig
      simp only []
      have htr_f : hasErr (tr ++ [(select_mode o.max_effort
          st.allowed_failures, false)]) = false := by
        rw [hasErr_append, htr]
        rfl
      have htr_t : hasErr (tr ++ [(select_mode o.max_effort
          st.allowed_failures, true)]) = true := by
        rw [hasErr_append, htr]
        rfl
      have hcts2 := counts_step st.solve_counts tr
        (select_mode o.max_effort st.allowed_failures) false hcts
      cases hcm : select_mode o.max_effort st.allowed_failures with
      | Skim =>
        rw [hcm] at htr_f htr_t hcts2
        simp only []
        cases hsk : skim_line ls.clues orig with
        | crash =>
          simp only [SR_bind_crash]
          refine ⟨?_, fun st2 tr2 h => by cases h⟩
          intro run h
          cases h
          exact RunOK_crash p _ st.grid htr_f
        | contra =>
          simp only [SR_bind_contra]
          refine ⟨?_, fun st2 tr2 h => by cases h⟩
          intro run h
          cases h
          exact RunOK_err p _ st.grid htr_t
        | ok r =>
          simp only [SR_bind_ok, SR_pure]
          cases hfil : (match o.only_solve_color with
                 | some color =>
                   filter_report_by_color r.affected orig r.lane color
                 | none => pure (r.affected, r.lane) : SR _) with
          | crash =>
            simp only []
            refine ⟨?_, fun st2 tr2 h => by cases h⟩
            intro run h
            cases h
            exact RunOK_crash p _ st.grid htr_f
          | contra =>
            exfalso
            cases hoc : o.only_solve_color with
            | some color =>
              rw [hoc] at hfil
              exact absurd hfil
                (filter_report_by_color_ne_contra r.affected orig r.lane color)
            | none =>
              rw [hoc] at hfil
              exact absurd hfil (pure_ne_contra _)
          | ok al =>
            obtain ⟨aff, lane⟩ := al
            simp only []
            obtain ⟨po1, po2⟩ := propagate_rest_out p o st.allowed_failures
              (st.lanes.set li { ls with per_mode := ls.per_mode.set SolveMode.Skim ({ ls.per_mode.get SolveMode.Skim with processed := true }) })
              li ls SolveMode.Skim (st.solve_counts.set SolveMode.Skim
                (st.solve_counts.get SolveMode.Skim + 1)) st.cache aff
              (set_grid_lane st.grid ls.row ls.index lane)
              (st.cells_left - ((lane.filter Cell.is_known).length
                - (orig.filter Cell.is_known).length))
              (tr ++ [(SolveMode.Skim, false)])
            cases hpr : propagate_rest p o st.allowed_failures
                (st.lanes.set li { ls with per_mode := ls.per_mode.set SolveMode.Skim ({ ls.per_mode.get SolveMode.Skim with processed := true }) })
                li ls SolveMode.Skim (st.solve_counts.set SolveMode.Skim
                  (st.solve_counts.get SolveMode.Skim + 1)) st.cache aff
                (set_grid_lane st.grid ls.row ls.index lane)
                (st.cells_left - ((lane.filter Cell.is_known).length
                  - (orig.filter Cell.is_known).length))
                (tr ++ [(SolveMode.Skim, false)]) with
            | inl run =>
              simp only []
              refine ⟨?_, fun st2 tr2 h => by cases h⟩
              intro run2 h
              cases h
              obtain ⟨htrace, hne, hok⟩ := po1 run hpr
              refine ⟨⟨fun hh => absurd hh hne, fun hh => ?_⟩, ?_⟩
              · rw [htrace] at hh
                exact Bool.noConfusion (htr_f.symm.trans hh)
              · intro rep hrep
                obtain ⟨hct, hsol, hcl, hfg⟩ := hok rep hrep
                refine ⟨?_, hsol, ?_⟩
                · rw [htrace]
                  exact htr_f
                · intro m
                  rw [hct, htrace]
                  exact hcts2 m
            | inr st2 =>
              simp only []
              refine ⟨(fun run h => by cases h), ?_⟩
              intro st3 tr3 h
              cases h
              refine ⟨htr_f, ?_⟩
              intro m
              rw [(po2 st2 hpr).1]
              exact hcts2 m
      | Scrub =>
        rw [hcm] at htr_f htr_t hcts2
        simp only []
        cases hoc : op_or_cache exhaust_line ls.clues orig st.cache with
        | crash =>
          simp only []
          refine ⟨?_, fun st2 tr2 h => by cases h⟩
          intro run h
          cases h
          exact RunOK_crash p _ st.grid htr_f
        | contra =>
          simp only []
          refine ⟨?_, fun st2 tr2 h => by cases h⟩
          intro run h
          cases h
          exact RunOK_err p _ st.grid htr_t
        | ok anc =>
          obtain ⟨affected0, new_lane0, cache2⟩ := anc
          simp only []
          cases hfil : (match o.only_solve_color with
                 | some color =>
                   filter_report_by_color affected0 orig new_lane0 color
                 | none => pure (affected0, new_lane0) : SR _) with
          | crash =>
            simp only []
            refine ⟨?_, fun st2 tr2 h => by cases h⟩
            intro run h
            cases h
            exact RunOK_crash p _ st.grid htr_f
          | contra =>
            exfalso
            cases hocl : o.only_solve_color with
            | some color =>
              rw [hocl] at hfil
              exact absurd hfil
                (filter_report_by_color_ne_contra affected0 orig new_lane0
                  color)
            | none =>
              rw [hocl] at hfil
              exact absurd hfil (pure_ne_contra _)
          | ok al =>
            obtain ⟨aff, lane⟩ := al
            simp only []
            obtain ⟨po1, po2⟩ := propagate_rest_out p o st.allowed_failures
              (st.lanes.set li { ls with per_mode := ls.per_mode.set SolveMode.Scrub ({ ls.per_mode.get SolveMode.Scrub with processed := true }) })
              li ls SolveMode.Scrub (st.solve_counts.set SolveMode.Scrub
                (st.solve_counts.get SolveMode.Scrub + 1)) cache2 aff
              (set_grid_lane st.grid ls.row ls.index lane)
              (st.cells_left - ((lane.filter Cell.is_known).length
                - (orig.filter Cell.is_known).length))
              (tr ++ [(SolveMode.Scrub, false)])
            cases hpr : propagate_rest p o st.allowed_failures
                (st.lanes.set li { ls with per_mode := ls.per_mode.set SolveMode.Scrub ({ ls.per_mode.get SolveMode.Scrub with processed := true }) })
                li ls SolveMode.Scrub (st.solve_counts.set SolveMode.Scrub
                  (st.solve_counts.get SolveMode.Scrub + 1)) cache2 aff
                (set_grid_lane st.grid ls.row ls.index lane)
                (st.cells_left - ((lane.filter Cell.is_known).length
                  - (orig.filter Cell.is_known).length))
                (tr ++ [(SolveMode.Scrub, false)]) with
            | inl run =>
              simp only []
              refine ⟨?_, fun st2 tr2 h => by cases h⟩
              intro run2 h
              cases h
              obtain ⟨htrace, hne, hok⟩ := po1 run hpr
              refine ⟨⟨fun hh => absurd hh hne, fun hh => ?_⟩, ?_⟩
              · rw [htrace] at hh
                exact Bool.noConfusion (htr_f.symm.trans hh)
              · intro rep hrep
                obtain ⟨hct, hsol, hcl, hfg⟩ := hok rep hrep
                refine ⟨?_, hsol, ?_⟩
                · rw [htrace]
                  exact htr_f
                · intro m
                  rw [hct, htrace]
                  exact hcts2 m
            | inr st2 =>
              simp only []
              refine ⟨(fun run h => by cases h), ?_⟩
              intro st3 tr3 h
              cases h
              refine ⟨htr_f, ?_⟩
              intro m
              rw [(po2 st2 hpr).1]
              exact hcts2 m

/-- The fueled solve loop keeps the error/trace discipline. -/
theorem loop_out {C : Type} [Clue C] [DecidableEq C] (p : Puzzle C)
    (o : SolveOptions) (fuel : Nat) :
    ∀ (st : GridSt C) (tr : List (SolveMode × Bool)),
      hasErr tr = false →
      (∀ m, st.solve_counts.get m = count_mode tr m) →
      RunOK p (solve_grid_loop p o fuel st tr) := by
  induction fuel with
  | zero =>
    intro st tr htr _
    exact RunOK_fuelOut p tr st.grid htr
  | succ f ih =>
    intro st tr htr hcts
    rw [solve_grid_loop_succ]
    obtain ⟨h1, h2⟩ := iter_out p o st tr htr hcts
    cases hit : solve_grid_iter p o st tr with
    | inl run =>
      exact h1 run hit
    | inr st2tr =>
      obtain ⟨st2, tr2⟩ := st2tr
      obtain ⟨htr2, hcts2⟩ := h2 st2 tr2 hit
      exact ih st2 tr2 htr2 hcts2

/-- C6: a solve_grid run (that terminates without exhausting embedding
fuel or panicking) ends in an error exactly when some line-solver
invocation in its trace reported a contradiction; when it ends Ok the
report carries the snapshot of the (partially solved) final grid and its
per-mode counts count exactly the line-solver invocations of each mode,
with no contradiction anywhere in the trace. -/
theorem C6_error_iff_contradiction {C : Type} [Clue C] [DecidableEq C]
    (p : Puzzle C) (cache : Option (LineCache C)) (o : SolveOptions)
    (grid : List (List Cell)) (fuel : Nat) (run : SolveRun)
    (hrun : solve_grid p cache o grid fuel = run) :
    (run.out = GridOut.err ↔ hasErr run.trace = true) ∧
    (∀ rep, run.out = GridOut.ok rep →
      hasErr run.trace = false ∧
      rep.solution = grid_to_solution run.final_grid p ∧
      (∀ m, rep.solve_counts.get m = count_mode run.trace m)) := by
  subst hrun
  have hok : RunOK p (solve_grid p cache o grid fuel) := by
    unfold solve_grid
    cases hb : build_lanes p grid with
    | crash => exact RunOK_crash p [] grid rfl
    | contra => exact absurd hb (build_lanes_ne_contra p grid)
    | ok lanes =>
      exact loop_out p o fuel _ [] rfl (fun m => by cases m <;> rfl)
  exact hok

/-- C6 at a concrete input: the 2x2 puzzle whose second column has an
empty clue vector ends in an error, with the contradiction recorded in
its trace. -/
theorem C6_witness :
    ((GridOut.err = GridOut.err ↔
        hasErr [(SolveMode.Skim, false), (SolveMode.Skim, true)] = true) ∧
      (∀ rep, GridOut.err = GridOut.ok rep →
        hasErr [(SolveMode.Skim, false), (SolveMode.Skim, true)] = false ∧
        rep.solution = grid_to_solution
          ([[⟨3⟩, ⟨1⟩], [⟨3⟩, ⟨1⟩]] : List (List Cell)) unsat_2x2 ∧
        (∀ m, rep.solve_counts.get m
          = count_mode [(SolveMode.Skim, false), (SolveMode.Skim, true)] m))) :=
  C6_error_iff_contradiction unsat_2x2 none SolveOptions.default
    (List.replicate 2 (List.replicate 2 (Cell.new unsat_2x2))) 12
    ⟨[(SolveMode.Skim, false), (SolveMode.Skim, true)],
     [[⟨3⟩, ⟨1⟩], [⟨3⟩, ⟨1⟩]], GridOut.err⟩ (by rfl)

theorem count_set_row : ∀ (r : List Cell) (idx : Nat) (b c : Cell),
    r.get? idx = some b →
    ((r.set idx c).filter Cell.is_known).length
        + (if b.is_known then 1 else 0)
      = (r.filter Cell.is_known).length + (if c.is_known then 1 else 0) := by
  intro r
  induction r with
  | nil =>
    intro idx b c h
    cases h
  | cons x xs ih =>
    intro idx b c h
    cases idx with
    | zero =>
      injection h with h2
      rw [List.set_cons_zero, List.filter_cons, List.filter_cons, ← h2]
      by_cases hc : Cell.is_known c <;> by_cases hx : Cell.is_known x <;>
        simp [hc, hx]
    | succ n =>
      rw [List.set_cons_succ, List.filter_cons, List.filter_cons]
      have hrec := ih n b c h
      by_cases hx : Cell.is_known x <;> simp [hx] <;> omega

theorem count_known_set (g : List (List Cell)) (idx : Nat)
    (orig lane : List Cell) (h : g.get? idx = some orig) :
    count_known (g.set idx lane) + (orig.filter Cell.is_known).length
      = count_known g + (lane.filter Cell.is_known).length := by
  induction g generalizing idx with
  | nil => cases h
  | cons r rs ih =>
    cases idx with
    | zero =>
      injection h with h2
      subst h2
      simp only [List.set_cons_zero, count_known, List.map_cons,
        List.sum_cons]
      omega
    | succ n =>
      simp only [List.set_cons_succ, count_known, List.map_cons,
        List.sum_cons]
      have hrec := ih n h
      simp only [count_known] at hrec
      omega

theorem mapSR_ok_length {α β : Type} (f : α → SR β) :
    ∀ (xs : List α) (ys : List β), mapSR f xs = .ok ys →
      ys.length = xs.length := by
  intro xs
  induction xs with
  | nil =>
    intro ys h
    cases h
    rfl
  | cons a as ih =>
    intro ys h
    obtain ⟨b, hb, h2⟩ := bind_ok h
    obtain ⟨bs, hbs, h3⟩ := bind_ok h2
    cases h3
    simp [ih bs hbs]

theorem count_known_zip (idx : Nat) :
    ∀ (g : List (List Cell)) (orig lane : List Cell),
      mapSR (fun r => listGetC r idx) g = .ok orig →
      lane.length = g.length →
      count_known (List.zipWith (fun r c => r.set idx c) g lane)
          + (orig.filter Cell.is_known).length
        = count_known g + (lane.filter Cell.is_known).length := by
  intro g
  induction g with
  | nil =>
    intro orig lane h hl
    cases h
    cases lane with
    | nil => rfl
    | cons c cs => simp at hl
  | cons r rs ih =>
    intro orig lane h hl
    obtain ⟨b, hb, h2⟩ := bind_ok h
    obtain ⟨os, hos, h3⟩ := bind_ok h2
    cases h3
    cases lane with
    | nil => simp at hl
    | cons c cs =>
      have hrb : r.get? idx = some b := by
        have hb2 : listGetC r idx = SR.ok b := hb
        unfold listGetC at hb2
        cases hg : r.get? idx with
        | some x =>
          rw [hg] at hb2
          cases hb2
          rfl
        | none =>
          rw [hg] at hb2
          cases hb2
      have hrow := count_set_row r idx b c hrb
      have hrec := ih os cs hos (by simpa using hl)
      simp only [List.zipWith_cons_cons, count_known, List.map_cons,
        List.sum_cons, List.filter_cons] at *
      by_cases hbk : Cell.is_known b <;> by_cases hck : Cell.is_known c <;>
        simp [hbk, hck] at hrow ⊢ <;> omega

theorem known_le_of_preserve : ∀ (orig lane : List Cell),
    lane.length = orig.length →
    (∀ i co cn, orig.get? i = some co → lane.get? i = some cn →
      co.is_known = true → cn = co) →
    (orig.filter Cell.is_known).length
      ≤ (lane.filter Cell.is_known).length := by
  intro orig
  induction orig with
  | nil =>
    intro lane _ _
    simp
  | cons o os ih =>
    intro lane hl hp
    cases lane with
    | nil => simp at hl
    | cons c cs =>
      have hrest := ih cs (by simpa using hl)
        (fun i co cn h1 h2 hk => hp (i + 1) co cn h1 h2 hk)
      rw [List.filter_cons, List.filter_cons]
      by_cases hok : Cell.is_known o
      · have hco : c = o := hp 0 o c rfl rfl hok
        subst hco
        simp [hok]
        omega
      · by_cases hck : Cell.is_known c <;> simp [hok, hck] <;> omega

theorem row_split : ∀ r : List Cell,
    (r.filter (fun c => !c.is_known)).length + (r.filter Cell.is_known).length
      = r.length := by
  intro r
  induction r with
  | nil => rfl
  | cons x xs ih =>
    rw [List.filter_cons, List.filter_cons]
    by_cases hx : Cell.is_known x <;> simp [hx] <;> omega

theorem count_split : ∀ g : List (List Cell),
    count_unknown g + count_known g = (g.map List.length).sum := by
  intro g
  induction g with
  | nil => rfl
  | cons r rs ih =>
    simp only [count_unknown, count_known, List.map_cons, List.sum_cons] at *
    have := row_split r
    omega

theorem count_known_le : ∀ g : List (List Cell),
    count_known g ≤ (g.map List.length).sum := by
  intro g
  induction g with
  | nil => exact Nat.le_refl 0
  | cons r rs ih =>
    simp only [count_known, List.map_cons, List.sum_cons] at *
    have := List.length_filter_le Cell.is_known r
    omega

theorem rows_sum_const : ∀ (g : List (List Cell)) (c : Nat),
    (∀ r ∈ g, r.length = c) → (g.map List.length).sum = g.length * c := by
  intro g
  induction g with
  | nil =>
    intro c _
    simp
  | cons r rs ih =>
    intro c h
    simp only [List.map_cons, List.sum_cons, List.length_cons]
    rw [h r (List.mem_cons_self r rs),
      ih c (fun r2 h2 => h r2 (List.mem_cons_of_mem r h2))]
    ring

theorem set_rows_len (g : List (List Cell)) (idx : Nat) (lane : List Cell)
    (c : Nat) (hg : ∀ r ∈ g, r.length = c) (hlane : lane.length = c) :
    ∀ r ∈ g.set idx lane, r.length = c := by
  intro r hr
  rcases List.mem_or_eq_of_mem_set hr with h | h
  · exact hg r h
  · rw [h]
    exact hlane

theorem zip_rows_len (idx : Nat) (c : Nat) :
    ∀ (g : List (List Cell)) (lane : List Cell),
      (∀ r ∈ g, r.length = c) →
      ∀ r ∈ List.zipWith (fun r c0 => r.set idx c0) g lane,
        r.length = c := by
  intro g
  induction g with
  | nil =>
    intro lane _ r hr
    simp at hr
  | cons x xs ih =>
    intro lane hg r hr
    cases lane with
    | nil => simp at hr
    | cons c0 cs =>
      rw [List.zipWith_cons_cons] at hr
      rcases List.mem_cons.mp hr with h | h
      · rw [h, List.length_set]
        exact hg x (List.mem_cons_self x xs)
      · exact ih cs (fun r2 h2 => hg r2 (List.mem_cons_of_mem x h2)) r h

/-- One loop iteration preserves the cells_left bookkeeping invariant
(run cache-free and without a color filter, as solve and partial_solve
call it): an Ok-finishing iteration reports cells_left consistent with
the final grid, a continuing iteration keeps the invariant. -/
theorem iter_c7 {C : Type} [Clue C] [DecidableEq C]
    (p : Puzzle C) (o : SolveOptions) (st : GridSt C)
    (tr : List (SolveMode × Bool)) (K0 : Nat)
    (hoc : o.only_solve_color = none) (hca : st.cache = none)
    (hinv : InvC7 p K0 st) :
    (∀ run, solve_grid_iter p o st tr = .inl run →
      ∀ rep, run.out = GridOut.ok rep →
        rep.cells_left + count_known run.final_grid
            = p.rows.length * p.cols.length + K0 ∧
        run.final_grid.length = p.rows.length ∧
        (∀ r ∈ run.final_grid, r.length = p.cols.length)) ∧
    (∀ st2 tr2, solve_grid_iter p o st tr = .inr (st2, tr2) →
      InvC7 p K0 st2 ∧ st2.cache = none) := by
  obtain ⟨hsum, hlen, hmem⟩ := hinv
  unfold solve_grid_iter
  simp only []
  cases hfb : find_best_lane st.lanes (select_mode o.max_effort
      st.allowed_failures) with
  | none =>
    simp only []
    by_cases hml : mode_le o.max_effort (select_mode o.max_effort
        st.allowed_failures) = true
    · rw [if_pos hml]
      refine ⟨?_, fun st2 tr2 h => by cases h⟩
      intro run h
      cases h
      intro rep hrep
      cases hrep
      exact ⟨hsum, hlen, hmem⟩
    · rw [if_neg hml]
      refine ⟨(fun run h => by cases h), ?_⟩
      intro st2 tr2 h
      cases h
      exact ⟨⟨hsum, hlen, hmem⟩, hca⟩
  | some li =>
    simp only []
    cases hbind : (do
        let lane_state ← listGetC st.lanes li
        let orig ← get_grid_lane st.grid lane_state.row lane_state.index
        pure (lane_state, orig) : SR _) with
    | crash =>
      simp only []
      refine ⟨?_, fun st2 tr2 h => by cases h⟩
      intro run h
      cases h
      exact fun rep hrep => GridOut.noConfusion hrep
    | contra =>
      exact absurd hbind (bind_ne_contra (listGetC_ne_contra st.lanes li)
        (fun a _ => bind_ne_contra
          (get_grid_lane_ne_contra st.grid a.row a.index)
          (fun b _ => pure_ne_contra _)))
    | ok lsorig =>
      obtain ⟨ls, orig⟩ := lsorig
      simp only []
      have hgl : get_grid_lane st.grid ls.row ls.index = .ok orig := by
        obtain ⟨a, ha, h2⟩ := bind_ok hbind
        obtain ⟨ob, hob, h3⟩ := bind_ok h2
        have h5 : (a, ob) = (ls, orig) := by
          injection h3 with h4
        have h6 : a = ls := congrArg Prod.fst h5
        have h7 : ob = orig := congrArg Prod.snd h5
        rw [h6, h7] at hob
        exact hob
      have key : ∀ nl : List Cell,
          nl.length = orig.length →
          (count_known (set_grid_lane st.grid ls.row ls.index nl)
              + (orig.filter Cell.is_known).length
            = count_known st.grid + (nl.filter Cell.is_known).length) ∧
          (set_grid_lane st.grid ls.row ls.index nl).length
              = p.rows.length ∧
          (∀ r ∈ set_grid_lane st.grid ls.row ls.index nl,
            r.length = p.cols.length) := by
        intro nl hnl
        unfold set_grid_lane
        unfold get_grid_lane at hgl
        cases hrow : ls.row with
        | true =>
          rw [hrow] at hgl
          rw [if_pos rfl] at hgl ⊢
          have hget : st.grid.get? ls.index = some orig := by
            have hb2 : listGetC st.grid ls.index = SR.ok orig := hgl
            unfold listGetC at hb2
            cases hg : st.grid.get? ls.index with
            | some x =>
              rw [hg] at hb2
              cases hb2
              rfl
            | none =>
              rw [hg] at hb2
              cases hb2
          have horiglen : orig.length = p.cols.length :=
            hmem orig (List.get?_mem hget)
          refine ⟨count_known_set st.grid ls.index orig nl hget, ?_, ?_⟩
          · rw [List.length_set]
            exact hlen
          · exact set_rows_len st.grid ls.index nl p.cols.length hmem
              (hnl.trans horiglen)
        | false =>
          rw [hrow] at hgl
          rw [if_neg (by simp)] at hgl ⊢
          have hnl2 : nl.length = st.grid.length := by
            rw [hnl, mapSR_ok_length _ st.grid orig hgl]
          refine ⟨count_known_zip ls.index st.grid orig nl hgl hnl2, ?_, ?_⟩
          · rw [List.length_zipWith, hnl2, Nat.min_self]
            exact hlen
          · exact zip_rows_len ls.index p.cols.length st.grid nl hmem
      have hckT : count_known st.grid ≤ p.rows.length * p.cols.length := by
        have h1 := count_known_le st.grid
        rw [rows_sum_const st.grid _ hmem, hlen] at h1
        exact h1
      cases hcm : select_mode o.max_effort st.allowed_failures with
      | Skim =>
        simp only []
        cases hsk : skim_line ls.clues orig with
        | crash =>
          simp only [SR_bind_crash]
          refine ⟨?_, fun st2 tr2 h => by cases h⟩
          intro run h
          cases h
          exact fun rep hrep => GridOut.noConfusion hrep
        | contra =>
          simp only [SR_bind_contra]
          refine ⟨?_, fun st2 tr2 h => by cases h⟩
          intro run h
          cases h
          exact fun rep hrep => GridOut.noConfusion hrep
        | ok r =>
          simp only [SR_bind_ok, SR_pure]
          rw [hoc]
          simp only [SR_pure]
          have hrel := skim_line_rel hsk
          have hka := known_le_of_preserve orig r.lane hrel.1
            (fun i co cn h1 h2 hk => (hrel.2.1 i co cn h1 h2).2 hk)
          obtain ⟨hcount, hglen, hgmem⟩ := key r.lane hrel.1
          have hck2T : count_known
              (set_grid_lane st.grid ls.row ls.index r.lane)
              ≤ p.rows.length * p.cols.length := by
            have h1 := count_known_le
              (set_grid_lane st.grid ls.row ls.index r.lane)
            rw [rows_sum_const _ _ hgmem, hglen] at h1
            exact h1
          have hinv2 : st.cells_left
              - ((r.lane.filter Cell.is_known).length
                - (orig.filter Cell.is_known).length)
              + count_known (set_grid_lane st.grid ls.row ls.index r.lane)
              = p.rows.length * p.cols.length + K0 := by
            omega
          obtain ⟨po1, po2⟩ := propagate_rest_out p o st.allowed_failures
            (st.lanes.set li { ls with per_mode := ls.per_mode.set SolveMode.Skim ({ ls.per_mode.get SolveMode.Skim with processed := true }) })
            li ls SolveMode.Skim (st.solve_counts.set SolveMode.Skim
              (st.solve_counts.get SolveMode.Skim + 1)) st.cache r.affected
            (set_grid_lane st.grid ls.row ls.index r.lane)
            (st.cells_left - ((r.lane.filter Cell.is_known).length
              - (orig.filter Cell.is_known).length))
            (tr ++ [(SolveMode.Skim, false)])
          cases hpr : propagate_rest p o st.allowed_failures
              (st.lanes.set li { ls with per_mode := ls.per_mode.set SolveMode.Skim ({ ls.per_mode.get SolveMode.Skim with processed := true }) })
              li ls SolveMode.Skim (st.solve_counts.set SolveMode.Skim
                (st.solve_counts.get SolveMode.Skim + 1)) st.cache r.affected
              (set_grid_lane st.grid ls.row ls.index r.lane)
              (st.cells_left - ((r.lane.filter Cell.is_known).length
                - (orig.filter Cell.is_known).length))
              (tr ++ [(SolveMode.Skim, false)]) with
          | inl run =>
            simp only []
            refine ⟨?_, fun st2 tr2 h => by cases h⟩
            intro run2 h
            cases h
            intro rep hrep
            obtain ⟨htrace, hne, hok⟩ := po1 run hpr
            obtain ⟨hct, hsol, hcl, hfg⟩ := hok rep hrep
            rw [hcl, hfg]
            exact ⟨hinv2, hglen, hgmem⟩
          | inr st2 =>
            simp only []
            refine ⟨(fun run h => by cases h), ?_⟩
            intro st3 tr3 h
            cases h
            obtain ⟨hc1, hc2, hc3, hc4⟩ := po2 st2 hpr
            refine ⟨⟨?_, ?_, ?_⟩, ?_⟩
            · rw [hc2, hc3]
              exact hinv2
            · rw [hc2]
              exact hglen
            · rw [hc2]
              exact hgmem
            · rw [hc4]
              exact hca
      | Scrub =>
        simp only []
        rw [hca]
        simp only [op_or_cache]
        cases hex : exhaust_line ls.clues orig with
        | crash =>
          simp only [SR_bind_crash]
          refine ⟨?_, fun st2 tr2 h => by cases h⟩
          intro run h
          cases h
          exact fun rep hrep => GridOut.noConfusion hrep
        | contra =>
          simp only [SR_bind_contra]
          refine ⟨?_, fun st2 tr2 h => by cases h⟩
          intro run h
          cases h
          exact fun rep hrep => GridOut.noConfusion hrep
        | ok stx =>
          simp only [SR_bind_ok, SR_pure]
          rw [hoc]
          simp only [SR_pure]
          have hrel := exhaust_line_rel hex
          have hka := known_le_of_preserve orig stx.lane hrel.1
            (fun i co cn h1 h2 hk => (hrel.2.1 i co cn h1 h2).2 hk)
          obtain ⟨hcount, hglen, hgmem⟩ := key stx.lane hrel.1
          have hck2T : count_known
              (set_grid_lane st.grid ls.row ls.index stx.lane)
              ≤ p.rows.length * p.cols.length := by
            have h1 := count_known_le
              (set_grid_lane st.grid ls.row ls.index stx.lane)
            rw [rows_sum_const _ _ hgmem, hglen] at h1
            exact h1
          have hinv2 : st.cells_left
              - ((stx.lane.filter Cell.is_known).length
                - (orig.filter Cell.is_known).length)
              + count_known (set_grid_lane st.grid ls.row ls.index stx.lane)
              = p.rows.length * p.cols.length + K0 := by
            omega
          obtain ⟨po1, po2⟩ := propagate_rest_out p o st.allowed_failures
            (st.lanes.set li { ls with per_mode := ls.per_mode.set SolveMode.Scrub ({ ls.per_mode.get SolveMode.Scrub with processed := true }) })
            li ls SolveMode.Scrub (st.solve_counts.set SolveMode.Scrub
              (st.solve_counts.get SolveMode.Scrub + 1)) none stx.affected
            (set_grid_lane st.grid ls.row ls.index stx.lane)
            (st.cells_left - ((stx.lane.filter Cell.is_known).length
              - (orig.filter Cell.is_known).length))
            (tr ++ [(SolveMode.Scrub, false)])
          cases hpr : propagate_rest p o st.allowed_failures
              (st.lanes.set li { ls with per_mode := ls.per_mode.set SolveMode.Scrub ({ ls.per_mode.get SolveMode.Scrub with processed := true }) })
              li ls SolveMode.Scrub (st.solve_counts.set SolveMode.Scrub
                (st.solve_counts.get SolveMode.Scrub + 1)) none stx.affected
              (set_grid_lane st.grid ls.row ls.index stx.lane)
              (st.cells_left - ((stx.lane.filter Cell.is_known).length
                - (orig.filter Cell.is_known).length))
              (tr ++ [(SolveMode.Scrub, false)]) with
          | inl run =>
            simp only []
            refine ⟨?_, fun st2 tr2 h => by cases h⟩
            intro run2 h
            cases h
            intro rep hrep
            obtain ⟨htrace, hne, hok⟩ := po1 run hpr
            obtain ⟨hct, hsol, hcl, hfg⟩ := hok rep hrep
            rw [hcl, hfg]
            exact ⟨hinv2, hglen, hgmem⟩
          | inr st2 =>
            simp only []
            refine ⟨(fun run h => by cases h), ?_⟩
            intro st3 tr3 h
            cases h
            obtain ⟨hc1, hc2, hc3, hc4⟩ := po2 st2 hpr
            refine ⟨⟨?_, ?_, ?_⟩, ?_⟩
            · rw [hc2, hc3]
              exact hinv2
            · rw [hc2]
              exact hglen
            · rw [hc2]
              exact hgmem
            · rw [hc4]

/-- The fueled solve loop preserves the cells_left bookkeeping invariant
down to its report. -/
theorem loop_c7 {C : Type} [Clue C] [DecidableEq C] (p : Puzzle C)
    (o : SolveOptions) (K0 : Nat) (hoc : o.only_solve_color = none)
    (fuel : Nat) :
    ∀ (st : GridSt C) (tr : List (SolveMode × Bool)),
      st.cache = none → InvC7 p K0 st →
      ∀ rep, (solve_grid_loop p o fuel st tr).out = GridOut.ok rep →
        rep.cells_left
            + count_known (solve_grid_loop p o fuel st tr).final_grid
          = p.rows.length * p.cols.length + K0 ∧
        ((solve_grid_loop p o fuel st tr).final_grid).length
          = p.rows.length ∧
        (∀ r ∈ (solve_grid_loop p o fuel st tr).final_grid,
          r.length = p.cols.length) := by
  induction fuel with
  | zero =>
    intro st tr _ _ rep hrep
    exact GridOut.noConfusion hrep
  | succ f ih =>
    intro st tr hca hinv rep
    rw [solve_grid_loop_succ]
    obtain ⟨h1, h2⟩ := iter_c7 p o st tr K0 hoc hca hinv
    cases hit : solve_grid_iter p o st tr with
    | inl run =>
      intro hrep
      exact h1 run hit rep hrep
    | inr st2tr =>
      obtain ⟨st2, tr2⟩ := st2tr
      obtain ⟨hinv2, hca2⟩ := h2 st2 tr2 hit
      exact ih st2 tr2 hca2 hinv2 rep

/-- C7 (amended): for a cache-free, unfiltered solve_grid run on a
correctly-dimensioned grid that returns a Report, cells_left equals the
number of cells still unknown in the final grid PLUS the number of cells
that were already known when solve_grid was entered (cells_left is
initialized to rows*cols regardless of seeded known cells); for solve,
whose fresh grid has no known cells, this is exactly the number of
still-unknown cells. -/
theorem C7_cells_left_counts_seeded_known {C : Type} [Clue C]
    [DecidableEq C] (p : Puzzle C) (o : SolveOptions)
    (grid : List (List Cell)) (fuel : Nat)
    (hoc : o.only_solve_color = none)
    (hrows : grid.length = p.rows.length)
    (hcols : ∀ r ∈ grid, r.length = p.cols.length)
    (run : SolveRun) (hrun : solve_grid p none o grid fuel = run)
    (rep : Report) (hrep : run.out = GridOut.ok rep) :
    rep.cells_left = count_unknown run.final_grid + count_known grid := by
  subst hrun
  unfold solve_grid at hrep ⊢
  cases hb : build_lanes p grid with
  | crash =>
    rw [hb] at hrep
    exact GridOut.noConfusion hrep
  | contra =>
    exact absurd hb (build_lanes_ne_contra p grid)
  | ok lanes =>
    rw [hb] at hrep
    have hrep2 : (solve_grid_loop p o fuel
        ⟨grid, lanes, p.rows.length * p.cols.length,
         ModeMap.new_uniform 0, initial_allowed_failures, none⟩ []).out
        = GridOut.ok rep := hrep
    show rep.cells_left = count_unknown (solve_grid_loop p o fuel
        ⟨grid, lanes, p.rows.length * p.cols.length,
         ModeMap.new_uniform 0, initial_allowed_failures, none⟩
        []).final_grid + count_known grid
    have hinv : InvC7 p (count_known grid)
        ⟨grid, lanes, p.rows.length * p.cols.length,
         ModeMap.new_uniform 0, initial_allowed_failures, none⟩ :=
      ⟨rfl, hrows, hcols⟩
    obtain ⟨hsum, hflen, hfmem⟩ :=
      loop_c7 p o (count_known grid) hoc fuel _ [] rfl hinv rep hrep2
    have hsplit := count_split (solve_grid_loop p o fuel
      ⟨grid, lanes, p.rows.length * p.cols.length,
       ModeMap.new_uniform 0, initial_allowed_failures, none⟩ []).final_grid
    have hrows2 := rows_sum_const _ p.cols.length hfmem
    rw [hflen] at hrows2
    omega

/-- C7 at a concrete input: solving the 1x1 black puzzle from a fully
seeded grid reports cells_left 1 = 0 still-unknown cells + 1 cell known
at entry. -/
theorem C7_witness :
    (1 : Nat) = count_unknown [[(⟨2⟩ : Cell)]]
      + count_known [[Cell.from_color black]] :=
  C7_cells_left_counts_seeded_known puzzle_1x1 SolveOptions.default
    [[Cell.from_color black]] 100 rfl (by decide) (by decide)
    ⟨[], [[(⟨2⟩ : Cell)]],
     GridOut.ok ⟨⟨0, 0⟩, 1, ⟨ClueStyle.Nono, bw_palette, [[⟨1⟩]]⟩,
       [[true]]⟩⟩ (by decide)
    ⟨⟨0, 0⟩, 1, ⟨ClueStyle.Nono, bw_palette, [[⟨1⟩]]⟩, [[true]]⟩ rfl

theorem q_div_mono (a b t : Nat) (h : a ≤ b) :
    ((a : Nat) : ℚ) / ((t : Nat) : ℚ) ≤ ((b : Nat) : ℚ) / ((t : Nat) : ℚ) := by
  rcases Nat.eq_zero_or_pos t with h0 | h0
  · subst h0
    simp
  · exact (div_le_div_right (by exact_mod_cast h0)).mpr (Nat.cast_le.mpr h)

theorem q_div_le_one (a t : Nat) (h : a ≤ t) :
    ((a : Nat) : ℚ) / ((t : Nat) : ℚ) ≤ 1 := by
  rcases Nat.eq_zero_or_pos t with h0 | h0
  · subst h0
    simp
  · rw [div_le_one (by exact_mod_cast h0)]
    exact_mod_cast h

/-- The progress values sent by the y loop stay chained and bounded: from
an error-free run on a sorted y list, the outgoing send list is
nondecreasing, and it respects every bound that dominates both the
incoming sends and the values this loop can send. -/
theorem disambig_y_sends (sc : DynSolveCache) (s : Solution)
    (cancel : Nat → Bool) (fuel orig_cl xs ys x : Nat) :
    ∀ (ylist : List Nat) (sends : List ℚ)
      (res : List (List (Color × ℚ))) (tick : Nat)
      (out : List ℚ × List (List (Color × ℚ)) × Nat × Bool),
      disambig_y sc s cancel fuel orig_cl xs ys x ylist sends res tick
        = .ok out →
      List.Pairwise (· ≤ ·) ylist →
      (∀ q ∈ sends, ∀ y' ∈ ylist,
        q ≤ ((x * ys + y' : Nat) : ℚ) / ((xs * ys : Nat) : ℚ)) →
      List.Chain' (· ≤ ·) sends →
      (∀ B : ℚ, (∀ q ∈ sends, q ≤ B) →
        (∀ y' ∈ ylist,
          ((x * ys + y' : Nat) : ℚ) / ((xs * ys : Nat) : ℚ) ≤ B) →
        (∀ q ∈ out.1, q ≤ B)) ∧
      List.Chain' (· ≤ ·) out.1 := by
  intro ylist
  induction ylist with
  | nil =>
    intro sends res tick out h _ _ hch
    cases h
    exact ⟨fun B hB _ q hq => hB q hq, hch⟩
  | cons y rest ih =>
    intro sends res tick out h hpw hqy hch
    obtain ⟨bc, hbc, h2⟩ := bind_ok h
    obtain ⟨row, hrow, h3⟩ := bind_ok h2
    have hpw_head : ∀ y' ∈ rest, y ≤ y' := (List.pairwise_cons.mp hpw).1
    have hpw_rest : List.Pairwise (· ≤ ·) rest :=
      (List.pairwise_cons.mp hpw).2
    have hsends2 : ∀ sends2 : List ℚ,
        (sends2 = sends ++
            [((x * ys + y : Nat) : ℚ) / ((xs * ys : Nat) : ℚ)]
          ∨ sends2 = sends) →
        List.Chain' (· ≤ ·) sends2 ∧
        (∀ q ∈ sends2, ∀ y' ∈ rest,
          q ≤ ((x * ys + y' : Nat) : ℚ) / ((xs * ys : Nat) : ℚ)) ∧
        (∀ B : ℚ, (∀ q ∈ sends, q ≤ B) →
          (∀ y' ∈ y :: rest,
            ((x * ys + y' : Nat) : ℚ) / ((xs * ys : Nat) : ℚ) ≤ B) →
          ∀ q ∈ sends2, q ≤ B) := by
      intro sends2 hs2
      rcases hs2 with hs2 | hs2
      · subst hs2
        refine ⟨?_, ?_, ?_⟩
        · refine List.chain'_append.mpr ⟨hch, List.chain'_singleton _, ?_⟩
          intro a ha b hb
          have ha2 : a ∈ sends := List.mem_of_mem_getLast? ha
          have hb2 : b = ((x * ys + y : Nat) : ℚ) / ((xs * ys : Nat) : ℚ) := by
            cases hb
            rfl
          rw [hb2]
          exact hqy a ha2 y (List.mem_cons_self y rest)
        · intro q hq y' hy'
          rcases List.mem_append.mp hq with hq2 | hq2
          · exact hqy q hq2 y' (List.mem_cons_of_mem y hy')
          · have hq3 : q = ((x * ys + y : Nat) : ℚ)
                / ((xs * ys : Nat) : ℚ) := List.mem_singleton.mp hq2
            rw [hq3]
            exact q_div_mono _ _ _
              (Nat.add_le_add_left (hpw_head y' hy') (x * ys))
        · intro B hB hyB q hq
          rcases List.mem_append.mp hq with hq2 | hq2
          · exact hB q hq2
          · have hq3 : q = ((x * ys + y : Nat) : ℚ)
                / ((xs * ys : Nat) : ℚ) := List.mem_singleton.mp hq2
            rw [hq3]
            exact hyB y (List.mem_cons_self y rest)
      · subst hs2
        refine ⟨hch, ?_, ?_⟩
        · intro q hq y' hy'
          exact hqy q hq y' (List.mem_cons_of_mem y hy')
        · intro B hB _ q hq
          exact hB q hq
    by_cases hy5 : y % 5 = 0
    · rw [if_pos hy5] at h3
      obtain ⟨hch2, hqy2, hB2⟩ := hsends2 _ (Or.inl rfl)
      by_cases hct : cancel tick = true
      · rw [if_pos hct] at h3
        cases h3
        exact ⟨fun B hB hyB q hq => hB2 B hB hyB q hq, hch2⟩
      · rw [if_neg hct] at h3
        obtain ⟨hBr, hchr⟩ := ih _ _ _ out h3 hpw_rest hqy2 hch2
        exact ⟨fun B hB hyB q hq =>
          hBr B (hB2 B hB hyB)
            (fun y' hy' => hyB y' (List.mem_cons_of_mem y hy')) q hq, hchr⟩
    · rw [if_neg hy5] at h3
      obtain ⟨hch2, hqy2, hB2⟩ := hsends2 _ (Or.inr rfl)
      by_cases hct : cancel tick = true
      · rw [if_pos hct] at h3
        cases h3
        exact ⟨fun B hB hyB q hq => hB2 B hB hyB q hq, hch2⟩
      · rw [if_neg hct] at h3
        obtain ⟨hBr, hchr⟩ := ih _ _ _ out h3 hpw_rest hqy2 hch2
        exact ⟨fun B hB hyB q hq =>
          hBr B (hB2 B hB hyB)
            (fun y' hy' => hyB y' (List.mem_cons_of_mem y hy')) q hq, hchr⟩

theorem mul_bound_aux (x x2 y ys : Nat) (hy : y < ys) (hx : x < x2) :
    x * ys + y ≤ x2 * ys := by
  have h1 : x * ys + y < (x + 1) * ys := by
    rw [Nat.succ_mul]
    exact Nat.add_lt_add_left hy (x * ys)
  have h2 : (x + 1) * ys ≤ x2 * ys := Nat.mul_le_mul_right ys hx
  omega

/-- The progress values sent by the x loop stay chained and below 1. -/
theorem disambig_x_sends (sc : DynSolveCache) (s : Solution)
    (cancel : Nat → Bool) (fuel orig_cl xs ys : Nat) :
    ∀ (xlist : List Nat) (st : List ℚ × List (List (Color × ℚ)) × Nat)
      (out : List ℚ × List (List (Color × ℚ)) × Nat × Bool),
      disambig_x sc s cancel fuel orig_cl xs ys xlist st = .ok out →
      List.Pairwise (· < ·) xlist →
      (∀ x' ∈ xlist, x' < xs) →
      (∀ q ∈ st.1, ∀ x' ∈ xlist,
        q ≤ ((x' * ys : Nat) : ℚ) / ((xs * ys : Nat) : ℚ)) →
      (∀ q ∈ st.1, q ≤ 1) →
      List.Chain' (· ≤ ·) st.1 →
      List.Chain' (· ≤ ·) out.1 ∧ (∀ q ∈ out.1, q ≤ 1) := by
  intro xlist
  induction xlist with
  | nil =>
    intro st out h _ _ _ hB1 hch
    cases h
    exact ⟨hch, hB1⟩
  | cons x rest ih =>
    intro st out h hpw hxlt hqx hB1 hch
    obtain ⟨r, hr, h2⟩ := bind_ok h
    have hpw_head : ∀ x' ∈ rest, x < x' := (List.pairwise_cons.mp hpw).1
    have hpw_rest : List.Pairwise (· < ·) rest :=
      (List.pairwise_cons.mp hpw).2
    have hqy : ∀ q ∈ st.1, ∀ y' ∈ List.range ys,
        q ≤ ((x * ys + y' : Nat) : ℚ) / ((xs * ys : Nat) : ℚ) := by
      intro q hq y' _
      exact le_trans (hqx q hq x (List.mem_cons_self x rest))
        (q_div_mono _ _ _ (Nat.le_add_right (x * ys) y'))
    obtain ⟨hBy, hchy⟩ := disambig_y_sends sc s cancel fuel orig_cl xs ys x
      (List.range ys) st.1 st.2.1 st.2.2 r hr
      ((List.pairwise_lt_range ys).imp Nat.le_of_lt) hqy hch
    have hr1 : ∀ q ∈ r.1, q ≤ 1 := by
      refine hBy 1 hB1 ?_
      intro y' hy'
      exact q_div_le_one _ _ (mul_bound_aux x xs y' ys
        (List.mem_range.mp hy') (hxlt x (List.mem_cons_self x rest)))
    by_cases hcan : r.2.2.2 = true
    · rw [if_pos hcan] at h2
      cases h2
      exact ⟨hchy, hr1⟩
    · rw [if_neg hcan] at h2
      refine ih (r.1, r.2.1, r.2.2.1) out h2 hpw_rest
        (fun x' hx' => hxlt x' (List.mem_cons_of_mem x hx')) ?_ hr1 hchy
      intro q hq x' hx'
      refine hBy (((x' * ys : Nat) : ℚ) / ((xs * ys : Nat) : ℚ)) ?_ ?_ q hq
      · intro q2 hq2
        exact hqx q2 hq2 x' (List.mem_cons_of_mem x hx')
      · intro y' hy'
        exact q_div_mono _ _ _ (mul_bound_aux x x' y' ys
          (List.mem_range.mp hy') (hpw_head x' hx'))

/-- C8 counterexample: on the 1x1 black Solution (whose puzzle the
baseline solve fully solves, leaving orig_cells_left = 0),
disambig_candidates completes without cancellation and the only value
sent on the progress channel is 0.0, not 1.0. -/
theorem C8_counterexample :
    disambig_candidates ⟨ClueStyle.Nono, bw_palette, [[black]]⟩
        (fun _ => false) 100
      = SR.ok ([(0 : ℚ)], [[(BACKGROUND, (0 : ℚ))]], false) ∧
    [(0 : ℚ)].getLast? = some (0 : ℚ) ∧ (0 : ℚ) ≠ 1 := by
  refine ⟨rfl, rfl, by decide⟩

/-- C8 (amended): for every error-free run of disambig_candidates, the
values sent on the progress channel are monotonically nondecreasing, and
when the run is not cancelled the final value sent is 1.0 unless the
baseline solve already left zero cells unknown, in which case the single
value 0.0 is sent. -/
theorem C8_progress_monotone_final (s : Solution) (cancel : Nat → Bool)
    (fuel : Nat) (sends : List ℚ) (res : List (List (Color × ℚ)))
    (cancelled : Bool)
    (h : disambig_candidates s cancel fuel = .ok (sends, res, cancelled)) :
    List.Chain' (· ≤ ·) sends ∧
    (cancelled = false →
      sends.getLast? = some 1 ∨ sends = [(0 : ℚ)]) := by
  unfold disambig_candidates at h
  obtain ⟨p, hp, h2⟩ := bind_ok h
  obtain ⟨rep, hrep, h3⟩ := bind_ok h2
  cases hh : s.grid.head? with
  | none =>
    rw [hh] at h3
    have h3b : (SR.crash : SR (List ℚ × List (List (Color × ℚ)) × Bool))
        = SR.ok (sends, res, cancelled) := h3
    cases h3b
  | some c =>
  rw [hh] at h3
  obtain ⟨ys0, hys0, h4⟩ := bind_ok h3
  simp only [] at h4
  by_cases h0 : rep.cells_left = 0
  · rw [if_pos h0] at h4
    have h5 : ([(0 : ℚ)],
        List.replicate s.grid.length
          (List.replicate ys0 (BACKGROUND, (0 : ℚ))), false)
        = (sends, res, cancelled) := by
      injection h4 with h6
    have hs : [(0 : ℚ)] = sends := congrArg (fun t => t.1) h5
    have hc : false = cancelled := congrArg (fun t => t.2.2) h5
    rw [← hs]
    exact ⟨List.chain'_singleton _, fun _ => Or.inr rfl⟩
  · rw [if_neg h0] at h4
    obtain ⟨r, hr, h5⟩ := bind_ok h4
    obtain ⟨hch, hle1⟩ := disambig_x_sends DynSolveCache.new s cancel fuel
      rep.cells_left s.grid.length ys0 (List.range s.grid.length)
      ([], List.replicate s.grid.length
        (List.replicate ys0 (BACKGROUND, (0 : ℚ))), 0) r hr
      (List.pairwise_lt_range _)
      (fun x' hx' => List.mem_range.mp hx')
      (fun q hq => absurd hq (List.not_mem_nil q))
      (fun q hq => absurd hq (List.not_mem_nil q))
      List.chain'_nil
    by_cases hcan : r.2.2.2 = true
    · rw [if_pos hcan] at h5
      have h6 : (r.1, r.2.1, true) = (sends, res, cancelled) := by
        injection h5 with h7
      have hs : r.1 = sends := congrArg (fun t => t.1) h6
      have hc : true = cancelled := congrArg (fun t => t.2.2) h6
      rw [← hs]
      refine ⟨hch, ?_⟩
      intro hcf
      rw [← hc] at hcf
      cases hcf
    · rw [if_neg hcan] at h5
      have h6 : (r.1 ++ [(1 : ℚ)], r.2.1, false)
          = (sends, res, cancelled) := by
        injection h5 with h7
      have hs : r.1 ++ [(1 : ℚ)] = sends := congrArg (fun t => t.1) h6
      rw [← hs]
      refine ⟨?_, ?_⟩
      · refine List.chain'_append.mpr
          ⟨hch, List.chain'_singleton _, ?_⟩
        intro a ha b hb
        have ha2 : a ∈ r.1 := List.mem_of_mem_getLast? ha
        have hb2 : b = (1 : ℚ) := by
          cases hb
          rfl
        rw [hb2]
        exact hle1 a ha2
      · intro _
        exact Or.inl (List.getLast?_concat r.1)

/-- C8 at a concrete input: the 2x2 diagonal Solution (whose puzzle is
ambiguous, so the cell loops run) sends exactly 0, 1/2, 1 — nondecreasing
with final value 1 — and is not cancelled. -/
theorem C8_witness :
    List.Chain' (· ≤ ·)
      [((0 : Nat) : ℚ) / ((4 : Nat) : ℚ),
       ((2 : Nat) : ℚ) / ((4 : Nat) : ℚ), 1] ∧
    (false = false →
      [((0 : Nat) : ℚ) / ((4 : Nat) : ℚ),
       ((2 : Nat) : ℚ) / ((4 : Nat) : ℚ), (1 : ℚ)].getLast? = some 1 ∨
        [((0 : Nat) : ℚ) / ((4 : Nat) : ℚ),
         ((2 : Nat) : ℚ) / ((4 : Nat) : ℚ), (1 : ℚ)] = [(0 : ℚ)]) :=
  C8_progress_monotone_final
    ⟨ClueStyle.Nono, bw_palette, [[black, BACKGROUND], [BACKGROUND, black]]⟩
    (fun _ => false) 200
    [((0 : Nat) : ℚ) / ((4 : Nat) : ℚ),
     ((2 : Nat) : ℚ) / ((4 : Nat) : ℚ), 1]
    [[(⟨0⟩, ((0 : Nat) : ℚ) / ((4 : Nat) : ℚ)),
      (⟨1⟩, ((0 : Nat) : ℚ) / ((4 : Nat) : ℚ))],
     [(⟨1⟩, ((0 : Nat) : ℚ) / ((4 : Nat) : ℚ)),
      (⟨0⟩, ((0 : Nat) : ℚ) / ((4 : Nat) : ℚ))]] false rfl

theorem bind_ne_crash {α β : Type} {x : SR α} {f : α → SR β}
    (hx : x ≠ SR.crash) (hf : ∀ a, x = SR.ok a → f a ≠ SR.crash) :
    x >>= f ≠ SR.crash := by
  cases x with
  | crash => exact absurd rfl hx
  | contra => exact fun h => SR.noConfusion h
  | ok a => exact hf a rfl

theorem subC_ok_of_le {a b : Nat} (h : b ≤ a) : subC a b = .ok (a - b) := by
  unfold subC
  rw [if_pos h]

theorem listGetC_ok_lt {α : Type} (xs : List α) (i : Nat)
    (h : i < xs.length) :
    ∃ a, listGetC xs i = .ok a ∧ xs.get? i = some a := by
  cases hg : xs.get? i with
  | some a => exact ⟨a, listGetC_ok.mpr hg, rfl⟩
  | none =>
    have := List.get?_eq_none.mp hg
    omega

theorem lane_at_ok (lane : List Cell) (rev : Bool) (idx : Nat)
    (h : idx < lane.length) : ∃ c, lane_at lane rev idx = .ok c := by
  unfold lane_at
  cases rev with
  | false =>
    rw [if_neg (by simp)]
    obtain ⟨a, ha, _⟩ := listGetC_ok_lt lane idx h
    exact ⟨a, ha⟩
  | true =>
    rw [if_pos rfl]
    obtain ⟨a, ha, _⟩ := listGetC_ok_lt lane (lane.length - 1 - idx)
      (by omega)
    refine ⟨a, ?_⟩
    rw [subC_ok_of_le (by omega : 1 ≤ lane.length), SR_bind_ok,
      subC_ok_of_le (by omega : idx ≤ lane.length - 1), SR_bind_ok]
    exact ha

theorem clue_at_ok {C : Type} (clues : List C) (rev : Bool) (idx : Nat)
    (h : idx < clues.length) :
    ∃ c, clue_at clues rev idx = .ok c ∧ c ∈ clues ∧
      clues.get? (if rev = true then clues.length - 1 - idx else idx)
        = some c := by
  unfold clue_at
  cases rev with
  | false =>
    rw [if_neg (by simp), if_neg (by simp)]
    obtain ⟨a, ha, hg⟩ := listGetC_ok_lt clues idx h
    exact ⟨a, ha, List.get?_mem hg, hg⟩
  | true =>
    rw [if_pos rfl, if_pos rfl]
    obtain ⟨a, ha, hg⟩ := listGetC_ok_lt clues (clues.length - 1 - idx)
      (by omega)
    refine ⟨a, ?_, List.get?_mem hg, hg⟩
    rw [subC_ok_of_le (by omega : 1 ≤ clues.length), SR_bind_ok,
      subC_ok_of_le (by omega : idx ≤ clues.length - 1), SR_bind_ok]
    exact ha

theorem clue_color_at_ok {C : Type} [Clue C] (rev : Bool) (clue : C)
    (idx : Nat) (h : idx < Clue.len clue) :
    ∃ col, clue_color_at rev clue idx = .ok col := by
  unfold clue_color_at
  cases rev with
  | false =>
    rw [if_neg (by simp)]
    exact ⟨Clue.color_at clue idx, rfl⟩
  | true =>
    rw [if_pos rfl]
    refine ⟨Clue.color_at clue (Clue.len clue - 1 - idx), ?_⟩
    rw [subC_ok_of_le (by omega : 1 ≤ Clue.len clue), SR_bind_ok,
      subC_ok_of_le (by omega : idx ≤ Clue.len clue - 1), SR_bind_ok]
    rfl

/-- forRangeM with an index-carried invariant: if every step preserves
the invariant and cannot panic, the whole loop cannot panic and hands the
invariant to its result. -/
theorem forRangeM_inv {σ : Type} (P : Nat → σ → Prop) (f : σ → Nat → SR σ) :
    ∀ (n start : Nat) (s : σ),
      (∀ i si, start ≤ i → i < start + n → P i si →
        f si i ≠ SR.crash ∧ (∀ s2, f si i = .ok s2 → P (i + 1) s2)) →
      P start s →
      forRangeM f s start n ≠ SR.crash ∧
      (∀ s2, forRangeM f s start n = .ok s2 → P (start + n) s2) := by
  intro n
  induction n with
  | zero =>
    intro start s _ hp
    refine ⟨fun h => SR.noConfusion h, ?_⟩
    intro s2 h
    cases h
    exact hp
  | succ n ih =>
    intro start s hstep hp
    have hs := hstep start s (Nat.le_refl _) (by omega) hp
    constructor
    · exact bind_ne_crash hs.1 (fun s1 hs1 =>
        (ih (start + 1) s1
          (fun i si hi1 hi2 hpi => hstep i si (by omega) (by omega) hpi)
          (hs.2 s1 hs1)).1)
    · intro s2 h
      obtain ⟨s1, hs1, h2⟩ := bind_ok h
      have := (ih (start + 1) s1
        (fun i si hi1 hi2 hpi => hstep i si (by omega) (by omega) hpi)
        (hs.2 s1 hs1)).2 s2 h2
      have harith : start + 1 + n = start + (n + 1) := by omega
      rw [harith] at this
      exact this

/-- In a strictly increasing Nat list the j-th entry is at least j. -/
theorem chain_lower (l : List Nat)
    (hchain : ∀ j a b, l.get? j = some a → l.get? (j + 1) = some b → a < b) :
    ∀ j e, l.get? j = some e → j ≤ e := by
  intro j
  induction j with
  | zero =>
    intro e _
    exact Nat.zero_le e
  | succ j ih =>
    intro e hj
    have hjlt : j + 1 < l.length := get?_some_lt hj
    cases hga : l.get? j with
    | none =>
      have := List.get?_eq_none.mp hga
      omega
    | some a =>
      have hab := hchain j a e hga hj
      have := ih a hga
      omega

/-- In a strictly increasing Nat list entries d apart differ by
at least d. -/
theorem chain_gap (l : List Nat)
    (hchain : ∀ j a b, l.get? j = some a → l.get? (j + 1) = some b → a < b) :
    ∀ (d j : Nat) (a b : Nat), l.get? j = some a → l.get? (j + d) = some b →
      a + d ≤ b := by
  intro d
  induction d with
  | zero =>
    intro j a b ha hb
    rw [Nat.add_zero, ha] at hb
    injection hb with hab
    omega
  | succ d ih =>
    intro j a b ha hb
    have hlt : j + d + 1 < l.length := by
      have := get?_some_lt hb
      omega
    cases hm : l.get? (j + d) with
    | none =>
      have := List.get?_eq_none.mp hm
      omega
    | some m =>
      have h1 := ih j a m ha hm
      have h2 := hchain (j + d) m b hm (by
        have : j + d + 1 = j + (d + 1) := by omega
        rw [this]
        exact hb)
      omega

/-- rev_fix succeeds on in-bounds extents and maps each entry e to
laneLen - 1 - e. -/
theorem rev_fix_ok (L : Nat) :
    ∀ l : List Nat, (∀ e ∈ l, e < L) →
      ∃ l2, rev_fix L l = .ok l2 ∧ l2.length = l.length ∧
        (∀ j e, l.get? j = some e → l2.get? j = some (L - 1 - e)) := by
  intro l
  induction l with
  | nil =>
    intro _
    exact ⟨[], rfl, rfl, fun j e h => by cases h⟩
  | cons e rest ih =>
    intro hb
    have he : e < L := hb e (List.mem_cons_self e rest)
    obtain ⟨l2, hl2, hlen, hmap⟩ := ih
      (fun e2 h2 => hb e2 (List.mem_cons_of_mem e h2))
    refine ⟨(L - e - 1) :: l2, ?_, ?_, ?_⟩
    · show rev_fix L (e :: rest) = .ok ((L - e - 1) :: l2)
      unfold rev_fix
      rw [subC_ok_of_le (by omega : e ≤ L), SR_bind_ok,
        subC_ok_of_le (by omega : 1 ≤ L - e), SR_bind_ok, hl2, SR_bind_ok]
      rfl
    · simp [hlen]
    · intro j e2 hj
      cases j with
      | zero =>
        injection hj with hj2
        rw [← hj2]
        show some (L - e - 1) = some (L - 1 - e)
        congr 1
        omega
      | succ j =>
        exact hmap j e2 hj

/-- The placement check never panics; a failed placement means the
candidate position is inside the lane, a successful one means the whole
clue footprint fits. -/
theorem place_attempt_props {C : Type} [Clue C] (lane : List Cell)
    (rev : Bool) (clue : C) (hclen : 1 ≤ Clue.len clue) :
    ∀ (k ci pos : Nat), ci + k = Clue.len clue →
      place_attempt lane rev clue pos ci k ≠ SR.crash ∧
      (place_attempt lane rev clue pos ci k = .ok false →
        pos < lane.length) ∧
      (1 ≤ k → place_attempt lane rev clue pos ci k = .ok true →
        pos + Clue.len clue ≤ lane.length) := by
  intro k
  induction k with
  | zero =>
    intro ci pos hk
    refine ⟨fun h => SR.noConfusion h, ?_, ?_⟩
    · intro h
      injection h with hb2
      exact Bool.noConfusion hb2
    · intro h1 _
      omega
  | succ k ih =>
    intro ci pos hk
    have hci : ci < Clue.len clue := by omega
    by_cases hb : lane.length ≤ pos + ci
    · have heq : place_attempt lane rev clue pos ci (k + 1) = .contra := by
        unfold place_attempt
        rw [if_pos hb]
      rw [heq]
      exact ⟨fun h => SR.noConfusion h, fun h => SR.noConfusion h,
        fun _ h => SR.noConfusion h⟩
    · have hb2 : pos + ci < lane.length := Nat.lt_of_not_le hb
      obtain ⟨cur, hcur⟩ := lane_at_ok lane rev (pos + ci) hb2
      obtain ⟨cc, hcc⟩ := clue_color_at_ok rev clue ci hci
      have heq : place_attempt lane rev clue pos ci (k + 1)
          = if !cur.can_be cc then .ok false
            else place_attempt lane rev clue pos (ci + 1) k := by
        simp only [place_attempt]
        rw [if_neg hb, hcur, SR_bind_ok, hcc, SR_bind_ok]
      rw [heq]
      by_cases hmis : (!cur.can_be cc) = true
      · rw [if_pos hmis]
        refine ⟨fun h => SR.noConfusion h, fun _ => by omega, ?_⟩
        intro _ h
        injection h with hb3
        exact Bool.noConfusion hb3
      · rw [if_neg hmis]
        obtain ⟨ihc, ihf, iht⟩ := ih (ci + 1) pos (by omega)
        refine ⟨ihc, ihf, ?_⟩
        intro _ h
        by_cases hk0 : 1 ≤ k
        · exact iht hk0 h
        · omega

/-- The while-loop of packed_extents never panics with fuel at least
lane.length + 2, and a found position fits the whole clue footprint in
the lane. -/
theorem find_placement_props {C : Type} [Clue C] (lane : List Cell)
    (rev : Bool) (clue : C) (hclen : 1 ≤ Clue.len clue) :
    ∀ (fuel pos : Nat), 1 ≤ fuel → lane.length + 1 ≤ pos + fuel →
      find_placement lane rev clue fuel pos ≠ SR.crash ∧
      (∀ p2, find_placement lane rev clue fuel pos = .ok p2 →
        pos ≤ p2 ∧ p2 + Clue.len clue ≤ lane.length) := by
  intro fuel
  induction fuel with
  | zero =>
    intro pos h1 _
    exact absurd h1 (by omega)
  | succ fuel ih =>
    intro pos h1 h2
    obtain ⟨pac, paf, pat⟩ := place_attempt_props lane rev clue hclen
      (Clue.len clue) 0 pos (by omega)
    constructor
    · refine bind_ne_crash pac ?_
      intro b hb
      cases b with
      | true => exact fun h => SR.noConfusion h
      | false =>
        have hposL := paf hb
        exact (ih (pos + 1) (by omega) (by omega)).1
    · intro p2 hp
      obtain ⟨b, hb, h3⟩ := bind_ok hp
      cases b with
      | true =>
        cases h3
        exact ⟨Nat.le_refl _, pat (by omega) hb⟩
      | false =>
        have hposL := paf hb
        have hrec := (ih (pos + 1) (by omega) (by omega)).2 p2 h3
        exact ⟨by omega, hrec.2⟩

theorem sep_advance_ge {C : Type} [Clue C] (rev : Bool) (olc : Option C)
    (clue : C) (pos : Nat) : pos ≤ sep_advance rev olc clue pos := by
  unfold sep_advance
  cases olc with
  | none => exact Nat.le_refl pos
  | some lc =>
    simp only []
    by_cases hr : (!rev) = true
    · rw [if_pos hr]
      by_cases hs : Clue.must_be_separated_from lc clue = true
      · rw [if_pos hs]
        omega
      · rw [if_neg hs]
    · rw [if_neg hr]
      by_cases hs : Clue.must_be_separated_from clue lc = true
      · rw [if_pos hs]
        omega
      · rw [if_neg hs]

/-- One packing step never panics and preserves the packing invariant. -/
theorem pack_step_props {C : Type} [Clue C] (clues : List C)
    (lane : List Cell) (rev : Bool)
    (hlen : ∀ c ∈ clues, 1 ≤ Clue.len c) (k : Nat) (st : PackSt C)
    (hk : k < clues.length) (hinv : PackInv clues lane rev k st) :
    pack_step clues lane rev st k ≠ SR.crash ∧
    (∀ st2, pack_step clues lane rev st k = .ok st2 →
      PackInv clues lane rev (k + 1) st2) := by
  obtain ⟨hlenE, hboundE, hchainE, hlensE, hposE⟩ := hinv
  obtain ⟨clue, hclue, hmem, hgetc⟩ := clue_at_ok clues rev k hk
  have hc1 : 1 ≤ Clue.len clue := hlen clue hmem
  constructor
  · unfold pack_step
    rw [hclue, SR_bind_ok]
    refine bind_ne_crash
      ((find_placement_props lane rev clue hc1 (lane.length + 2) _
        (by omega) (by omega)).1) ?_
    intro p2 _
    rw [subC_ok_of_le (by omega : 1 ≤ p2 + Clue.len clue), SR_bind_ok]
    exact fun h => SR.noConfusion h
  · intro st2 h
    unfold pack_step at h
    rw [hclue, SR_bind_ok] at h
    obtain ⟨p2, hp2, h2⟩ := bind_ok h
    obtain ⟨ext, hext, h3⟩ := bind_ok h2
    cases h3
    rw [subC_ok_of_le (by omega : 1 ≤ p2 + Clue.len clue)] at hext
    have hextv : ext = p2 + Clue.len clue - 1 := by
      injection hext with h4
      omega
    subst hextv
    obtain ⟨hple, hfit⟩ := (find_placement_props lane rev clue hc1
      (lane.length + 2) _ (by omega) (by omega)).2 p2 hp2
    have hsep := sep_advance_ge rev st.last_clue clue st.pos
    have hgets : ∀ j, j < k →
        (st.extents ++ [p2 + Clue.len clue - 1]).get? j
          = st.extents.get? j := by
      intro j hj
      exact List.get?_append (by omega)
    have hgetk : (st.extents ++ [p2 + Clue.len clue - 1]).get? k
        = some (p2 + Clue.len clue - 1) := by
      have := List.get?_concat_length st.extents (p2 + Clue.len clue - 1)
      rw [hlenE] at this
      exact this
    have hgetover : ∀ j, k < j →
        (st.extents ++ [p2 + Clue.len clue - 1]).get? j = none := by
      intro j hj
      refine List.get?_eq_none.mpr ?_
      rw [List.length_append, hlenE]
      simp
      omega
    refine ⟨?_, ?_, ?_, ?_, ?_⟩
    · rw [List.length_append, hlenE]
      rfl
    · intro j e hj
      by_cases hjk : j < k
      · rw [hgets j hjk] at hj
        exact hboundE j e hj
      · by_cases hjk2 : j = k
        · subst hjk2
          rw [hgetk] at hj
          injection hj with h5
          omega
        · rw [hgetover j (by omega)] at hj
          cases hj
    · intro j a b hja hjb
      by_cases hjk : j + 1 < k
      · rw [hgets j (by omega)] at hja
        rw [hgets (j + 1) hjk] at hjb
        exact hchainE j a b hja hjb
      · by_cases hjk2 : j + 1 = k
        · have hjlt : j < k := by omega
          rw [hgets j hjlt] at hja
          rw [hjk2, hgetk] at hjb
          injection hjb with h5
          obtain ⟨e, hge, hpos⟩ := hposE (by omega)
          have hjq : j = k - 1 := by omega
          rw [hjq] at hja
          rw [hge] at hja
          injection hja with h6
          omega
        · rw [hgetover (j + 1) (by omega)] at hjb
          cases hjb
    · intro j e hj
      by_cases hjk : j < k
      · rw [hgets j hjk] at hj
        exact hlensE j e hj
      · by_cases hjk2 : j = k
        · subst hjk2
          rw [hgetk] at hj
          injection hj with h5
          refine ⟨clue, hclue, ?_⟩
          omega
        · rw [hgetover j (by omega)] at hj
          cases hj
    · intro _
      refine ⟨p2 + Clue.len clue - 1, ?_, ?_⟩
      · have hq : k + 1 - 1 = k := by omega
        rw [hq]
        exact hgetk
      · show p2 + Clue.len clue = p2 + Clue.len clue - 1 + 1
        omega

/-- The whole packing scan never panics and establishes ExtInv together
with the fact that the lane is nonempty. -/
theorem pack_loop_props {C : Type} [Clue C] (clues : List C)
    (lane : List Cell) (rev : Bool)
    (hlen : ∀ c ∈ clues, 1 ≤ Clue.len c) :
    forRangeM (pack_step clues lane rev) ⟨0, [], none⟩ 0 clues.length
      ≠ SR.crash ∧
    (∀ st, forRangeM (pack_step clues lane rev) ⟨0, [], none⟩ 0
        clues.length = .ok st →
      PackInv clues lane rev clues.length st) := by
  have h0 : PackInv clues lane rev 0 ⟨0, [], none⟩ := by
    refine ⟨rfl, ?_, ?_, ?_, ?_⟩
    · intro j e hj
      cases hj
    · intro j a b hja _
      cases hja
    · intro j e hj
      cases hj
    · intro h1
      exact absurd h1 (by omega)
  have := forRangeM_inv (fun i st => PackInv clues lane rev i st)
    (pack_step clues lane rev) clues.length 0 ⟨0, [], none⟩
    (fun i si h1 h2 hp =>
      pack_step_props clues lane rev hlen i si (by omega) hp) h0
  exact ⟨this.1, fun st h => by
    have h2 := this.2 st h
    simpa using h2⟩

/-- The orphan pull-in loop never panics with the stated fuel, and keeps
the packing facts about the extents list. -/
theorem orphan_props {C : Type} [Clue C] (clues : List C) (lane : List Cell)
    (rev : Bool) (hlen : ∀ c ∈ clues, 1 ≤ Clue.len c) :
    ∀ (fuel : Nat) (extents : List Nat) (cur i : Nat),
      ExtInv clues lane rev extents →
      cur < clues.length → i < lane.length →
      (∀ e', extents.get? (cur + 1) = some e' →
        ∃ c, clue_at clues rev (cur + 1) = .ok c ∧ i + Clue.len c ≤ e') →
      cur * (lane.length + 1) + i < fuel →
      orphan_loop clues lane rev fuel extents cur i ≠ SR.crash ∧
      (∀ ex2, orphan_loop clues lane rev fuel extents cur i = .ok ex2 →
        ExtInv clues lane rev ex2) := by
  intro fuel
  induction fuel with
  | zero =>
    intro _ _ _ _ _ _ _ hm
    exact absurd hm (by omega)
  | succ fuel ih =>
    intro extents cur i hext hcur hi hnext hm
    obtain ⟨hlenE, hboundE, hchainE, hlensE⟩ := hext
    obtain ⟨cell, hcell⟩ := lane_at_ok lane rev i hi
    by_cases hfg : (!cell.can_be BACKGROUND) = true
    · obtain ⟨e, he, hge⟩ := listGetC_ok_lt extents cur
        (by rw [hlenE]; exact hcur)
      have hE2inv : ExtInv clues lane rev
          (if e < i then extents.set cur i else extents) := by
        by_cases hei : e < i
        · rw [if_pos hei]
          have hcurlen : cur < extents.length := by
            rw [hlenE]
            exact hcur
          refine ⟨?_, ?_, ?_, ?_⟩
          · rw [List.length_set]
            exact hlenE
          · intro j e2 hj
            by_cases hjc : j = cur
            · subst hjc
              rw [List.get?_set_eq_of_lt _ hcurlen] at hj
              injection hj with h5
              omega
            · rw [List.get?_set_ne _ _ (fun h => hjc h.symm)] at hj
              exact hboundE j e2 hj
          · intro j a b hja hjb
            by_cases hjc : j = cur
            · subst hjc
              rw [List.get?_set_eq_of_lt _ hcurlen] at hja
              injection hja with h5
              subst h5
              rw [List.get?_set_ne _ _ (by omega)] at hjb
              obtain ⟨c2, hc2, hterm⟩ := hnext b hjb
              have hc2b : c2 ∈ clues := by
                obtain ⟨c3, hc3, hm3, _⟩ := clue_at_ok clues rev (j + 1)
                  (by
                    have := get?_some_lt hjb
                    rw [hlenE] at this
                    exact this)
                rw [hc3] at hc2
                injection hc2 with h6
                rw [← h6]
                exact hm3
              have := hlen c2 hc2b
              omega
            · by_cases hjc2 : j + 1 = cur
              · rw [List.get?_set_ne _ _ (fun h => hjc h.symm)] at hja
                rw [hjc2, List.get?_set_eq_of_lt _ hcurlen] at hjb
                injection hjb with h5
                subst h5
                have hje : extents.get? (j + 1) = some e := by
                  rw [hjc2]
                  exact hge
                have := hchainE j a e hja hje
                omega
              · rw [List.get?_set_ne _ _ (fun h => hjc h.symm)] at hja
                rw [List.get?_set_ne _ _ (fun h => hjc2 h.symm)] at hjb
                exact hchainE j a b hja hjb
          · intro j e2 hj
            by_cases hjc : j = cur
            · subst hjc
              rw [List.get?_set_eq_of_lt _ hcurlen] at hj
              injection hj with h5
              obtain ⟨c2, hc2, hlc2⟩ := hlensE _ e hge
              refine ⟨c2, hc2, ?_⟩
              omega
            · rw [List.get?_set_ne _ _ (fun h => hjc h.symm)] at hj
              exact hlensE j e2 hj
        · rw [if_neg hei]
          exact ⟨hlenE, hboundE, hchainE, hlensE⟩
      have hE2cur : (if e < i then extents.set cur i else extents).get? cur
          = some (if e < i then i else e) := by
        by_cases hei : e < i
        · rw [if_pos hei, if_pos hei]
          exact List.get?_set_eq_of_lt _ (by rw [hlenE]; exact hcur)
        · rw [if_neg hei, if_neg hei]
          exact hge
      have hE2next : ∀ e',
          (if e < i then extents.set cur i else extents).get? (cur + 1)
            = some e' → extents.get? (cur + 1) = some e' := by
        intro e' hj
        by_cases hei : e < i
        · rw [if_pos hei, List.get?_set_ne _ _ (by omega)] at hj
          exact hj
        · rw [if_neg hei] at hj
          exact hj
      obtain ⟨c, hc, hlc⟩ := hE2inv.2.2.2 cur _ hE2cur
      have he2lt : (if e < i then i else e) < lane.length := by
        by_cases hei : e < i
        · rw [if_pos hei]
          exact hi
        · rw [if_neg hei]
          exact hboundE cur e hge
      have heq : orphan_loop clues lane rev (fuel + 1) extents cur i
          = (if cur == 0 then
              pure (if e < i then extents.set cur i else extents)
            else if ((if e < i then i else e) + 1 - Clue.len c) == 0 then
              pure (if e < i then extents.set cur i else extents)
            else orphan_loop clues lane rev fuel
              (if e < i then extents.set cur i else extents) (cur - 1)
              ((if e < i then i else e) + 1 - Clue.len c - 1)) := by
        simp only [orphan_loop]
        rw [hcell, SR_bind_ok, if_pos hfg, he, SR_bind_ok,
          listGetC_ok.mpr hE2cur, SR_bind_ok, hc, SR_bind_ok,
          subC_ok_of_le (by omega : Clue.len c ≤ (if e < i then i else e) + 1),
          SR_bind_ok]
      rw [heq]
      by_cases hc0 : (cur == 0) = true
      · rw [if_pos hc0]
        refine ⟨fun h => SR.noConfusion h, ?_⟩
        intro ex2 h
        cases h
        exact hE2inv
      · rw [if_neg hc0]
        by_cases hi20 :
            (((if e < i then i else e) + 1 - Clue.len c) == 0) = true
        · rw [if_pos hi20]
          refine ⟨fun h => SR.noConfusion h, ?_⟩
          intro ex2 h
          cases h
          exact hE2inv
        · rw [if_neg hi20]
          have hcne : cur ≠ 0 := by
            simpa using hc0
          have hi2ne : (if e < i then i else e) + 1 - Clue.len c ≠ 0 := by
            simpa using hi20
          have hmul : cur * (lane.length + 1)
              = (cur - 1) * (lane.length + 1) + (lane.length + 1) := by
            have hc1 : cur = cur - 1 + 1 := by omega
            conv_lhs => rw [hc1]
            rw [Nat.succ_mul]
          refine ih _ (cur - 1) _ hE2inv (by omega) (by omega) ?_ (by omega)
          intro e' hj
          have hj2 : (if e < i then extents.set cur i else extents).get? cur
              = some e' := by
            have hq : cur - 1 + 1 = cur := by omega
            rw [hq] at hj
            exact hj
          rw [hE2cur] at hj2
          injection hj2 with h5
          refine ⟨c, ?_, ?_⟩
          · have hq : cur - 1 + 1 = cur := by omega
            rw [hq]
            exact hc
          · omega
    · have heq : orphan_loop clues lane rev (fuel + 1) extents cur i
          = (if i == 0 then pure extents
             else orphan_loop clues lane rev fuel extents cur (i - 1)) := by
        simp only [orphan_loop]
        rw [hcell, SR_bind_ok, if_neg hfg]
      rw [heq]
      by_cases hi0 : (i == 0) = true
      · rw [if_pos hi0]
        refine ⟨fun h => SR.noConfusion h, ?_⟩
        intro ex2 h
        cases h
        exact ⟨hlenE, hboundE, hchainE, hlensE⟩
      · rw [if_neg hi0]
        have hine : i ≠ 0 := by
          simpa using hi0
        refine ih extents cur (i - 1) ⟨hlenE, hboundE, hchainE, hlensE⟩
          hcur (by omega) ?_ (by omega)
        intro e' hj
        obtain ⟨c2, hc2, hterm⟩ := hnext e' hj
        exact ⟨c2, hc2, by omega⟩

/-- packed_extents never panics on a non-empty clue list whose clues all
have positive length, and its result satisfies in-lane bounds, strict
ordering, and per-clue footprint facts (stated in true lane
coordinates). -/
theorem packed_extents_ok {C : Type} [Clue C] (clues : List C)
    (lane : List Cell) (rev : Bool) (hne : clues ≠ [])
    (hlen : ∀ c ∈ clues, 1 ≤ Clue.len c) :
    packed_extents clues lane rev ≠ SR.crash ∧
    (∀ ext, packed_extents clues lane rev = .ok ext →
      ext.length = clues.length ∧
      (∀ j e, ext.get? j = some e → e < lane.length) ∧
      (∀ j a b, ext.get? j = some a → ext.get? (j + 1) = some b → a < b) ∧
      (rev = false → ∀ j e c, ext.get? j = some e →
        clues.get? j = some c → Clue.len c ≤ e + 1) ∧
      (rev = true → ∀ j e c, ext.get? j = some e →
        clues.get? j = some c → e + Clue.len c ≤ lane.length)) := by
  obtain ⟨plc, plo⟩ := pack_loop_props clues lane rev hlen
  have hn : 1 ≤ clues.length := by
    cases clues with
    | nil => exact absurd rfl hne
    | cons a as => simp
  have hmain : ∀ st, forRangeM (pack_step clues lane rev) ⟨0, [], none⟩ 0
      clues.length = .ok st →
      1 ≤ lane.length ∧ 1 ≤ st.extents.length ∧
      orphan_loop clues lane rev
          ((lane.length + 2) * (clues.length + 2)) st.extents
          (st.extents.length - 1) (lane.length - 1) ≠ SR.crash ∧
      (∀ ex2, orphan_loop clues lane rev
          ((lane.length + 2) * (clues.length + 2)) st.extents
          (st.extents.length - 1) (lane.length - 1) = .ok ex2 →
        ExtInv clues lane rev ex2) := by
    intro st hst
    obtain ⟨hlenE, hboundE, hchainE, hlensE, hposE⟩ := plo st hst
    have hstlen : 1 ≤ st.extents.length := by
      rw [hlenE]
      exact hn
    have hL1 : 1 ≤ lane.length := by
      cases hg : st.extents.get? 0 with
      | none =>
        have := List.get?_eq_none.mp hg
        omega
      | some e =>
        have := hboundE 0 e hg
        omega
    have hmeas : (st.extents.length - 1) * (lane.length + 1)
        + (lane.length - 1)
        < (lane.length + 2) * (clues.length + 2) := by
      rw [hlenE]
      have e1 : (clues.length - 1) * (lane.length + 1)
          ≤ clues.length * (lane.length + 1) :=
        Nat.mul_le_mul_right _ (by omega)
      have e2 : clues.length * (lane.length + 1)
          = clues.length * lane.length + clues.length := by ring
      have e3 : (lane.length + 2) * (clues.length + 2)
          = clues.length * lane.length + 2 * lane.length
            + 2 * clues.length + 4 := by ring
      omega
    have horp := orphan_props clues lane rev hlen
      ((lane.length + 2) * (clues.length + 2)) st.extents
      (st.extents.length - 1) (lane.length - 1)
      ⟨hlenE, hboundE, hchainE, hlensE⟩
      (by omega) (by omega)
      (by
        intro e' hj
        have hnone : st.extents.get? (st.extents.length - 1 + 1) = none :=
          List.get?_eq_none.mpr (by omega)
        rw [hnone] at hj
        cases hj)
      hmeas
    exact ⟨hL1, hstlen, horp.1, horp.2⟩
  constructor
  · unfold packed_extents
    refine bind_ne_crash plc ?_
    intro st hst
    obtain ⟨hL1, hstlen, horpc, horpo⟩ := hmain st hst
    rw [subC_ok_of_le (by omega : 1 ≤ st.extents.length), SR_bind_ok,
      subC_ok_of_le (by omega : 1 ≤ lane.length), SR_bind_ok]
    refine bind_ne_crash horpc ?_
    intro ex2 hex2
    obtain ⟨hlen2, hbound2, hchain2, hlens2⟩ := horpo ex2 hex2
    by_cases hrev : rev = true
    · rw [if_pos hrev]
      obtain ⟨l2, hl2, _, _⟩ := rev_fix_ok lane.length ex2.reverse
        (by
          intro e he
          obtain ⟨j, hj⟩ := List.mem_iff_get?.mp (List.mem_reverse.mp he)
          exact hbound2 j e hj)
      rw [hl2]
      exact fun h => SR.noConfusion h
    · rw [if_neg hrev]
      exact fun h => SR.noConfusion h
  · intro ext hext
    unfold packed_extents at hext
    obtain ⟨st, hst, h2⟩ := bind_ok hext
    obtain ⟨hL1, hstlen, horpc, horpo⟩ := hmain st hst
    rw [subC_ok_of_le (by omega : 1 ≤ st.extents.length), SR_bind_ok,
      subC_ok_of_le (by omega : 1 ≤ lane.length), SR_bind_ok] at h2
    obtain ⟨ex2, hex2, h3⟩ := bind_ok h2
    obtain ⟨hlen2, hbound2, hchain2, hlens2⟩ := horpo ex2 hex2
    by_cases hrev : rev = true
    · rw [if_pos hrev] at h3
      obtain ⟨l2, hl2, hl2len, hl2map⟩ := rev_fix_ok lane.length ex2.reverse
        (by
          intro e he
          obtain ⟨j, hj⟩ := List.mem_iff_get?.mp (List.mem_reverse.mp he)
          exact hbound2 j e hj)
      rw [hl2] at h3
      cases h3
      have hlenl2 : ext.length = clues.length := by
        rw [hl2len, List.length_reverse, hlen2]
      have hget : ∀ j, j < clues.length →
          ∃ e', ex2.get? (ex2.length - 1 - j) = some e' ∧
            ext.get? j = some (lane.length - 1 - e') := by
        intro j hj
        have hjrev : j < ex2.reverse.length := by
          rw [List.length_reverse, hlen2]
          exact hj
        cases hg : ex2.reverse.get? j with
        | none =>
          have := List.get?_eq_none.mp hg
          omega
        | some e' =>
          have hg2 : ex2.get? (ex2.length - 1 - j) = some e' := by
            rw [← List.get?_reverse (by rw [hlen2]; exact hj)]
            exact hg
          exact ⟨e', hg2, hl2map j e' hg⟩
      refine ⟨hlenl2, ?_, ?_, ?_, ?_⟩
      · intro j e hj
        have hjn : j < clues.length := by
          have := get?_some_lt hj
          rw [hlenl2] at this
          exact this
        obtain ⟨e', hg2, hmap⟩ := hget j hjn
        rw [hmap] at hj
        injection hj with h5
        omega
      · intro j a b hja hjb
        have hjn : j + 1 < clues.length := by
          have := get?_some_lt hjb
          rw [hlenl2] at this
          exact this
        obtain ⟨a', hga, hmapa⟩ := hget j (by omega)
        obtain ⟨b', hgb, hmapb⟩ := hget (j + 1) hjn
        rw [hmapa] at hja
        rw [hmapb] at hjb
        injection hja with h5
        injection hjb with h6
        have hidx : ex2.length - 1 - (j + 1) + 1 = ex2.length - 1 - j := by
          rw [hlen2]
          omega
        have hcc := hchain2 (ex2.length - 1 - (j + 1)) b' a' hgb
          (by rw [hidx]; exact hga)
        have hba : a' < lane.length := hbound2 _ a' hga
        omega
      · intro hf
        rw [hf] at hrev
        exact Bool.noConfusion hrev
      · intro _ j e c hj hc
        have hjn : j < clues.length := by
          have := get?_some_lt hj
          rw [hlenl2] at this
          exact this
        obtain ⟨e', hg2, hmap⟩ := hget j hjn
        rw [hmap] at hj
        injection hj with h5
        obtain ⟨c2, hc2, hlc2⟩ := hlens2 (ex2.length - 1 - j) e' hg2
        obtain ⟨c3, hc3, _, hc3get⟩ := clue_at_ok clues rev
          (ex2.length - 1 - j) (by rw [hlen2]; omega)
        rw [hc3] at hc2
        injection hc2 with h6
        rw [if_pos hrev] at hc3get
        have hidx2 : clues.length - 1 - (ex2.length - 1 - j) = j := by
          rw [hlen2]
          omega
        rw [hidx2] at hc3get
        rw [hc3get] at hc
        injection hc with h7
        have hbe : e' < lane.length := hbound2 _ e' hg2
        subst h6
        subst h7
        omega
    · rw [if_neg hrev] at h3
      cases h3
      have hrf : rev = false := by
        cases rev with
        | false => rfl
        | true => exact absurd rfl hrev
      refine ⟨hlen2, hbound2, hchain2, ?_, ?_⟩
      · intro _ j e c hj hc
        obtain ⟨c2, hc2, hlc2⟩ := hlens2 j e hj
        obtain ⟨c3, hc3, _, hc3get⟩ := clue_at_ok clues rev j (by
          have := get?_some_lt hj
          rw [hlen2] at this
          exact this)
        rw [hc3] at hc2
        injection hc2 with h6
        rw [hrf] at hc3get
        rw [if_neg (by simp)] at hc3get
        rw [hc3get] at hc
        injection hc with h7
        subst h6
        subst h7
        exact hlc2
      · intro ht
        rw [ht] at hrf
        exact Bool.noConfusion hrf

theorem learn_cell_nc (color : Color) (st : LaneSt) (idx : Nat)
    (h : idx < st.lane.length) :
    learn_cell color st idx ≠ SR.crash ∧
    (∀ st2, learn_cell color st idx = .ok st2 →
      st2.lane.length = st.lane.length) := by
  obtain ⟨cell, hcell, _⟩ := listGetC_ok_lt st.lane idx h
  constructor
  · unfold learn_cell
    rw [hcell, SR_bind_ok]
    refine bind_ne_crash ?_ (fun r _ => fun hh => SR.noConfusion hh)
    unfold Cell.learn
    by_cases hc : (!cell.can_be color) = true
    · rw [if_pos hc]
      exact fun hh => SR.noConfusion hh
    · rw [if_neg hc]
      exact fun hh => SR.noConfusion hh
  · intro st2 h2
    unfold learn_cell at h2
    rw [hcell, SR_bind_ok] at h2
    obtain ⟨r, hr, h3⟩ := bind_ok h2
    cases h3
    simp [List.length_set]

theorem learn_cell_intersect_nc (pc : Cell) (st : LaneSt) (idx : Nat)
    (h : idx < st.lane.length) :
    learn_cell_intersect pc st idx ≠ SR.crash ∧
    (∀ st2, learn_cell_intersect pc st idx = .ok st2 →
      st2.lane.length = st.lane.length) := by
  obtain ⟨cell, hcell, _⟩ := listGetC_ok_lt st.lane idx h
  constructor
  · unfold learn_cell_intersect
    rw [hcell, SR_bind_ok]
    refine bind_ne_crash ?_ (fun r _ => fun hh => SR.noConfusion hh)
    unfold Cell.learn_intersect
    by_cases hc : (cell.possible_color_mask &&& pc.possible_color_mask
        == 0) = true
    · rw [if_pos hc]
      exact fun hh => SR.noConfusion hh
    · rw [if_neg hc]
      exact fun hh => SR.noConfusion hh
  · intro st2 h2
    unfold learn_cell_intersect at h2
    rw [hcell, SR_bind_ok] at h2
    obtain ⟨r, hr, h3⟩ := bind_ok h2
    cases h3
    simp [List.length_set]

/-- A range of learn_cell writes with in-lane indices neither panics nor
changes the lane length. -/
theorem learn_range_nc (color : Color) (start n L : Nat)
    (hidx : ∀ i, start ≤ i → i < start + n → i < L) :
    ∀ st : LaneSt, st.lane.length = L →
      forRangeM (fun st2 i => learn_cell color st2 i) st start n
        ≠ SR.crash ∧
      (∀ st2, forRangeM (fun st2 i => learn_cell color st2 i) st start n
          = .ok st2 → st2.lane.length = L) := by
  intro st hst
  have := forRangeM_inv (fun _ s => s.lane.length = L)
    (fun st2 i => learn_cell color st2 i) n start st
    (fun i si h1 h2 hp => by
      have hnc := learn_cell_nc color si i (by rw [hp]; exact hidx i h1 h2)
      exact ⟨hnc.1, fun s2 hs2 => by
        show s2.lane.length = L
        rw [hnc.2 s2 hs2]; exact hp⟩) hst
  exact ⟨this.1, fun st2 h => this.2 st2 h⟩

/-- A range of learn_cell_intersect writes with in-lane indices neither
panics nor changes the lane length (the written cell may depend on the
index). -/
theorem intersect_range_nc (f : Nat → Cell) (start n L : Nat)
    (hidx : ∀ i, start ≤ i → i < start + n → i < L) :
    ∀ st : LaneSt, st.lane.length = L →
      forRangeM (fun st2 i => learn_cell_intersect (f i) st2 i) st start n
        ≠ SR.crash ∧
      (∀ st2, forRangeM (fun st2 i => learn_cell_intersect (f i) st2 i) st
          start n = .ok st2 → st2.lane.length = L) := by
  intro st hst
  have := forRangeM_inv (fun _ s => s.lane.length = L)
    (fun st2 i => learn_cell_intersect (f i) st2 i) n start st
    (fun i si h1 h2 hp => by
      have hnc := learn_cell_intersect_nc (f i) si i
        (by rw [hp]; exact hidx i h1 h2)
      exact ⟨hnc.1, fun s2 hs2 => by
        show s2.lane.length = L
        rw [hnc.2 s2 hs2]; exact hp⟩) hst
  exact ⟨this.1, fun st2 h => this.2 st2 h⟩

theorem NCP_ok {s : LaneSt} {L : Nat} (h : s.lane.length = L) :
    NCP (.ok s) L :=
  ⟨fun hh => SR.noConfusion hh, fun st2 h2 => by
    injection h2 with h3
    rw [← h3]; exact h⟩

theorem NCP_pure {s : LaneSt} {L : Nat} (h : s.lane.length = L) :
    NCP (pure s) L := NCP_ok h

theorem NCP_contra {L : Nat} : NCP .contra L :=
  ⟨fun hh => SR.noConfusion hh, fun st2 h2 => SR.noConfusion h2⟩

theorem NCP_bind {x : SR LaneSt} {f : LaneSt → SR LaneSt} {L : Nat}
    (hx : NCP x L)
    (hf : ∀ s, x = .ok s → s.lane.length = L → NCP (f s) L) :
    NCP (x >>= f) L := by
  cases hh : x with
  | crash => exact absurd hh hx.1
  | contra =>
    exact ⟨fun h2 => SR.noConfusion h2, fun st2 h2 => SR.noConfusion h2⟩
  | ok s =>
    rw [SR_bind_ok]
    exact hf s hh (hx.2 s hh)

theorem NCP_learn {color : Color} {st : LaneSt} {idx L : Nat}
    (h : st.lane.length = L) (hidx : idx < L) :
    NCP (learn_cell color st idx) L := by
  have := learn_cell_nc color st idx (by rw [h]; exact hidx)
  exact ⟨this.1, fun st2 h2 => by rw [this.2 st2 h2]; exact h⟩

theorem NCP_learn_range {color : Color} {st : LaneSt} {start n L : Nat}
    (h : st.lane.length = L)
    (hidx : ∀ i, start ≤ i → i < start + n → i < L) :
    NCP (forRangeM (fun st2 i => learn_cell color st2 i) st start n) L := by
  have := learn_range_nc color start n L hidx st h
  exact ⟨this.1, this.2⟩

theorem NCP_intersect_range (f : Nat → Cell) {st : LaneSt}
    {start n L : Nat} (h : st.lane.length = L)
    (hidx : ∀ i, start ≤ i → i < start + n → i < L) :
    NCP (forRangeM (fun st2 i => learn_cell_intersect (f i) st2 i)
      st start n) L := by
  have := intersect_range_nc f start n L hidx st h
  exact ⟨this.1, this.2⟩

theorem separation_before_ok {C : Type} [Clue C] (clues : List C)
    (clue : C) (i : Nat) (hi : i < clues.length) :
    ∃ gb, separation_before clues clue i = .ok gb ∧
      (gb = true → 1 ≤ i) := by
  unfold separation_before
  by_cases h0 : i = 0
  · rw [if_pos h0]
    exact ⟨false, rfl, fun h => Bool.noConfusion h⟩
  · rw [if_neg h0]
    obtain ⟨prev, hprev, _⟩ := listGetC_ok_lt clues (i - 1) (by omega)
    rw [hprev, SR_bind_ok]
    exact ⟨_, rfl, fun _ => by omega⟩

theorem separation_after_ok {C : Type} [Clue C] (clues : List C)
    (clue : C) (i : Nat) (hi : i < clues.length) :
    ∃ ga, separation_after clues clue i = .ok ga ∧
      (ga = true → i + 1 < clues.length) := by
  unfold separation_after
  by_cases h0 : i + 1 = clues.length
  · rw [if_pos h0]
    exact ⟨false, rfl, fun h => Bool.noConfusion h⟩
  · rw [if_neg h0]
    obtain ⟨next, hnext, _⟩ := listGetC_ok_lt clues (i + 1) (by omega)
    rw [hnext, SR_bind_ok]
    exact ⟨_, rfl, fun _ => by omega⟩

/-- One overlap write-out step of skim_line neither panics nor changes the
lane length, given the packed-extent facts of both extent lists. -/
theorem overlap_step_nc {C : Type} [Clue C] (clues : List C)
    (lp rp : List Nat) (L : Nat)
    (hlen : ∀ c ∈ clues, 1 ≤ Clue.len c)
    (hlp_len : lp.length = clues.length)
    (hrp_len : rp.length = clues.length)
    (hlp_bound : ∀ j e, lp.get? j = some e → e < L)
    (hrp_bound : ∀ j e, rp.get? j = some e → e < L)
    (hlp_chain : ∀ j a b, lp.get? j = some a → lp.get? (j + 1) = some b →
      a < b)
    (hrp_chain : ∀ j a b, rp.get? j = some a → rp.get? (j + 1) = some b →
      a < b)
    (st : LaneSt) (i : Nat) (hi : i < clues.length)
    (hlane : st.lane.length = L) :
    NCP (overlap_step clues lp rp st i) L := by
  obtain ⟨clue, hclue, hclueg⟩ := listGetC_ok_lt clues i hi
  obtain ⟨gb, hgb, hgb1⟩ := separation_before_ok clues clue i hi
  obtain ⟨ga, hga, hga1⟩ := separation_after_ok clues clue i hi
  obtain ⟨left, hleft, hleftg⟩ :=
    listGetC_ok_lt rp i (by rw [hrp_len]; exact hi)
  obtain ⟨right, hright, hrightg⟩ :=
    listGetC_ok_lt lp i (by rw [hlp_len]; exact hi)
  have hrightL : right < L := hlp_bound i right hrightg
  have hleftL : left < L := hrp_bound i left hleftg
  unfold overlap_step
  rw [hclue, SR_bind_ok, hgb, SR_bind_ok, hga, SR_bind_ok,
    hleft, SR_bind_ok, hright, SR_bind_ok]
  by_cases hrl : right < left
  · rw [if_pos hrl]
    exact NCP_pure hlane
  · rw [if_neg hrl]
    by_cases hbig : Clue.len clue < right - left + 1
    · rw [if_pos hbig]
      exact NCP_contra
    · rw [if_neg hbig]
      have h1le : 1 ≤ Clue.len clue := hlen clue (List.get?_mem hclueg)
      rw [subC_ok_of_le h1le, SR_bind_ok]
      have hwig : right - left ≤ Clue.len clue - 1 := by omega
      rw [subC_ok_of_le hwig, SR_bind_ok]
      refine NCP_bind
        (NCP_intersect_range
          (fun idx => (List.range (Clue.len clue - 1 - (right - left) + 1)).foldl
            (fun cc w => cc.actually_could_be
              (Clue.color_at clue (idx - left + w)))
            Cell.new_impossible)
          hlane (fun j h1 h2 => by omega)) ?_
      intro st3 _ hL3
      by_cases heq : ((right : Int) - (left : Int) + 1
          == (Clue.len clue : Int)) = true
      · rw [if_pos heq]
        have hga2 : ga = true → right + 1 < L := by
          intro hgat
          have hin : i + 1 < clues.length := hga1 hgat
          obtain ⟨b, hb⟩ : ∃ b, lp.get? (i + 1) = some b := by
            cases hbb : lp.get? (i + 1) with
            | some b => exact ⟨b, rfl⟩
            | none =>
              have := List.get?_eq_none.mp hbb
              omega
          have hrb : right < b := hlp_chain i right b hrightg hb
          have hbL : b < L := hlp_bound (i + 1) b hb
          omega
        cases gb with
        | false =>
          cases ga with
          | false =>
            show NCP (pure st3) L
            exact NCP_pure hL3
          | true =>
            show NCP (learn_cell BACKGROUND st3 (right + 1)) L
            exact NCP_learn hL3 (hga2 rfl)
        | true =>
          have hi1 : 1 ≤ i := hgb1 rfl
          have hil : i ≤ left := chain_lower rp hrp_chain i left hleftg
          have h1left : 1 ≤ left := le_trans hi1 hil
          show NCP (subC left 1 >>= fun j =>
            learn_cell BACKGROUND st3 j >>= fun y =>
              if ga = true then learn_cell BACKGROUND y (right + 1)
              else pure y) L
          rw [subC_ok_of_le h1left, SR_bind_ok]
          refine NCP_bind (NCP_learn hL3 (by omega)) ?_
          intro st4 _ hL4
          cases ga with
          | false =>
            show NCP (pure st4) L
            exact NCP_pure hL4
          | true =>
            show NCP (learn_cell BACKGROUND st4 (right + 1)) L
            exact NCP_learn hL4 (hga2 rfl)
      · rw [if_neg heq]
        exact NCP_pure hL3

/-- One between-blocks background step of skim_line neither panics nor
changes the lane length. -/
theorem gap_step_nc {C : Type} [Clue C] (clues : List C)
    (lp rp : List Nat) (L : Nat)
    (hlen : ∀ c ∈ clues, 1 ≤ Clue.len c)
    (hlp_len : lp.length = clues.length)
    (hrp_len : rp.length = clues.length)
    (hlp_bound : ∀ j e, lp.get? j = some e → e < L)
    (hlp_fit : ∀ j e c, lp.get? j = some e → clues.get? j = some c →
      Clue.len c ≤ e + 1)
    (st : LaneSt) (i : Nat) (hi : i + 1 < clues.length)
    (hlane : st.lane.length = L) :
    NCP (gap_step clues lp rp st i) L := by
  obtain ⟨e, he, heg⟩ :=
    listGetC_ok_lt rp i (by rw [hrp_len]; omega)
  obtain ⟨c, hc, hcg⟩ := listGetC_ok_lt clues i (by omega)
  obtain ⟨e2, he2, he2g⟩ :=
    listGetC_ok_lt lp (i + 1) (by rw [hlp_len]; exact hi)
  obtain ⟨c2, hc2, hc2g⟩ := listGetC_ok_lt clues (i + 1) hi
  have h1le : 1 ≤ Clue.len c := hlen c (List.get?_mem hcg)
  have hfit : Clue.len c2 ≤ e2 + 1 := hlp_fit (i + 1) e2 c2 he2g hc2g
  have he2L : e2 < L := hlp_bound (i + 1) e2 he2g
  unfold gap_step
  rw [he, SR_bind_ok, hc, SR_bind_ok,
    subC_ok_of_le (by omega : 1 ≤ e + Clue.len c), SR_bind_ok,
    he2, SR_bind_ok, hc2, SR_bind_ok,
    subC_ok_of_le (by omega : Clue.len c2 ≤ e2 + 1), SR_bind_ok]
  by_cases hz : ((e2 + 1 - Clue.len c2 : Nat) == 0) = true
  · rw [if_pos hz]
    exact NCP_pure hlane
  · rw [if_neg hz]
    have hz2 : e2 + 1 - Clue.len c2 ≠ 0 := by
      intro hh
      exact hz (by simp [hh])
    exact NCP_learn_range hlane (fun j h1 h2 => by omega)

theorem NCP_bind_any {α : Type} {x : SR α} {f : α → SR LaneSt} {L : Nat}
    (hx : x ≠ SR.crash) (hf : ∀ a, x = .ok a → NCP (f a) L) :
    NCP (x >>= f) L := by
  cases hh : x with
  | crash => exact absurd hh hx
  | contra =>
    exact ⟨fun h2 => SR.noConfusion h2, fun st2 h2 => SR.noConfusion h2⟩
  | ok a =>
    rw [SR_bind_ok]
    exact hf a hh

theorem listLastC_ok_ne {α : Type} (xs : List α) (h : xs ≠ []) :
    ∃ a, listLastC xs = .ok a := by
  cases hg : xs.getLast? with
  | some a =>
    exact ⟨a, by unfold listLastC; rw [hg]⟩
  | none =>
    exact absurd (List.getLast?_eq_none_iff.mp hg) h

/-- skim_line neither panics nor changes the lane length whenever every
clue has positive length (always true for real clues: Nono counts and
Triano (cap, body-length, cap) triples are nonzero-length). -/
theorem skim_line_NCP {C : Type} [Clue C] (clues : List C)
    (lane0 : List Cell) (hlen : ∀ c ∈ clues, 1 ≤ Clue.len c) :
    NCP (skim_line clues lane0) lane0.length := by
  unfold skim_line
  by_cases hemp : clues.isEmpty = true
  · rw [if_pos hemp]
    exact NCP_learn_range rfl (fun i h1 h2 => by omega)
  · rw [if_neg hemp]
    have hne : clues ≠ [] := by
      cases clues with
      | nil => exact absurd rfl hemp
      | cons a as => exact fun hh => List.noConfusion hh
    have hn1 : 1 ≤ clues.length := by
      cases clues with
      | nil => exact absurd rfl hne
      | cons a as => simp
    refine NCP_bind
      (NCP_intersect_range (fun _ => line_colors clues) rfl
        (fun i h1 h2 => by omega)) ?_
    intro st1 _ hL1
    obtain ⟨pf_nc, pf_ok⟩ := packed_extents_ok clues st1.lane false hne hlen
    refine NCP_bind_any pf_nc ?_
    intro lp hlp
    obtain ⟨hlp_len, hlp_bound, hlp_chain, hlp_fit0, _⟩ := pf_ok lp hlp
    have hlp_fit := hlp_fit0 rfl
    obtain ⟨pt_nc, pt_ok⟩ := packed_extents_ok clues st1.lane true hne hlen
    refine NCP_bind_any pt_nc ?_
    intro rp hrp
    obtain ⟨hrp_len, hrp_bound, hrp_chain, _, _⟩ := pt_ok rp hrp
    rw [hL1] at hlp_bound hrp_bound
    refine NCP_bind ?_ ?_
    · have := forRangeM_inv (fun _ s => s.lane.length = lane0.length)
        (overlap_step clues lp rp) clues.length 0 st1
        (fun i si h1 h2 hp => by
          have hstep := overlap_step_nc clues lp rp lane0.length hlen
            hlp_len hrp_len hlp_bound hrp_bound hlp_chain hrp_chain
            si i (by omega) hp
          exact ⟨hstep.1, fun s2 hs2 => by
            show s2.lane.length = lane0.length
            exact hstep.2 s2 hs2⟩) hL1
      exact ⟨this.1, this.2⟩
    · intro st2 _ hL2
      refine NCP_bind ?_ ?_
      · have := forRangeM_inv (fun _ s => s.lane.length = lane0.length)
          (gap_step clues lp rp) (clues.length - 1) 0 st2
          (fun i si h1 h2 hp => by
            have hstep := gap_step_nc clues lp rp lane0.length hlen
              hlp_len hrp_len hlp_bound hlp_fit si i (by omega) hp
            exact ⟨hstep.1, fun s2 hs2 => by
              show s2.lane.length = lane0.length
              exact hstep.2 s2 hs2⟩) hL2
        exact ⟨this.1, this.2⟩
      · intro st3 _ hL3
        obtain ⟨e0, he0, he0g⟩ := listGetC_ok_lt lp 0 (by omega)
        obtain ⟨c0, hc0, _⟩ := listGetC_ok_lt clues 0 (by omega)
        have hrp_ne : rp ≠ [] := by
          intro hh
          rw [hh] at hrp_len
          simp at hrp_len
          omega
        obtain ⟨eL, heL⟩ := listLastC_ok_ne rp hrp_ne
        obtain ⟨cL, hcL⟩ := listLastC_ok_ne clues hne
        rw [he0, SR_bind_ok, hc0, SR_bind_ok, heL, SR_bind_ok,
          hcL, SR_bind_ok]
        have he0L : e0 < lane0.length := hlp_bound 0 e0 he0g
        by_cases hpos : (0 : Int) ≤ (e0 : Int) - (Clue.len c0 : Int)
        · show NCP (if (0 : Int) ≤ (e0 : Int) - (Clue.len c0 : Int) then
              forRangeM (fun st2 i => learn_cell BACKGROUND st2 i) st3 0
                  (((e0 : Int) - (Clue.len c0 : Int)).toNat + 1) >>=
                fun y =>
                forRangeM (fun st2 i => learn_cell BACKGROUND st2 i) y
                  (eL + Clue.len cL) (lane0.length - (eL + Clue.len cL))
            else
              pure st3 >>= fun y =>
                forRangeM (fun st2 i => learn_cell BACKGROUND st2 i) y
                  (eL + Clue.len cL) (lane0.length - (eL + Clue.len cL)))
            lane0.length
          rw [if_pos hpos]
          refine NCP_bind
            (NCP_learn_range hL3 (fun i h1 h2 => by omega)) ?_
          intro st4 _ hL4
          exact NCP_learn_range hL4 (fun i h1 h2 => by omega)
        · show NCP (if (0 : Int) ≤ (e0 : Int) - (Clue.len c0 : Int) then
              forRangeM (fun st2 i => learn_cell BACKGROUND st2 i) st3 0
                  (((e0 : Int) - (Clue.len c0 : Int)).toNat + 1) >>=
                fun y =>
                forRangeM (fun st2 i => learn_cell BACKGROUND st2 i) y
                  (eL + Clue.len cL) (lane0.length - (eL + Clue.len cL))
            else
              pure st3 >>= fun y =>
                forRangeM (fun st2 i => learn_cell BACKGROUND st2 i) y
                  (eL + Clue.len cL) (lane0.length - (eL + Clue.len cL)))
            lane0.length
          rw [if_neg hpos]
          refine NCP_bind (NCP_pure hL3) ?_
          intro st4 _ hL4
          exact NCP_learn_range hL4 (fun i h1 h2 => by omega)

/-- C10 counterexample: packed_extents panics on an empty clue slice —
the orphan pull-in loop starts with the unsigned subtraction
extents.len() - 1, which underflows when no extents were packed. -/
theorem C10_counterexample :
    packed_extents ([] : List Nono) [Cell.from_color BACKGROUND] false
      = SR.crash := by rfl

/-- C10 (amended): for every lane of Cells and every clue slice whose
clues all have positive length, packed_extents never panics provided the
clue slice is additionally non-empty, and skim_line (which routes empty
clue slices through its all-background special case before ever calling
packed_extents) never panics: every lane and extent index they access is
in bounds and no unsigned subtraction underflows, so they always return
Ok or Err. -/
theorem C10_no_panic {C : Type} [Clue C] (clues : List C)
    (lane : List Cell) (reversed : Bool)
    (hlen : ∀ c ∈ clues, 1 ≤ Clue.len c) :
    (clues ≠ [] → packed_extents clues lane reversed ≠ SR.crash) ∧
    skim_line clues lane ≠ SR.crash := by
  constructor
  · intro hne
    exact (packed_extents_ok clues lane reversed hne hlen).1
  · exact (skim_line_NCP clues lane hlen).1

/-- C10 witness: the hypothesis and both conclusions at a concrete
one-clue input. -/
theorem C10_witness :
    (∀ c ∈ [nono_black 1], 1 ≤ Clue.len c) ∧
    (([nono_black 1] : List Nono) ≠ [] →
      packed_extents [nono_black 1] lane_bw4 false ≠ SR.crash) ∧
    skim_line [nono_black 1] lane_bw4 ≠ SR.crash := by
  have h := C10_no_panic [nono_black 1] lane_bw4 false (by decide)
  exact ⟨by decide, h.1, h.2⟩

end NumberLoom
